import Mathlib

/-!
# AudioCensor: delay buffer, censorship regions and word matching

A shallow embedding of the core of `src/core/audio_processor.cpp` and
`src/core/word_detector.cpp`.

Conventions of the embedding:

* a PCM sample (`short`) is an `Int`; the delay buffer `std::deque<short>` is a `List Int`
  whose head is the front of the deque;
* a C++ `int` is an `Int`. In the timestamp conversion and in the product
  `buffer_size_in_chunks * chunk_size` the 32-bit range is part of the model: a sum or a
  product outside the range wraps around (`wrap32`) and a double outside the range is
  converted to `INT_MIN` (`static_cast_int32`), which is what the compiled x86-64 code does
  (both are undefined behaviour in C++). The chunk counter and `buffer_size_for` are exact;
* a `double` is the rational number (`ℚ`) it stands for. In the timestamp conversion every
  operation is rounded to the nearest double (`binary64`); `buffer_size_for` and
  `throttle_delay` are evaluated without rounding. `static_cast<int>` truncates toward zero;
* a `std::string` is the list of its bytes (`List (Fin 256)`), so `length()` is the number of
  bytes;
* `std::regex` and `MD5` are library code and are taken as parameters.
-/

namespace audiocensor

/-! ## The delay buffer (`audio_buffer`) -/

/-- One round of the loop body `audio_buffer.push_back(sample); if (audio_buffer.size() >
capacity) audio_buffer.pop_front();` of `AudioProcessor::run`, where `capacity` is
`buffer_size_in_chunks * chunk_size`. -/
def push_sample (capacity : Nat) (audio_buffer : List Int) (sample : Int) : List Int :=
  let pushed := audio_buffer ++ [sample]
  if pushed.length > capacity then pushed.tail else pushed

/-- The loop `for (short sample : input_chunk) { ... }` of `AudioProcessor::run` that adds a
captured chunk to the delay buffer. -/
def push (capacity : Nat) (audio_buffer : List Int) (input_chunk : List Int) : List Int :=
  input_chunk.foldl (push_sample capacity) audio_buffer

/-- The loop `for (int i = 0; i < chunk_size; i++) if (!audio_buffer.empty()) { output_chunk[i]
= audio_buffer.front(); audio_buffer.pop_front(); }`, started at index `i` with `fuel`
iterations left. Returns the output chunk and the buffer. -/
def pop_loop : Nat → Nat → List Int → List Int → List Int × List Int
  | 0, _, output_chunk, audio_buffer => (output_chunk, audio_buffer)
  | fuel + 1, i, output_chunk, audio_buffer =>
    match audio_buffer with
    | [] => pop_loop fuel (i + 1) output_chunk []
    | front :: rest => pop_loop fuel (i + 1) (output_chunk.set i front) rest

/-- The extraction of one chunk in `AudioProcessor::run`: the output chunk is first filled with
zeros (`std::fill`), then, if `samples_available >= chunk_size`, filled from the front of the
buffer; otherwise the iteration is abandoned (`continue`), which is `none`. The result is the
output chunk together with the buffer that is left. -/
def pop_chunk (chunk_size : Nat) (audio_buffer : List Int) : Option (List Int × List Int) :=
  if audio_buffer.length ≥ chunk_size then
    some (pop_loop chunk_size 0 (List.replicate chunk_size 0) audio_buffer)
  else
    none

/-- An operation of the capture stage or of the playback stage on the delay buffer. -/
inductive BufferOp where
  | push (input_chunk : List Int)
  | pop_chunk (chunk_size : Nat)
deriving Repr

/-- The buffer after one operation; a `pop_chunk` that finds too few samples leaves it as it
is. -/
def BufferOp.apply (capacity : Nat) (audio_buffer : List Int) : BufferOp → List Int
  | .push input_chunk => audiocensor.push capacity audio_buffer input_chunk
  | .pop_chunk chunk_size =>
    match audiocensor.pop_chunk chunk_size audio_buffer with
    | some (_, rest) => rest
    | none => audio_buffer

/-- The buffer after a sequence of operations, executed from left to right. -/
def run_buffer_ops (capacity : Nat) (audio_buffer : List Int) (ops : List BufferOp) : List Int :=
  ops.foldl (BufferOp.apply capacity) audio_buffer

/-! ## Censorship regions (`censored_regions`) -/

/-- An element of `censored_regions`, a `std::tuple<int, int, bool>`: first chunk, last chunk
and the flag that marks the region as processed. -/
structure Region where
  start_idx : Int
  end_idx : Int
  processed : Bool
deriving DecidableEq, Repr

/-- The state of the region loop of `AudioProcessor::run`: the output chunk, the regions and
the `censorApplied(chunk, start, end)` signals emitted so far. -/
structure CensorState where
  output_chunk : List Int
  censored_regions : List Region
  censor_applied : List (Int × Int × Int)
deriving DecidableEq, Repr

/-- The loop `for (size_t i = 0; i < censored_regions.size(); i++)` of `AudioProcessor::run`:
a region with `start_idx <= chunks_processed && chunks_processed <= end_idx` overwrites the
output chunk with zeros (`std::fill`), emits `censorApplied`, and is flagged as processed when
`chunks_processed == end_idx`. -/
def region_loop (chunks_processed : Int) : List Region → List Int → CensorState
  | [], output_chunk => ⟨output_chunk, [], []⟩
  | region :: rest, output_chunk =>
    if region.start_idx ≤ chunks_processed ∧ chunks_processed ≤ region.end_idx then
      let filled := output_chunk.map (fun _ => (0 : Int))
      let marked : Region :=
        if chunks_processed = region.end_idx then { region with processed := true } else region
      let st := region_loop chunks_processed rest filled
      { st with
        censored_regions := marked :: st.censored_regions
        censor_applied :=
          (chunks_processed, region.start_idx, region.end_idx) :: st.censor_applied }
    else
      let st := region_loop chunks_processed rest output_chunk
      { st with censored_regions := region :: st.censored_regions }

/-- The block `if (config.at("enable_censoring") == "true") { ... }` of `AudioProcessor::run`:
the region loop followed by `censored_regions.erase(std::remove_if(..., get<2>(r)), ...)`. -/
def censor_check (enable_censoring : Bool) (chunks_processed : Int)
    (censored_regions : List Region) (output_chunk : List Int) : CensorState :=
  if enable_censoring then
    let st := region_loop chunks_processed censored_regions output_chunk
    { st with censored_regions := st.censored_regions.filter (fun r => !r.processed) }
  else
    ⟨output_chunk, censored_regions, []⟩

/-- The playback side of the processor: the delay buffer, the regions, the counter of chunks
written and the chunks handed to `Pa_WriteStream`, oldest first. -/
structure Playback where
  audio_buffer : List Int
  censored_regions : List Region
  chunks_processed : Int
  sink : List (List Int)
deriving DecidableEq, Repr

/-- The playback part of one iteration of the main loop of `AudioProcessor::run`: extract a
chunk (or `continue`), run the region check, write the chunk and increment
`chunks_processed`. -/
def playback_stage (chunk_size : Nat) (enable_censoring : Bool) (p : Playback) : Playback :=
  match pop_chunk chunk_size p.audio_buffer with
  | none => p
  | some (output_chunk, rest) =>
    let st := censor_check enable_censoring p.chunks_processed p.censored_regions output_chunk
    { audio_buffer := rest
      censored_regions := st.censored_regions
      chunks_processed := p.chunks_processed + 1
      sink := p.sink ++ [st.output_chunk] }

/-! ## From recognizer timestamps to chunk indices -/

/-- The conversion `static_cast<int>(x)` of a double where the result fits the target type:
truncation toward zero. -/
def static_cast_int (x : ℚ) : Int := Int.tdiv x.num x.den

/-- Whether a value lies in the range of the 32-bit type `int`. -/
def fits_int (z : Int) : Prop := -2147483648 ≤ z ∧ z ≤ 2147483647

instance (z : Int) : Decidable (fits_int z) := by
  unfold fits_int
  exact inferInstance

/-- The `int` an addition or a multiplication of two `int` values yields when the exact
result is `z`: the value with the same low 32 bits in two's complement, as the compiled code
computes it. -/
def wrap32 (z : Int) : Int := (z + 2147483648) % 4294967296 - 2147483648

/-- The conversion `static_cast<int>(x)` of a double to the 32-bit `int` as the compiled
x86-64 code performs it (instruction `cvttsd2si`): truncation toward zero, and `INT_MIN` when
the truncated value is outside the range of `int`. -/
def static_cast_int32 (x : ℚ) : Int :=
  if fits_int (static_cast_int x) then static_cast_int x else -2147483648

/-- Rounding to the nearest integer, a tie to the even neighbour. -/
def round_half_even (q : ℚ) : Int :=
  if q - (⌊q⌋ : ℚ) < 1 / 2 then ⌊q⌋
  else if 1 / 2 < q - (⌊q⌋ : ℚ) then ⌊q⌋ + 1
  else if ⌊q⌋ % 2 = 0 then ⌊q⌋ else ⌊q⌋ + 1

/-- The exponent of the unit in the last place of the doubles of the magnitude of `x`: 52
below the binary exponent of `x`, and `-1074` in the subnormal range. -/
def ulp_exponent (x : ℚ) : Int := max (Int.log 2 |x| - 52) (-1074)

/-- The double nearest to `x` (IEEE 754 binary64, round to nearest, ties to even): the result
of an operation on doubles whose exact result is `x`. The exponent has no upper bound here: a
magnitude of `2 ^ 1024` or more is rounded like any other and not turned into an infinity, so
this is the arithmetic of the program as long as no operation overflows the double range. -/
def binary64 (x : ℚ) : ℚ :=
  (round_half_even (x / (2 : ℚ) ^ ulp_exponent x) : ℚ) * (2 : ℚ) ^ ulp_exponent x

/-- The double `static_cast<double>(current_sample_rate) / chunk_size`, for a `chunk_size`
other than zero. -/
def chunks_per_second (current_sample_rate chunk_size : Int) : ℚ :=
  binary64 ((current_sample_rate : ℚ) / (chunk_size : ℚ))

/-- The double `(time - (elapsed_time - buffer_delay)) * chunks_per_second` of
`process_recognition_result`, for `time` the start or the end of a word: two subtractions and
a multiplication of doubles, each rounded. -/
def chunks_offset (current_sample_rate chunk_size : Int) (buffer_delay elapsed_time time : ℚ) :
    ℚ :=
  binary64 (binary64 (time - binary64 (elapsed_time - buffer_delay)) *
    chunks_per_second current_sample_rate chunk_size)

/-- The `int` value `static_cast<int>((start_time - (elapsed_time - buffer_delay)) *
chunks_per_second) - safety_margin` of `process_recognition_result`. -/
def chunks_offset_start (current_sample_rate chunk_size : Int) (buffer_delay : ℚ)
    (safety_margin : Int) (elapsed_time start_time : ℚ) : Int :=
  wrap32 (static_cast_int32
    (chunks_offset current_sample_rate chunk_size buffer_delay elapsed_time start_time) -
      safety_margin)

/-- The `int` value `static_cast<int>((end_time - (elapsed_time - buffer_delay)) *
chunks_per_second) + safety_margin` of `process_recognition_result`. -/
def chunks_offset_end (current_sample_rate chunk_size : Int) (buffer_delay : ℚ)
    (safety_margin : Int) (elapsed_time end_time : ℚ) : Int :=
  wrap32 (static_cast_int32
    (chunks_offset current_sample_rate chunk_size buffer_delay elapsed_time end_time) +
      safety_margin)

/-- The region `std::make_tuple(censored_chunk_start, censored_chunk_end, false)` that
`AudioProcessor::process_recognition_result` (with `chunks_processed`) and
`WordDetector::process_recognition_result` (with `current_chunk_idx`) add for a prohibited
word; both bounds are `int` sums. -/
def censored_region (current_sample_rate chunk_size : Int) (buffer_delay : ℚ)
    (safety_margin : Int) (elapsed_time : ℚ) (chunks_processed : Int)
    (start_time end_time : ℚ) : Region :=
  { start_idx := wrap32 (chunks_processed +
      chunks_offset_start current_sample_rate chunk_size buffer_delay safety_margin
        elapsed_time start_time)
    end_idx := wrap32 (chunks_processed +
      chunks_offset_end current_sample_rate chunk_size buffer_delay safety_margin
        elapsed_time end_time)
    processed := false }

/-- Whether the conversion of the double `offset` to `int`, the `int` addition of `delta` (the
safety margin or its negative) to it and the `int` addition of that sum to the chunk index all
stay within the range of `int`. -/
def no_int_overflow (offset : ℚ) (delta chunks_processed : Int) : Prop :=
  fits_int (static_cast_int offset) ∧ fits_int (static_cast_int offset + delta) ∧
  fits_int (chunks_processed + (static_cast_int offset + delta))

instance (offset : ℚ) (delta chunks_processed : Int) :
    Decidable (no_int_overflow offset delta chunks_processed) := by
  unfold no_int_overflow
  exact inferInstance

/-- An event on the region set: `censored_regions.push_back(region)` from
`process_recognition_result`, or the region check of the playback stage for a chunk. -/
inductive RegionOp where
  | schedule (start_idx end_idx : Int)
  | check (chunks_processed : Int) (output_chunk : List Int)
deriving Repr

/-- The region set after one event (censoring enabled). -/
def RegionOp.apply (censored_regions : List Region) : RegionOp → List Region
  | .schedule start_idx end_idx => censored_regions ++ [⟨start_idx, end_idx, false⟩]
  | .check chunks_processed output_chunk =>
    (censor_check true chunks_processed censored_regions output_chunk).censored_regions

/-- The region set after a sequence of events, executed from left to right. -/
def run_region_ops (censored_regions : List Region) (ops : List RegionOp) : List Region :=
  ops.foldl RegionOp.apply censored_regions

/-- The region sets the processor can hold: `run` clears `censored_regions`, after which only
`schedule` and `check` events change it. -/
def ReachableRegions (censored_regions : List Region) : Prop :=
  ∃ ops : List RegionOp, censored_regions = run_region_ops [] ops

/-- Whether an event schedules a region with the given bounds. -/
def RegionOp.schedules (start_idx end_idx : Int) : RegionOp → Bool
  | .schedule s e => decide (s = start_idx ∧ e = end_idx)
  | .check _ _ => false

/-- Whether a region has the given bounds. -/
def Region.has_bounds (start_idx end_idx : Int) (r : Region) : Bool :=
  decide (r.start_idx = start_idx ∧ r.end_idx = end_idx)

/-- The region checks of `n` successive iterations of the playback loop, which start at chunk
index `first` and increment `chunks_processed` each time; `chunks i` is the chunk popped in
iteration `i`. -/
def successive_checks (first : Int) (chunks : Nat → List Int) (n : Nat) : List RegionOp :=
  (List.range n).map (fun (i : Nat) => RegionOp.check (first + (i : Int)) (chunks i))

/-! ## The word detector (`WordDetector`) -/

/-- A `std::string`: the list of its bytes. -/
abbrev CppString := List (Fin 256)

/-- The UTF-8 bytes of a character. -/
def utf8_char (c : Char) : CppString :=
  let n := c.toNat
  if n < 0x80 then [Fin.ofNat n]
  else if n < 0x800 then [Fin.ofNat (0xC0 + n / 64), Fin.ofNat (0x80 + n % 64)]
  else if n < 0x10000 then
    [Fin.ofNat (0xE0 + n / 4096), Fin.ofNat (0x80 + n / 64 % 64), Fin.ofNat (0x80 + n % 64)]
  else
    [Fin.ofNat (0xF0 + n / 262144), Fin.ofNat (0x80 + n / 4096 % 64),
      Fin.ofNat (0x80 + n / 64 % 64), Fin.ofNat (0x80 + n % 64)]

/-- The bytes of a string literal of the UTF-8 encoded source. -/
def utf8 (s : String) : CppString := s.toList.flatMap utf8_char

/-- The library code the detector calls. `regex p` is the construction `std::regex pattern(p)`,
`none` when it throws `std::regex_error`, and the function it yields is `std::regex_search`
with that pattern; `MD5` is the digest function of OpenSSL. -/
structure Lib where
  regex : CppString → Option (CppString → Bool)
  MD5 : CppString → List (Fin 256)

/-- The function `std::tolower` on an `unsigned char` (it changes the letters `A`..`Z`
only). -/
def tolower (c : Fin 256) : Fin 256 :=
  if 65 ≤ c.val ∧ c.val ≤ 90 then c + 32 else c

/-- Membership in the set `" \t\r\n"` used by `find_first_not_of` and `find_last_not_of`. -/
def is_space (c : Fin 256) : Bool :=
  c = 32 || c = 9 || c = 13 || c = 10

/-- The value of a `char` promoted to `int` (the type `char` is signed). -/
def char_to_int (c : Fin 256) : Int :=
  if c.val < 128 then (c.val : Int) else (c.val : Int) - 256

/-- The test `c == 'а' || c == 'е' || ... || c == 'я'` of `_normalize_word`. In the UTF-8
source each of the nine literals holds two bytes, so it is a multi-character constant of
type `int` whose value is `256 * first byte + second byte`. -/
def is_vowel (c : Fin 256) : Bool :=
  char_to_int c = 0xD0B0 || char_to_int c = 0xD0B5 || char_to_int c = 0xD0B8 ||
  char_to_int c = 0xD0BE || char_to_int c = 0xD183 || char_to_int c = 0xD18B ||
  char_to_int c = 0xD18D || char_to_int c = 0xD18E || char_to_int c = 0xD18F

/-- The loop `for (char c : normalized)` of `_normalize_word`, with the current `prev_char`;
yields the characters appended to `result`. -/
def collapse_repeats : Fin 256 → CppString → CppString
  | _, [] => []
  | prev_char, c :: rest =>
    if c ≠ prev_char then c :: collapse_repeats c rest
    else if is_vowel c then c :: collapse_repeats prev_char rest
    else collapse_repeats prev_char rest

/-- The function `WordDetector::_normalize_word`: lower case, the two `erase` calls that strip
the white space at both ends, then the loop over the characters. -/
def _normalize_word (word : CppString) : CppString :=
  if word = [] then []
  else
    let normalized := word.map tolower
    let normalized := normalized.dropWhile is_space
    let normalized := (normalized.reverse.dropWhile is_space).reverse
    collapse_repeats 0 normalized

/-- The two characters the stream prints for a digest byte under `std::hex`, `std::setw(2)`
and `std::setfill('0')`. -/
def hex_byte (b : Fin 256) : CppString :=
  let digit (d : Nat) : Fin 256 := if d < 10 then Fin.ofNat (48 + d) else Fin.ofNat (87 + d)
  [digit (b.val / 16), digit (b.val % 16)]

/-- The function `std::to_string` on a size. -/
def to_string (n : Nat) : CppString := utf8 (Nat.repr n)

/-- The function `WordDetector::_generate_cache_key`:
`word_hash + "_" + patterns_signature + "_" + words_signature`. -/
def _generate_cache_key (lib : Lib) (word_text : CppString)
    (patterns target_words : List CppString) : CppString :=
  let word_hash := (lib.MD5 word_text).flatMap hex_byte
  word_hash ++ utf8 "_" ++ to_string patterns.length ++ utf8 "_" ++ to_string target_words.length

/-- The loop `while (std::getline(iss, item, ','))` that splits a configuration string;
`item` holds the characters read since the last comma, newest first. -/
def getline_loop : CppString → CppString → List CppString
  | [], [] => []
  | [], item => [item.reverse]
  | c :: rest, item =>
    if c = 44 then item.reverse :: getline_loop rest [] else getline_loop rest (c :: item)

/-- The member `std::string::find(needle)`: the first position at which `needle` occurs, `none`
for `npos`. -/
def find (haystack needle : CppString) : Option Nat :=
  (List.range (haystack.length + 1)).find? (fun pos => needle.isPrefixOf (haystack.drop pos))

/-- The fields of a `WordDetector`. The cache is the list of its entries, the newest first;
times are ticks of `std::chrono::system_clock` (nanoseconds). -/
structure WordDetector where
  config : List (String × CppString)
  cache : List (CppString × (Bool × CppString))
  detection_count : Int
  _throttle_attempts : Int
  _throttle_start_time : Int

/-- The function `WordDetector::_throttle_check` at time `current_time`; the second component
is the duration in seconds handed to `sleep_for`. -/
def _throttle_check (current_time : Int) (d : WordDetector) : WordDetector × ℚ :=
  let d1 : WordDetector :=
    if Int.tdiv (current_time - d._throttle_start_time) 1000000000 > 10 then
      { d with _throttle_attempts := 0, _throttle_start_time := current_time }
    else d
  let d2 : WordDetector := { d1 with _throttle_attempts := d1._throttle_attempts + 1 }
  if d2._throttle_attempts > 100 then
    (d2, min (1 / 2) (((d2._throttle_attempts - 100 : Int) : ℚ) / 1000))
  else
    (d2, 0)

/-- The function `WordDetector::reset_cache`. -/
def reset_cache (d : WordDetector) : WordDetector := { d with cache := [] }

/-- The loop over `patterns_to_use` of `is_prohibited_word`: the first pattern that compiles
and is found in the word; a pattern that throws `std::regex_error` is skipped. -/
def match_patterns (lib : Lib) (normalized_word : CppString) : List CppString → Option CppString
  | [] => none
  | pattern_str :: rest =>
    match lib.regex pattern_str with
    | some regex_search =>
      if regex_search normalized_word then some pattern_str
      else match_patterns lib normalized_word rest
    | none => match_patterns lib normalized_word rest

/-- The loop over `target_words_to_use` of `is_prohibited_word`: the reason of the first hit.
The second test is the one of the source,
`normalized_word.length() > 5 && target_normalized.find(target_normalized) != npos`. -/
def match_targets (normalized_word : CppString) : List CppString → Option CppString
  | [] => none
  | target :: rest =>
    let target_normalized := _normalize_word target
    if normalized_word = target_normalized then some (utf8 "точное совпадение")
    else if normalized_word.length > 5 ∧ (find target_normalized target_normalized).isSome then
      some (utf8 "частичное совпадение")
    else match_targets normalized_word rest

/-- The function `WordDetector::is_prohibited_word`, called at time `current_time`: the
decision and the detector after the call. The pauses (`sleep_for`, `add_random_delay`) change
no field. -/
def is_prohibited_word (lib : Lib) (current_time : Int) (d : WordDetector)
    (word_text : CppString) (patterns target_words : List CppString) :
    (Bool × CppString) × WordDetector :=
  let d := (_throttle_check current_time d).1
  let normalized_word := _normalize_word word_text
  if normalized_word.length < 3 then ((false, []), d)
  else
    let cache_key := _generate_cache_key lib normalized_word patterns target_words
    match d.cache.lookup cache_key with
    | some result => (result, d)
    | none =>
      let patterns_to_use :=
        if patterns = [] then
          match d.config.lookup "target_patterns" with
          | some s => getline_loop s []
          | none => patterns
        else patterns
      let target_words_to_use :=
        if target_words = [] then
          match d.config.lookup "target_words" with
          | some s => getline_loop s []
          | none => target_words
        else target_words
      match match_patterns lib normalized_word patterns_to_use with
      | some pattern_str =>
        ((true, pattern_str),
          { d with cache := (cache_key, (true, pattern_str)) :: d.cache
                   detection_count := d.detection_count + 1 })
      | none =>
        match match_targets normalized_word target_words_to_use with
        | some reason =>
          ((true, reason),
            { d with cache := (cache_key, (true, reason)) :: d.cache
                     detection_count := d.detection_count + 1 })
        | none => ((false, []), { d with cache := (cache_key, (false, [])) :: d.cache })

/-- The decision `is_prohibited_word` computes after a cache miss for the normalized word:
the choice of `patterns_to_use` and `target_words_to_use`, the loop over the patterns and then
the loop over the target words. -/
def evaluate_rules (lib : Lib) (config : List (String × CppString))
    (normalized_word : CppString) (patterns target_words : List CppString) : Bool × CppString :=
  let patterns_to_use :=
    if patterns = [] then
      match config.lookup "target_patterns" with
      | some s => getline_loop s []
      | none => patterns
    else patterns
  let target_words_to_use :=
    if target_words = [] then
      match config.lookup "target_words" with
      | some s => getline_loop s []
      | none => target_words
    else target_words
  match match_patterns lib normalized_word patterns_to_use with
  | some pattern_str => (true, pattern_str)
  | none =>
    match match_targets normalized_word target_words_to_use with
    | some reason => (true, reason)
    | none => (false, [])

/-! ## Recognizer results (`process_recognition_result`) -/

/-- A value of `nlohmann::json`; numbers are doubles. -/
inductive Json where
  | null
  | boolean (b : Bool)
  | number (x : ℚ)
  | string (s : CppString)
  | array (items : List Json)
  | object (fields : List (CppString × Json))

/-- The library parsers: `json::parse`, `std::stoi` and `std::stod`, each `none` when it
throws. -/
structure Parsers where
  parse : CppString → Option Json
  stoi : CppString → Option Int
  stod : CppString → Option ℚ

/-- The call `json::parse(text)`: the empty input is no JSON text (`parse_error`). -/
def json_parse (ps : Parsers) (text : CppString) : Option Json :=
  if text = [] then none else ps.parse text

/-- The access `j[key]` to a member that exists; `none` when `j` is no object or has no such
member (where `contains(key)` is false). -/
def Json.index (j : Json) (key : String) : Option Json :=
  match j with
  | .object fields => fields.lookup (utf8 key)
  | _ => none

/-- The conversion `get<std::string>()`, `none` when it throws `type_error`. -/
def Json.get_string : Json → Option CppString
  | .string s => some s
  | _ => none

/-- The conversion `get<double>()`, `none` when it throws `type_error`. -/
def Json.get_double : Json → Option ℚ
  | .number x => some x
  | .boolean b => some (if b then 1 else 0)
  | _ => none

/-- The conversion `get<std::vector<std::string>>()`, `none` when it throws. -/
def Json.get_string_vector : Json → Option (List CppString)
  | .array items => items.mapM Json.get_string
  | _ => none

/-- An integer entry of the detector configuration: the default when the key is absent,
`std::stoi` of the entry otherwise. -/
def config_int (ps : Parsers) (config : List (String × CppString)) (key : String)
    (default : Int) : Option Int :=
  match config.lookup key with
  | some s => ps.stoi s
  | none => some default

/-- The entry `buffer_delay` of the detector configuration, 2.0 when absent. -/
def config_buffer_delay (ps : Parsers) (config : List (String × CppString)) : Option ℚ :=
  match config.lookup "buffer_delay" with
  | some s => ps.stod s
  | none => some 2

/-- The list read from a configuration entry by the `std::getline` loop of
`WordDetector::process_recognition_result`; empty when the key is absent. -/
def config_list (config : List (String × CppString)) (key : String) : List CppString :=
  match config.lookup key with
  | some s => getline_loop s []
  | none => []

/-- The loop `for (const auto& word : words)` of `WordDetector::process_recognition_result`:
the regions added by the words from here on, and the detector after them. -/
def WordDetector.word_loop (lib : Lib) (current_time : Int)
    (current_sample_rate chunk_size safety_margin : Int) (buffer_delay : ℚ)
    (current_chunk_idx : Int) (elapsed_time : ℚ) :
    WordDetector → List Json → List Region × WordDetector
  | d, [] => ([], d)
  | d, word :: rest =>
    match word.index "word" with
    | some (.string s) =>
      let word_text := s.map tolower
      if word_text.length < 3 then
        WordDetector.word_loop lib current_time current_sample_rate chunk_size safety_margin
          buffer_delay current_chunk_idx elapsed_time d rest
      else
        let patterns := config_list d.config "target_patterns"
        let target_words := config_list d.config "target_words"
        let r := is_prohibited_word lib current_time d word_text patterns target_words
        if r.1.1 then
          let start_time : ℚ := match word.index "start" with
            | some (.number x) => x
            | _ => 0
          let end_time : ℚ := match word.index "end" with
            | some (.number x) => x
            | _ => 0
          let tail := WordDetector.word_loop lib current_time current_sample_rate chunk_size
            safety_margin buffer_delay current_chunk_idx elapsed_time r.2 rest
          (censored_region current_sample_rate chunk_size buffer_delay safety_margin
            elapsed_time current_chunk_idx start_time end_time :: tail.1, tail.2)
        else
          WordDetector.word_loop lib current_time current_sample_rate chunk_size safety_margin
            buffer_delay current_chunk_idx elapsed_time r.2 rest
    | _ =>
      WordDetector.word_loop lib current_time current_sample_rate chunk_size safety_margin
        buffer_delay current_chunk_idx elapsed_time d rest

/-- The function `WordDetector::process_recognition_result`: the regions it returns and the
detector after the call. Every exception is caught inside the function; one thrown before the
loop (`parse_error`, `std::stoi`, `std::stod`) leaves the result empty. -/
def WordDetector.process_recognition_result (lib : Lib) (ps : Parsers) (current_time : Int)
    (d : WordDetector) (result_json : CppString) (current_chunk_idx : Int)
    (elapsed_time : ℚ) : List Region × WordDetector :=
  if result_json = [] then ([], d)
  else
    match json_parse ps result_json with
    | none => ([], d)
    | some result =>
      match result.index "result" with
      | some (.array []) => ([], d)
      | some (.array (word :: rest)) =>
        match config_int ps d.config "sample_rate" 16000, config_int ps d.config "chunk_size" 1024,
          config_int ps d.config "safety_margin" 3, config_buffer_delay ps d.config with
        | some current_sample_rate, some chunk_size, some safety_margin, some buffer_delay =>
          WordDetector.word_loop lib current_time current_sample_rate chunk_size safety_margin
            buffer_delay current_chunk_idx elapsed_time d (word :: rest)
        | _, _, _, _ => ([], d)
      | _ => ([], d)

/-- A list entry of the processor configuration as `AudioProcessor::process_recognition_result`
reads it: a JSON array of strings, or else the non-empty pieces between commas; empty when the
key is absent. -/
def AudioProcessor.config_list (ps : Parsers) (config : List (String × CppString))
    (key : String) : List CppString :=
  match config.lookup key with
  | some s =>
    match (json_parse ps s).bind Json.get_string_vector with
    | some items => items
    | none => (getline_loop s []).filter (fun item => decide (item ≠ []))
  | none => []

/-- The loop `for (const auto& word : words)` of `AudioProcessor::process_recognition_result`:
the region set after the words from here on. An exception (`type_error` of a `get`,
`out_of_range` of `config.at`) ends the loop and keeps the regions added before it. -/
def AudioProcessor.word_loop (lib : Lib) (current_time : Int)
    (config : List (String × CppString)) (target_patterns target_words : List CppString)
    (current_sample_rate chunk_size safety_margin : Int) (buffer_delay : ℚ)
    (chunks_processed : Int) (elapsed_time : ℚ) :
    WordDetector → List Json → List Region → List Region
  | _, [], censored_regions => censored_regions
  | detector, word :: rest, censored_regions =>
    match (word.index "word").bind Json.get_string with
    | none => censored_regions
    | some s =>
      let word_text := s.map tolower
      let r := is_prohibited_word lib current_time detector word_text target_patterns
        target_words
      if r.1.1 then
        match (word.index "start").bind Json.get_double,
          (word.index "end").bind Json.get_double with
        | some start_time, some end_time =>
          let added := censored_regions ++
            [censored_region current_sample_rate chunk_size buffer_delay safety_margin
              elapsed_time chunks_processed start_time end_time]
          match config.lookup "log_to_file" with
          | none => added
          | some _ =>
            AudioProcessor.word_loop lib current_time config target_patterns target_words
              current_sample_rate chunk_size safety_margin buffer_delay chunks_processed
              elapsed_time r.2 rest added
        | _, _ => censored_regions
      else
        AudioProcessor.word_loop lib current_time config target_patterns target_words
          current_sample_rate chunk_size safety_margin buffer_delay chunks_processed
          elapsed_time r.2 rest censored_regions

/-- The function `AudioProcessor::process_recognition_result`: `censored_regions` after the
call, made at time `current_time`, `elapsed_time` seconds after the program start. Every
exception is caught inside the function. The detector is the one built for the call, with an
empty configuration. -/
def AudioProcessor.process_recognition_result (lib : Lib) (ps : Parsers) (current_time : Int)
    (config : List (String × CppString)) (current_sample_rate chunks_processed : Int)
    (elapsed_time : ℚ) (censored_regions : List Region) (result_json : CppString) :
    List Region :=
  match json_parse ps result_json with
  | none => censored_regions
  | some result =>
    match result.index "result" with
    | some (.array []) => censored_regions
    | some (.array (word :: rest)) =>
      match config.lookup "debug_mode" with
      | none => censored_regions
      | some debug_mode =>
        if debug_mode = utf8 "true" ∧
            ((word :: rest).all fun w => ((w.index "word").bind Json.get_string).isSome) = false
        then censored_regions
        else
          let target_patterns := AudioProcessor.config_list ps config "target_patterns"
          let target_words := AudioProcessor.config_list ps config "target_words"
          match (config.lookup "chunk_size").bind ps.stoi,
            (config.lookup "buffer_delay").bind ps.stod,
            (config.lookup "safety_margin").bind ps.stoi with
          | some chunk_size, some buffer_delay, some safety_margin =>
            AudioProcessor.word_loop lib current_time config target_patterns target_words
              current_sample_rate chunk_size safety_margin buffer_delay chunks_processed
              elapsed_time ⟨[], [], 0, 0, current_time⟩ (word :: rest) censored_regions
          | _, _, _ => censored_regions
    | _ => censored_regions

/-! ## Sample library instances -/

/-- A small instance of the library: a pattern is searched as a literal substring, the
pattern `[` does not compile, and the digest of a text is the text itself. -/
def literal_lib : Lib where
  regex := fun p => if p = utf8 "[" then none else some (fun w => (find w p).isSome)
  MD5 := fun text => text

/-- A small instance of the parsers: the only JSON text is the object with the single member
`text`, as the recognizer sends it for silence; no number is parsed. -/
def silence_parsers : Parsers where
  parse := fun text =>
    if text = utf8 "\x7b\"text\" : \"\"\x7d" then some (.object [(utf8 "text", .string [])])
    else none
  stoi := fun _ => none
  stod := fun _ => none

/-! ## The processing loop (`AudioProcessor::run`) -/

/-- The value `static_cast<int>(buffer_delay * current_sample_rate / chunk_size) + 2` that the
constructor, `setup_streams` and `update_config` store in `buffer_size_in_chunks`. -/
def buffer_size_for (buffer_delay : ℚ) (current_sample_rate chunk_size : Int) : Int :=
  static_cast_int (buffer_delay * (current_sample_rate : ℚ) / (chunk_size : ℚ)) + 2

/-- The bound `buffer_size_in_chunks * chunk_size` as the loop compares it with
`audio_buffer.size()`: the product of two `int` values, an `int`, converted to the 64-bit
`size_t`. -/
def buffer_capacity (buffer_size_in_chunks : Int) (chunk_size : Nat) : Nat :=
  (wrap32 (buffer_size_in_chunks * (chunk_size : Int)) % 18446744073709551616).toNat

/-- The fields of an `AudioProcessor` the processing loop works on, with the two streams seen
from outside: the number of `Pa_ReadStream` calls made so far and the chunks handed to
`Pa_WriteStream`, oldest first. -/
structure AudioProcessor where
  config : List (String × CppString)
  current_sample_rate : Int
  buffer_size_in_chunks : Int
  audio_buffer : List Int
  censored_regions : List Region
  chunks_processed : Int
  running : Bool
  paused : Bool
  source_reads : Nat
  sink : List (List Int)

/-- What one loop iteration gets from outside: the samples `Pa_ReadStream` delivers, the text
of `vosk_recognizer_result` when `vosk_recognizer_accept_waveform` reports the end of an
utterance, and the clock. -/
structure Tick where
  input_chunk : List Int
  result_json : Option CppString
  current_time : Int
  elapsed_time : ℚ

/-- The function `AudioProcessor::pause`. -/
def AudioProcessor.pause (a : AudioProcessor) : AudioProcessor := { a with paused := true }

/-- The function `AudioProcessor::resume`. -/
def AudioProcessor.resume (a : AudioProcessor) : AudioProcessor := { a with paused := false }

/-- The function `AudioProcessor::update_config`, `none` when `config.at`, `std::stod` or
`std::stoi` throws. -/
def AudioProcessor.update_config (ps : Parsers) (new_config : List (String × CppString))
    (a : AudioProcessor) : Option AudioProcessor :=
  match (new_config.lookup "buffer_delay").bind ps.stod,
    (new_config.lookup "chunk_size").bind ps.stoi with
  | some buffer_delay, some chunk_size =>
    some { a with
      config := new_config
      buffer_size_in_chunks := buffer_size_for buffer_delay a.current_sample_rate chunk_size }
  | _, _ => none

/-- The start of `AudioProcessor::run`: `running = true`, `chunks_processed = 0`, the buffer
cleared and resized to `buffer_size_in_chunks * chunk_size` zeros, the regions cleared. The
size is the `int` product; when it is negative its conversion to `size_t` exceeds what a deque
can hold and `resize` throws, which is `none`. -/
def AudioProcessor.run_init (chunk_size : Nat) (a : AudioProcessor) : Option AudioProcessor :=
  if 0 ≤ wrap32 (a.buffer_size_in_chunks * (chunk_size : Int)) then
    some { a with
      running := true
      chunks_processed := 0
      audio_buffer :=
        List.replicate (wrap32 (a.buffer_size_in_chunks * (chunk_size : Int))).toNat 0
      censored_regions := [] }
  else none

/-- The recognition step of an iteration, `if (recognition_active &&
config.at("enable_censoring") == "true")`: when the recognizer reports a result, it is handed
to `process_recognition_result`. -/
def AudioProcessor.recognize (lib : Lib) (ps : Parsers) (enable_censoring : CppString)
    (tick : Tick) (a : AudioProcessor) : AudioProcessor :=
  if enable_censoring = utf8 "true" then
    match tick.result_json with
    | some result_json =>
      let regions := AudioProcessor.process_recognition_result lib ps tick.current_time
        a.config a.current_sample_rate a.chunks_processed tick.elapsed_time a.censored_regions
        result_json
      { a with censored_regions := regions }
    | none => a
  else a

/-- One iteration of the first loop of `AudioProcessor::run`, which fills the buffer: unless
paused, read a chunk, add it to the buffer and run the recognition step. An exception of
`config.at` is caught and ends the iteration. -/
def AudioProcessor.priming_iteration (lib : Lib) (ps : Parsers) (chunk_size : Nat)
    (tick : Tick) (a : AudioProcessor) : AudioProcessor :=
  if a.paused then a
  else
    let pushed := push (buffer_capacity a.buffer_size_in_chunks chunk_size) a.audio_buffer
      tick.input_chunk
    let a1 : AudioProcessor := { a with
      source_reads := a.source_reads + 1
      audio_buffer := pushed }
    match a1.config.lookup "enable_censoring" with
    | none => a1
    | some enable_censoring => AudioProcessor.recognize lib ps enable_censoring tick a1

/-- The playback fields of the processor. -/
def AudioProcessor.playback (a : AudioProcessor) : Playback :=
  ⟨a.audio_buffer, a.censored_regions, a.chunks_processed, a.sink⟩

/-- One iteration of the main loop of `AudioProcessor::run`: unless paused, read a chunk, add
it to the buffer, run the recognition step, then the playback stage (extract a chunk or
`continue`, region check, write, `chunks_processed++`). An exception of `config.at` is caught
and ends the iteration. -/
def AudioProcessor.main_iteration (lib : Lib) (ps : Parsers) (chunk_size : Nat)
    (tick : Tick) (a : AudioProcessor) : AudioProcessor :=
  if a.paused then a
  else
    let pushed := push (buffer_capacity a.buffer_size_in_chunks chunk_size) a.audio_buffer
      tick.input_chunk
    let a1 : AudioProcessor := { a with
      source_reads := a.source_reads + 1
      audio_buffer := pushed }
    match a1.config.lookup "enable_censoring" with
    | none => a1
    | some enable_censoring =>
      let a2 := AudioProcessor.recognize lib ps enable_censoring tick a1
      let p := playback_stage chunk_size (decide (enable_censoring = utf8 "true")) a2.playback
      { a2 with
        audio_buffer := p.audio_buffer
        censored_regions := p.censored_regions
        chunks_processed := p.chunks_processed
        sink := p.sink }

/-- The processor after the first loop has run over `priming` and the main loop over
`running`, one tick per iteration. -/
def AudioProcessor.run_loops (lib : Lib) (ps : Parsers) (chunk_size : Nat)
    (priming running : List Tick) (a : AudioProcessor) : AudioProcessor :=
  running.foldl (fun s tick => AudioProcessor.main_iteration lib ps chunk_size tick s)
    (priming.foldl (fun s tick => AudioProcessor.priming_iteration lib ps chunk_size tick s) a)

/-- The duration in seconds `_throttle_check` sleeps when the counter stands at
`_throttle_attempts` after the increment: `std::min(0.5, (_throttle_attempts - 100) / 1000.0)`
above 100 attempts, nothing otherwise. -/
def throttle_delay (_throttle_attempts : Int) : ℚ :=
  if _throttle_attempts > 100 then min (1 / 2) (((_throttle_attempts - 100 : Int) : ℚ) / 1000)
  else 0

/-- The delay buffer holds the newest samples of the stream made of the zeros `run` starts
with, followed by the chunks captured so far, and its length is between `C - 1` and `C`
chunks. -/
def buffer_tracks (C chunk_size : Nat) (captured : List (List Int))
    (audio_buffer : List Int) : Prop :=
  audio_buffer =
    (List.replicate (C * chunk_size) 0 ++ captured.flatten).drop
      (C * chunk_size + captured.flatten.length - audio_buffer.length) ∧
  (C - 1) * chunk_size ≤ audio_buffer.length ∧ audio_buffer.length ≤ C * chunk_size

/-- The state of the processor inside the loops of `run` for a fixed configuration: not
paused, `buffer_size_in_chunks = C`, and the buffer tracking the chunks captured so far, each
of `chunk_size` samples. -/
def LoopInv (C cs : Nat) (config : List (String × CppString)) (captured : List (List Int))
    (s : AudioProcessor) : Prop :=
  s.config = config ∧ s.paused = false ∧ s.buffer_size_in_chunks = (C : Int) ∧
  buffer_tracks C cs captured s.audio_buffer ∧ ∀ x ∈ captured, x.length = cs

/-- A small processor before `run`: two chunks of buffer, censoring switched off. -/
def sample_processor : AudioProcessor :=
  ⟨[("enable_censoring", utf8 "false")], 16000, 2, [], [], 0, false, false, 0, []⟩

/-- The small processor as `run` starts it for chunks of two samples. -/
def sample_started : AudioProcessor :=
  ⟨[("enable_censoring", utf8 "false")], 16000, 2, [0, 0, 0, 0], [], 0, true, false, 0, []⟩

/-- An iteration that captures the two samples `x` and `y` and gets no recognizer result. -/
def sample_tick (x y : Int) : Tick := ⟨[x, y], none, 0, 0⟩

/-- The small processor with a buffer of no chunk (`buffer_size_in_chunks = 0`). -/
def sample_processor_no_delay : AudioProcessor :=
  ⟨[("enable_censoring", utf8 "false")], 16000, 0, [], [], 0, false, false, 0, []⟩

/-- The small processor with a configuration that lacks the entry `enable_censoring`. -/
def sample_processor_no_key : AudioProcessor :=
  ⟨[], 16000, 2, [], [], 0, false, false, 0, []⟩

/-- A processor whose buffer of 1431655767 chunks, for chunks of 3 samples, has a size in
samples beyond the range of `int`: the `int` product is 5. -/
def sample_processor_overflow : AudioProcessor :=
  ⟨[("enable_censoring", utf8 "false")], 16000, 1431655767, [], [], 0, false, false, 0, []⟩

/-! ### Lemmas on the delay buffer -/

theorem push_sample_length_le (capacity : Nat) (b : List Int) (x : Int)
    (h : b.length ≤ capacity) : (push_sample capacity b x).length ≤ capacity := by
  unfold push_sample
  simp only [List.length_append, List.length_singleton]
  split
  · simp [List.length_tail]
    exact h
  · rw [List.length_append, List.length_singleton]; omega

theorem push_length_le (capacity : Nat) (c b : List Int)
    (h : b.length ≤ capacity) : (push capacity b c).length ≤ capacity := by
  induction c generalizing b with
  | nil => simpa [push] using h
  | cons x c ih =>
    have := ih (push_sample capacity b x) (push_sample_length_le capacity b x h)
    simpa [push] using this

theorem pop_loop_eq (n : Nat) : ∀ (pre mid post b : List Int),
    mid.length = n → n ≤ b.length →
    pop_loop n pre.length (pre ++ mid ++ post) b = (pre ++ b.take n ++ post, b.drop n) := by
  induction n with
  | zero =>
    intro pre mid post b hmid _
    have : mid = [] := List.length_eq_zero.mp hmid
    simp [pop_loop, this]
  | succ n ih =>
    intro pre mid post b hmid hb
    cases b with
    | nil => simp at hb
    | cons x rest =>
      cases mid with
      | nil => simp at hmid
      | cons m mid =>
        simp only [List.length_cons, Nat.add_le_add_iff_right, Nat.add_right_cancel_iff]
          at hb hmid
        have hset : (pre ++ m :: mid ++ post).set pre.length x = (pre ++ [x]) ++ mid ++ post := by
          rw [List.append_assoc, List.set_append_right _ _ (Nat.le_refl _)]
          simp
        have := ih (pre ++ [x]) mid post rest hmid hb
        rw [List.length_append, List.length_singleton] at this
        rw [pop_loop, hset, this]
        simp

theorem pop_chunk_eq (chunk_size : Nat) (b : List Int) :
    pop_chunk chunk_size b =
      if chunk_size ≤ b.length then some (b.take chunk_size, b.drop chunk_size) else none := by
  unfold pop_chunk
  by_cases h : chunk_size ≤ b.length
  · have := pop_loop_eq chunk_size [] (List.replicate chunk_size 0) [] b (by simp) h
    simp only [List.length_nil, List.nil_append, List.append_nil] at this
    simp [h, this]
  · simp [h]

theorem push_eq_drop (capacity : Nat) (c b : List Int) (h : b.length ≤ capacity) :
    push capacity b c = (b ++ c).drop (b.length + c.length - min (b.length + c.length) capacity) := by
  induction c generalizing b with
  | nil =>
    have : b.length - min b.length capacity = 0 := by omega
    simp [push, this]
  | cons x c ih =>
    have hstep : push capacity b (x :: c) = push capacity (push_sample capacity b x) c := by
      simp [push]
    rw [hstep, ih _ (push_sample_length_le capacity b x h)]
    by_cases hfull : b.length + 1 > capacity
    · have hb : b.length = capacity := by omega
      have hps : push_sample capacity b x = (b ++ [x]).tail := by
        simp [push_sample, hfull]
      have htail : (b ++ [x]).tail ++ c = (b ++ x :: c).drop 1 := by
        cases b <;> simp
      rw [hps, htail, List.drop_drop, List.length_tail, List.length_append,
        List.length_singleton, List.length_cons]
      congr 1
      omega
    · have hps : push_sample capacity b x = b ++ [x] := by
        simp [push_sample, hfull]
      have happ : b ++ [x] ++ c = b ++ x :: c := by simp
      rw [hps, happ, List.length_append, List.length_singleton, List.length_cons]
      congr 1
      omega

theorem run_buffer_ops_length_le (capacity : Nat) (ops : List BufferOp) :
    ∀ b : List Int, b.length ≤ capacity → (run_buffer_ops capacity b ops).length ≤ capacity := by
  induction ops with
  | nil => intro b h; simpa [run_buffer_ops] using h
  | cons op ops ih =>
    intro b h
    have hstep : (BufferOp.apply capacity b op).length ≤ capacity := by
      cases op with
      | push c => exact push_length_le capacity c b h
      | pop_chunk n =>
        simp only [BufferOp.apply, pop_chunk_eq]
        split
        · next heq =>
          split at heq
          · simp only [Option.some.injEq, Prod.mk.injEq] at heq
            rw [← heq.2, List.length_drop]; omega
          · simp at heq
        · exact h
    have := ih _ hstep
    simpa [run_buffer_ops] using this

/-! ### Lemmas on the region check -/

/-- The test of the region loop. -/
theorem region_loop_applied (c : Int) (regs : List Region) : ∀ out : List Int,
    (region_loop c regs out).censor_applied =
      (regs.filter (fun r => decide (r.start_idx ≤ c ∧ c ≤ r.end_idx))).map
        (fun r => (c, r.start_idx, r.end_idx)) := by
  induction regs with
  | nil => intro out; simp [region_loop]
  | cons r rs ih =>
    intro out
    by_cases h : r.start_idx ≤ c ∧ c ≤ r.end_idx
    · simp [region_loop, h, ih]
    · simp [region_loop, h, ih]

theorem region_loop_regions (c : Int) (regs : List Region) : ∀ out : List Int,
    (region_loop c regs out).censored_regions =
      regs.map (fun r =>
        if r.start_idx ≤ c ∧ c = r.end_idx then { r with processed := true } else r) := by
  induction regs with
  | nil => intro out; simp [region_loop]
  | cons r rs ih =>
    intro out
    by_cases h : r.start_idx ≤ c ∧ c ≤ r.end_idx
    · by_cases he : c = r.end_idx
      · have h2 : r.start_idx ≤ c ∧ c = r.end_idx := ⟨h.1, he⟩
        simp only [region_loop, if_pos h, if_pos he, if_pos h2, ih, List.map_cons]
      · have h2 : ¬ (r.start_idx ≤ c ∧ c = r.end_idx) := fun hh => he hh.2
        simp only [region_loop, if_pos h, if_neg he, if_neg h2, ih, List.map_cons]
    · have hne : ¬ (r.start_idx ≤ c ∧ c = r.end_idx) := by
        intro hh; exact h ⟨hh.1, by omega⟩
      simp only [region_loop, if_neg h, if_neg hne, ih, List.map_cons]

theorem region_loop_output (c : Int) (regs : List Region) : ∀ out : List Int,
    (region_loop c regs out).output_chunk =
      if ∃ r ∈ regs, r.start_idx ≤ c ∧ c ≤ r.end_idx then List.replicate out.length 0
      else out := by
  induction regs with
  | nil => intro out; simp [region_loop]
  | cons r rs ih =>
    intro out
    by_cases h : r.start_idx ≤ c ∧ c ≤ r.end_idx
    · have hex : ∃ q ∈ r :: rs, q.start_idx ≤ c ∧ c ≤ q.end_idx := ⟨r, by simp, h⟩
      simp only [region_loop, if_pos h, if_pos hex, ih]
      split
      · simp
      · simp [List.map_const']
    · simp only [region_loop, if_neg h, ih]
      have hiff : (∃ q ∈ r :: rs, q.start_idx ≤ c ∧ c ≤ q.end_idx) ↔
          ∃ q ∈ rs, q.start_idx ≤ c ∧ c ≤ q.end_idx := by
        constructor
        · rintro ⟨q, hq, hin⟩
          rcases List.mem_cons.mp hq with rfl | hq
          · exact absurd hin h
          · exact ⟨q, hq, hin⟩
        · rintro ⟨q, hq, hin⟩
          exact ⟨q, List.mem_cons_of_mem _ hq, hin⟩
      simp only [hiff]

theorem censor_check_regions (c : Int) (regs : List Region) (out : List Int) :
    (censor_check true c regs out).censored_regions =
      (regs.map (fun r =>
        if r.start_idx ≤ c ∧ c = r.end_idx then { r with processed := true } else r)).filter
        (fun r => !r.processed) := by
  simp only [censor_check, if_true, region_loop_regions]

theorem censor_check_regions_of_unprocessed (c : Int) (regs : List Region) (out : List Int)
    (h : ∀ r ∈ regs, r.processed = false) :
    (censor_check true c regs out).censored_regions =
      regs.filter (fun r => decide (¬ (r.start_idx ≤ c ∧ c = r.end_idx))) := by
  rw [censor_check_regions]
  induction regs with
  | nil => simp
  | cons r rs ih =>
    have hr : r.processed = false := h r (by simp)
    have ih := ih (fun q hq => h q (List.mem_cons_of_mem _ hq))
    by_cases hc : r.start_idx ≤ c ∧ c = r.end_idx
    · rw [List.map_cons, if_pos hc, List.filter_cons_of_neg (by simp),
        List.filter_cons_of_neg (by rw [decide_eq_true_eq]; exact not_not.mpr hc), ih]
    · rw [List.map_cons, if_neg hc, List.filter_cons_of_pos (by simp [hr]),
        List.filter_cons_of_pos (by rw [decide_eq_true_eq]; exact hc), ih]

theorem censor_check_unprocessed (c : Int) (regs : List Region) (out : List Int) :
    ∀ r ∈ (censor_check true c regs out).censored_regions, r.processed = false := by
  intro r hr
  rw [censor_check_regions] at hr
  simpa using (List.mem_filter.mp hr).2

theorem censor_check_sublist (c : Int) (regs : List Region) (out : List Int)
    (h : ∀ r ∈ regs, r.processed = false) :
    ((censor_check true c regs out).censored_regions).Sublist regs := by
  rw [censor_check_regions_of_unprocessed c regs out h]
  exact List.filter_sublist _

theorem RegionOp.apply_unprocessed (regs : List Region) (op : RegionOp)
    (h : ∀ r ∈ regs, r.processed = false) : ∀ r ∈ RegionOp.apply regs op, r.processed = false := by
  cases op with
  | schedule s e =>
    intro r hr
    simp only [RegionOp.apply, List.mem_append, List.mem_singleton] at hr
    rcases hr with hr | rfl
    · exact h r hr
    · rfl
  | check c out => exact censor_check_unprocessed c regs out

theorem run_region_ops_unprocessed (ops : List RegionOp) : ∀ regs : List Region,
    (∀ r ∈ regs, r.processed = false) →
    ∀ r ∈ run_region_ops regs ops, r.processed = false := by
  induction ops with
  | nil => intro regs h; simpa [run_region_ops] using h
  | cons op ops ih =>
    intro regs h
    have := ih (RegionOp.apply regs op) (RegionOp.apply_unprocessed regs op h)
    simpa [run_region_ops] using this

theorem reachable_unprocessed (regs : List Region) (h : ReachableRegions regs) :
    ∀ r ∈ regs, r.processed = false := by
  obtain ⟨ops, rfl⟩ := h
  exact run_region_ops_unprocessed ops [] (by simp)

theorem run_region_ops_countP_le (s e : Int) (ops : List RegionOp) : ∀ regs : List Region,
    (∀ r ∈ regs, r.processed = false) →
    (run_region_ops regs ops).countP (Region.has_bounds s e) ≤
      regs.countP (Region.has_bounds s e) + ops.countP (RegionOp.schedules s e) := by
  induction ops with
  | nil => intro regs _; simp [run_region_ops]
  | cons op ops ih =>
    intro regs h
    have hrec := ih (RegionOp.apply regs op) (RegionOp.apply_unprocessed regs op h)
    have hstep : (RegionOp.apply regs op).countP (Region.has_bounds s e) ≤
        regs.countP (Region.has_bounds s e) + (if RegionOp.schedules s e op then 1 else 0) := by
      cases op with
      | schedule s1 e1 =>
        simp only [RegionOp.apply, List.countP_append, List.countP_cons, List.countP_nil,
          RegionOp.schedules, Region.has_bounds, Nat.zero_add]
        exact Nat.le_refl _
      | check c out =>
        have := (censor_check_sublist c regs out h).countP_le (Region.has_bounds s e)
        simp only [RegionOp.apply]
        omega
    have hfold : run_region_ops regs (op :: ops) = run_region_ops (RegionOp.apply regs op) ops := by
      simp [run_region_ops]
    rw [hfold, List.countP_cons]
    omega

theorem run_region_ops_keeps (r : Region) (ops : List RegionOp)
    (hops : ∀ c out, RegionOp.check c out ∈ ops → ¬ (r.start_idx ≤ c ∧ c = r.end_idx)) :
    ∀ regs : List Region, (∀ q ∈ regs, q.processed = false) → r ∈ regs →
      r ∈ run_region_ops regs ops := by
  induction ops with
  | nil => intro regs _ hmem; simpa [run_region_ops] using hmem
  | cons op ops ih =>
    intro regs h hmem
    have hfold : run_region_ops regs (op :: ops) = run_region_ops (RegionOp.apply regs op) ops := by
      simp [run_region_ops]
    rw [hfold]
    refine ih (fun c out hc => hops c out (List.mem_cons_of_mem _ hc)) _
      (RegionOp.apply_unprocessed regs op h) ?_
    cases op with
    | schedule s e => simp [RegionOp.apply, hmem]
    | check c out =>
      simp only [RegionOp.apply]
      rw [censor_check_regions_of_unprocessed c regs out h, List.mem_filter]
      exact ⟨hmem, by rw [decide_eq_true_eq]; exact hops c out (by simp)⟩

/-! ### Lemmas on the timestamp conversion -/

/-! ### Lemmas on double rounding and `int` arithmetic -/

theorem round_half_even_le (q : ℚ) : round_half_even q ≤ ⌊q⌋ + 1 := by
  unfold round_half_even
  split_ifs <;> omega

theorem le_round_half_even (q : ℚ) : ⌊q⌋ ≤ round_half_even q := by
  unfold round_half_even
  split_ifs <;> omega

theorem round_half_even_intCast (z : Int) : round_half_even (z : ℚ) = z := by
  unfold round_half_even
  rw [Int.floor_intCast]
  simp

theorem round_half_even_mono {a b : ℚ} (h : a ≤ b) : round_half_even a ≤ round_half_even b := by
  have hfl : ⌊a⌋ ≤ ⌊b⌋ := Int.floor_le_floor h
  rcases lt_or_eq_of_le hfl with hlt | heq
  · have h1 := round_half_even_le a
    have h2 := le_round_half_even b
    omega
  · unfold round_half_even
    rw [heq]
    have hab : a - (⌊b⌋ : ℚ) ≤ b - (⌊b⌋ : ℚ) := by linarith
    split_ifs <;> first | omega | linarith

theorem round_half_even_near (q : ℚ) (m : Int) (h : |q - m| < 1 / 2) :
    round_half_even q = m := by
  rw [abs_lt] at h
  by_cases hq : (m : ℚ) ≤ q
  · have hf : ⌊q⌋ = m := by
      rw [Int.floor_eq_iff]
      constructor
      · exact hq
      · linarith
    unfold round_half_even
    rw [hf, if_pos (by linarith)]
  · have hf : ⌊q⌋ = m - 1 := by
      rw [Int.floor_eq_iff]
      push_cast
      constructor <;> linarith
    unfold round_half_even
    rw [hf]
    push_cast
    rw [if_neg (by linarith), if_pos (by linarith)]
    omega


theorem two_zpow_pos (e : Int) : (0 : ℚ) < (2 : ℚ) ^ e := zpow_pos (by norm_num) e

theorem log_two_eq (r : ℚ) (k : Int) (hr : 0 < r) (hlo : (2 : ℚ) ^ k ≤ r)
    (hhi : r < (2 : ℚ) ^ (k + 1)) : Int.log 2 r = k := by
  have h1 : k ≤ Int.log 2 r := by
    rw [← Int.zpow_le_iff_le_log (by norm_num) hr]
    simpa using hlo
  have h2 : Int.log 2 r < k + 1 := by
    rw [← Int.lt_zpow_iff_log_lt (by norm_num) hr]
    simpa using hhi
  omega

theorem log_two_lt (r : ℚ) (k : Int) (hr : 0 < r) (hhi : r < (2 : ℚ) ^ k) :
    Int.log 2 r < k := by
  rw [← Int.lt_zpow_iff_log_lt (by norm_num) hr]
  simpa using hhi

theorem zpow_log_two_le (r : ℚ) (hr : 0 < r) : (2 : ℚ) ^ Int.log 2 r ≤ r := by
  simpa using Int.zpow_log_le_self (b := 2) (by norm_num) hr

theorem lt_zpow_log_two_succ (r : ℚ) : r < (2 : ℚ) ^ (Int.log 2 r + 1) := by
  simpa using Int.lt_zpow_succ_log_self (b := 2) (by norm_num) r

theorem binary64_zero : binary64 0 = 0 := by
  unfold binary64
  simp [round_half_even]

/-- A number `m * 2 ^ e` with `|m| < 2 ^ 53` and `e >= -1074` is a double. -/
theorem binary64_of_dyadic (x : ℚ) (m e : Int) (hx : x = (m : ℚ) * (2 : ℚ) ^ e)
    (hm : |m| < 9007199254740992) (he : -1074 ≤ e) : binary64 x = x := by
  by_cases hm0 : m = 0
  · subst hm0
    rw [hx]; simp [binary64_zero]
  have hE : ulp_exponent x ≤ e := by
    unfold ulp_exponent
    apply max_le _ he
    have hxpos : 0 < |x| := by
      rw [hx, abs_mul, abs_of_pos (two_zpow_pos e)]
      exact mul_pos (abs_pos.mpr (by exact_mod_cast hm0)) (two_zpow_pos e)
    have hlt : |x| < (2 : ℚ) ^ (53 + e) := by
      rw [hx, abs_mul, abs_of_pos (two_zpow_pos e), zpow_add₀ (by norm_num)]
      apply mul_lt_mul_of_pos_right _ (two_zpow_pos e)
      have : ((|m| : Int) : ℚ) < 9007199254740992 := by exact_mod_cast hm
      rw [Int.cast_abs] at this
      calc |(m : ℚ)| < 9007199254740992 := this
        _ = (2 : ℚ) ^ (53 : Int) := by norm_num
    have := log_two_lt |x| (53 + e) hxpos hlt
    omega
  unfold binary64
  obtain ⟨E, hEdef⟩ : ∃ E, ulp_exponent x = E := ⟨_, rfl⟩
  rw [hEdef] at hE ⊢
  obtain ⟨n, hn⟩ : ∃ n : Nat, e - E = n := ⟨(e - E).toNat, by omega⟩
  have hdiv : x / (2 : ℚ) ^ E = ((m * 2 ^ n : Int) : ℚ) := by
    rw [hx, mul_div_assoc, ← zpow_sub₀ (by norm_num), hn, zpow_natCast]
    push_cast
    rfl
  rw [hdiv, round_half_even_intCast]
  push_cast
  rw [mul_assoc, ← zpow_natCast, ← zpow_add₀ (by norm_num), ← hn, hx]
  congr 2
  omega

/-- A number in the binade of the double `m * 2 ^ e`, closer to it than half a unit in the
last place, is rounded to it. -/
theorem binary64_near (x : ℚ) (m e : Int) (k : Int) (hk : k = e + 52) (he : -1074 ≤ e)
    (hlo : (2 : ℚ) ^ k ≤ |x|) (hhi : |x| < (2 : ℚ) ^ (k + 1))
    (hnear : |x - (m : ℚ) * (2 : ℚ) ^ e| < (2 : ℚ) ^ e / 2) :
    binary64 x = (m : ℚ) * (2 : ℚ) ^ e := by
  have hxpos : 0 < |x| := lt_of_lt_of_le (two_zpow_pos k) hlo
  have hE : ulp_exponent x = e := by
    unfold ulp_exponent
    rw [log_two_eq |x| k hxpos hlo hhi]
    omega
  unfold binary64
  rw [hE]
  congr 1
  have hq : |x / (2 : ℚ) ^ e - (m : ℚ)| < 1 / 2 := by
    have hpos := two_zpow_pos e
    have : x / (2 : ℚ) ^ e - (m : ℚ) = (x - (m : ℚ) * (2 : ℚ) ^ e) / (2 : ℚ) ^ e := by
      field_simp
      ring
    rw [this, abs_div, abs_of_pos hpos, div_lt_iff₀ hpos]
    linarith
  exact_mod_cast round_half_even_near _ m hq


theorem binary64_nonneg (x : ℚ) (h : 0 ≤ x) : 0 ≤ binary64 x := by
  unfold binary64
  apply mul_nonneg _ (le_of_lt (two_zpow_pos _))
  have : round_half_even ((0 : Int) : ℚ) ≤ round_half_even (x / (2 : ℚ) ^ ulp_exponent x) :=
    round_half_even_mono (by
      rw [Int.cast_zero]; exact div_nonneg h (le_of_lt (two_zpow_pos _)))
  rw [round_half_even_intCast] at this
  exact_mod_cast this

theorem binary64_nonpos (x : ℚ) (h : x ≤ 0) : binary64 x ≤ 0 := by
  unfold binary64
  apply mul_nonpos_of_nonpos_of_nonneg _ (le_of_lt (two_zpow_pos _))
  have : round_half_even (x / (2 : ℚ) ^ ulp_exponent x) ≤ round_half_even ((0 : Int) : ℚ) :=
    round_half_even_mono (by
      rw [Int.cast_zero]; exact div_nonpos_of_nonpos_of_nonneg h (le_of_lt (two_zpow_pos _)))
  rw [round_half_even_intCast] at this
  exact_mod_cast this

theorem log_sub_le_ulp_exponent (x : ℚ) : Int.log 2 |x| - 52 ≤ ulp_exponent x :=
  le_max_left _ _

theorem abs_lt_zpow_ulp_exponent (x : ℚ) : |x| < (2 : ℚ) ^ (53 + ulp_exponent x) := by
  have h1 := lt_zpow_log_two_succ |x|
  have h2 := log_sub_le_ulp_exponent x
  exact lt_of_lt_of_le h1 (zpow_le_zpow_right₀ (by norm_num) (by omega))

theorem binary64_le_zpow (x : ℚ) : binary64 x ≤ (2 : ℚ) ^ (53 + ulp_exponent x) := by
  have hpos := two_zpow_pos (ulp_exponent x)
  have hx : x / (2 : ℚ) ^ ulp_exponent x ≤ ((9007199254740992 : Int) : ℚ) := by
    rw [div_le_iff₀ hpos]
    have h := abs_lt_zpow_ulp_exponent x
    rw [zpow_add₀ (by norm_num)] at h
    have h53 : (2 : ℚ) ^ (53 : Int) = 9007199254740992 := by norm_num
    rw [h53] at h
    push_cast
    exact le_of_lt (lt_of_le_of_lt (le_abs_self x) h)
  have := round_half_even_mono hx
  rw [round_half_even_intCast] at this
  unfold binary64
  rw [zpow_add₀ (by norm_num)]
  have h53 : (2 : ℚ) ^ (53 : Int) = 9007199254740992 := by norm_num
  rw [h53]
  apply mul_le_mul_of_nonneg_right _ (le_of_lt hpos)
  exact_mod_cast this

theorem neg_zpow_le_binary64 (x : ℚ) : -(2 : ℚ) ^ (53 + ulp_exponent x) ≤ binary64 x := by
  have hpos := two_zpow_pos (ulp_exponent x)
  have hx : ((-9007199254740992 : Int) : ℚ) ≤ x / (2 : ℚ) ^ ulp_exponent x := by
    rw [le_div_iff₀ hpos]
    have h := abs_lt_zpow_ulp_exponent x
    rw [zpow_add₀ (by norm_num)] at h
    have h53 : (2 : ℚ) ^ (53 : Int) = 9007199254740992 := by norm_num
    rw [h53] at h
    push_cast
    have := neg_abs_le x
    linarith
  have := round_half_even_mono hx
  rw [round_half_even_intCast] at this
  unfold binary64
  rw [zpow_add₀ (by norm_num)]
  have h53 : (2 : ℚ) ^ (53 : Int) = 9007199254740992 := by norm_num
  rw [h53, ← neg_mul]
  apply mul_le_mul_of_nonneg_right _ (le_of_lt hpos)
  exact_mod_cast this

theorem zpow_log_le_binary64 (y : ℚ) (hy : 0 < y)
    (hE : ulp_exponent y = Int.log 2 |y| - 52) : (2 : ℚ) ^ (52 + ulp_exponent y) ≤ binary64 y := by
  have hpos := two_zpow_pos (ulp_exponent y)
  have hx : ((4503599627370496 : Int) : ℚ) ≤ y / (2 : ℚ) ^ ulp_exponent y := by
    rw [le_div_iff₀ hpos]
    have h := zpow_log_two_le |y| (abs_pos.mpr (ne_of_gt hy))
    have hlog : Int.log 2 |y| = 52 + ulp_exponent y := by omega
    rw [hlog, zpow_add₀ (by norm_num), abs_of_pos hy] at h
    have h52 : (2 : ℚ) ^ (52 : Int) = 4503599627370496 := by norm_num
    rw [h52] at h
    push_cast
    exact h
  have := round_half_even_mono hx
  rw [round_half_even_intCast] at this
  unfold binary64
  rw [zpow_add₀ (by norm_num)]
  have h52 : (2 : ℚ) ^ (52 : Int) = 4503599627370496 := by norm_num
  rw [h52]
  apply mul_le_mul_of_nonneg_right _ (le_of_lt hpos)
  exact_mod_cast this

theorem binary64_le_neg_zpow_log (x : ℚ) (hx0 : x < 0)
    (hE : ulp_exponent x = Int.log 2 |x| - 52) :
    binary64 x ≤ -(2 : ℚ) ^ (52 + ulp_exponent x) := by
  have hpos := two_zpow_pos (ulp_exponent x)
  have hx : x / (2 : ℚ) ^ ulp_exponent x ≤ ((-4503599627370496 : Int) : ℚ) := by
    rw [div_le_iff₀ hpos]
    have h := zpow_log_two_le |x| (abs_pos.mpr (ne_of_lt hx0))
    have hlog : Int.log 2 |x| = 52 + ulp_exponent x := by omega
    rw [hlog, zpow_add₀ (by norm_num), abs_of_neg hx0] at h
    have h52 : (2 : ℚ) ^ (52 : Int) = 4503599627370496 := by norm_num
    rw [h52] at h
    push_cast
    linarith
  have := round_half_even_mono hx
  rw [round_half_even_intCast] at this
  unfold binary64
  rw [zpow_add₀ (by norm_num)]
  have h52 : (2 : ℚ) ^ (52 : Int) = 4503599627370496 := by norm_num
  rw [h52, ← neg_mul]
  apply mul_le_mul_of_nonneg_right _ (le_of_lt hpos)
  exact_mod_cast this

theorem ulp_exponent_mono_abs (x y : ℚ) (hx : 0 < |x|) (h : |x| ≤ |y|) :
    ulp_exponent x ≤ ulp_exponent y := by
  unfold ulp_exponent
  have := Int.log_mono_right (b := 2) hx h
  exact max_le_max (by omega) (le_refl _)

theorem ulp_exponent_ge (x : ℚ) : -1074 ≤ ulp_exponent x := le_max_right _ _

theorem ulp_exponent_eq_of_gt (x : ℚ) (h : -1074 < ulp_exponent x) :
    ulp_exponent x = Int.log 2 |x| - 52 := by
  unfold ulp_exponent at h ⊢
  rcases max_cases (Int.log 2 |x| - 52) (-1074) with ⟨h1, _⟩ | ⟨h1, _⟩
  · exact h1
  · rw [h1] at h; omega

theorem binary64_mono_same (x y : ℚ) (h : x ≤ y) (hE : ulp_exponent x = ulp_exponent y) :
    binary64 x ≤ binary64 y := by
  unfold binary64
  rw [hE]
  have hpos := two_zpow_pos (ulp_exponent y)
  apply mul_le_mul_of_nonneg_right _ (le_of_lt hpos)
  have : round_half_even (x / (2 : ℚ) ^ ulp_exponent y) ≤
      round_half_even (y / (2 : ℚ) ^ ulp_exponent y) :=
    round_half_even_mono (div_le_div_of_nonneg_right h (le_of_lt hpos))
  exact_mod_cast this

/-- Rounding to the nearest double is monotone. -/
theorem binary64_mono {x y : ℚ} (h : x ≤ y) : binary64 x ≤ binary64 y := by
  rcases le_or_lt x 0 with hx | hx
  · rcases le_or_lt 0 y with hy | hy
    · exact le_trans (binary64_nonpos x hx) (binary64_nonneg y hy)
    · -- x ≤ y < 0
      have hx0 : x < 0 := lt_of_le_of_lt h hy
      have habs : |y| ≤ |x| := by rw [abs_of_neg hy, abs_of_neg hx0]; linarith
      have hE := ulp_exponent_mono_abs y x (abs_pos.mpr (ne_of_lt hy)) habs
      rcases lt_or_eq_of_le hE with hlt | heq
      · have hEx := ulp_exponent_eq_of_gt x (by have := ulp_exponent_ge y; omega)
        have h1 := binary64_le_neg_zpow_log x hx0 hEx
        have h2 := neg_zpow_le_binary64 y
        have h3 : (2 : ℚ) ^ (53 + ulp_exponent y) ≤ (2 : ℚ) ^ (52 + ulp_exponent x) :=
          zpow_le_zpow_right₀ (by norm_num) (by omega)
        linarith
      · exact binary64_mono_same x y h heq.symm
  · -- 0 < x ≤ y
    have hy : 0 < y := lt_of_lt_of_le hx h
    have habs : |x| ≤ |y| := by rw [abs_of_pos hx, abs_of_pos hy]; exact h
    have hE := ulp_exponent_mono_abs x y (abs_pos.mpr (ne_of_gt hx)) habs
    rcases lt_or_eq_of_le hE with hlt | heq
    · have hEy := ulp_exponent_eq_of_gt y (by have := ulp_exponent_ge x; omega)
      have h1 := binary64_le_zpow x
      have h2 := zpow_log_le_binary64 y hy hEy
      have h3 : (2 : ℚ) ^ (53 + ulp_exponent x) ≤ (2 : ℚ) ^ (52 + ulp_exponent y) :=
        zpow_le_zpow_right₀ (by norm_num) (by omega)
      linarith
    · exact binary64_mono_same x y h heq

theorem wrap32_of_fits (z : Int) (h : fits_int z) : wrap32 z = z := by
  unfold fits_int at h
  unfold wrap32
  omega

theorem fits_int_wrap32 (z : Int) : fits_int (wrap32 z) := by
  unfold fits_int wrap32
  omega

theorem static_cast_int32_of_fits (x : ℚ) (h : fits_int (static_cast_int x)) :
    static_cast_int32 x = static_cast_int x := by
  unfold static_cast_int32
  rw [if_pos h]

theorem static_cast_int32_of_not_fits (x : ℚ) (h : ¬ fits_int (static_cast_int x)) :
    static_cast_int32 x = -2147483648 := by
  unfold static_cast_int32
  rw [if_neg h]

theorem static_cast_int_of_nonneg (x : ℚ) (h : 0 ≤ x) : static_cast_int x = ⌊x⌋ := by
  unfold static_cast_int
  rw [Rat.floor_def, Int.tdiv_eq_ediv (Rat.num_nonneg.mpr h) (Int.ofNat_nonneg _)]

theorem static_cast_int_neg (x : ℚ) : static_cast_int (-x) = - static_cast_int x := by
  unfold static_cast_int
  simp

theorem static_cast_int_of_neg (x : ℚ) (h : x < 0) : static_cast_int x = ⌈x⌉ := by
  have h1 : static_cast_int x = - static_cast_int (-x) := by
    rw [static_cast_int_neg]; simp
  rw [h1, static_cast_int_of_nonneg (-x) (by linarith), Int.floor_neg]
  simp

theorem static_cast_int_eq (x : ℚ) : static_cast_int x = if 0 ≤ x then ⌊x⌋ else ⌈x⌉ := by
  split
  · next h => exact static_cast_int_of_nonneg x h
  · next h => exact static_cast_int_of_neg x (lt_of_not_ge h)

theorem static_cast_int_mono {a b : ℚ} (h : a ≤ b) : static_cast_int a ≤ static_cast_int b := by
  rw [static_cast_int_eq, static_cast_int_eq]
  split <;> split
  · exact Int.floor_le_floor h
  · next ha hb => exact absurd (le_trans ha h) hb
  · next ha hb =>
    have h1 : ⌈a⌉ ≤ 0 := Int.ceil_le.mpr (by simpa using le_of_lt (lt_of_not_ge ha))
    have h2 : 0 ≤ ⌊b⌋ := Int.floor_nonneg.mpr hb
    omega
  · exact Int.ceil_le_ceil h

theorem static_cast_int_eq_of_nonneg (x : ℚ) (z : Int) (h0 : 0 ≤ x) (h1 : (z : ℚ) ≤ x)
    (h2 : x < (z : ℚ) + 1) : static_cast_int x = z := by
  rw [static_cast_int_of_nonneg x h0, Int.floor_eq_iff]
  exact ⟨h1, h2⟩

theorem static_cast_int_eq_of_nonpos (x : ℚ) (z : Int) (h0 : x ≤ 0) (h1 : (z : ℚ) - 1 < x)
    (h2 : x ≤ (z : ℚ)) : static_cast_int x = z := by
  rcases lt_or_eq_of_le h0 with h | h
  · rw [static_cast_int_of_neg x h, Int.ceil_eq_iff]
    exact ⟨h1, h2⟩
  · subst h
    have hz1 : (z : ℚ) < 1 := by linarith
    have hz2 : (0 : ℚ) ≤ (z : ℚ) := h2
    have h3 : z < 1 := by exact_mod_cast hz1
    have h4 : 0 ≤ z := by exact_mod_cast hz2
    have : z = 0 := by omega
    subst this
    rw [static_cast_int_of_nonneg 0 (le_refl _)]
    simp

theorem static_cast_int32_eq_of (x : ℚ) (z : Int) (hz : static_cast_int x = z)
    (hf : fits_int z) : static_cast_int32 x = z := by
  rw [static_cast_int32_of_fits x (by rw [hz]; exact hf), hz]

theorem chunks_offset_eq_of (current_sample_rate chunk_size : Int)
    (buffer_delay elapsed_time time a b c p : ℚ)
    (ha : binary64 (elapsed_time - buffer_delay) = a) (hb : binary64 (time - a) = b)
    (hc : chunks_per_second current_sample_rate chunk_size = c) (hp : binary64 (b * c) = p) :
    chunks_offset current_sample_rate chunk_size buffer_delay elapsed_time time = p := by
  unfold chunks_offset
  rw [ha, hb, hc, hp]

theorem censored_region_eq_of (current_sample_rate chunk_size : Int) (buffer_delay : ℚ)
    (safety_margin : Int) (elapsed_time : ℚ) (chunks_processed : Int) (start_time end_time : ℚ)
    (zs ze : Int)
    (hs : static_cast_int32 (chunks_offset current_sample_rate chunk_size buffer_delay
      elapsed_time start_time) = zs)
    (he : static_cast_int32 (chunks_offset current_sample_rate chunk_size buffer_delay
      elapsed_time end_time) = ze) :
    censored_region current_sample_rate chunk_size buffer_delay safety_margin elapsed_time
      chunks_processed start_time end_time =
    ⟨wrap32 (chunks_processed + wrap32 (zs - safety_margin)),
      wrap32 (chunks_processed + wrap32 (ze + safety_margin)), false⟩ := by
  unfold censored_region chunks_offset_start chunks_offset_end
  rw [hs, he]

theorem chunks_per_second_example : chunks_per_second 16000 1024 = 125 / 8 := by
  unfold chunks_per_second
  rw [binary64_of_dyadic _ 125 (-3) (by norm_num) (by norm_num) (by norm_num)]
  norm_num

theorem binary64_five : binary64 (7 - 2) = 5 := by
  rw [binary64_of_dyadic _ 5 0 (by norm_num) (by norm_num) (by norm_num)]
  norm_num

theorem censored_region_example :
    censored_region 16000 1024 2 3 7 0 5 (11 / 2) = ⟨-3, 10, false⟩ := by
  have hs : chunks_offset 16000 1024 2 7 5 = 0 :=
    chunks_offset_eq_of 16000 1024 2 7 5 5 0 (125 / 8) 0 binary64_five
      (by rw [show (5 : ℚ) - 5 = 0 by norm_num]; exact binary64_zero)
      chunks_per_second_example (by rw [zero_mul]; exact binary64_zero)
  have he : chunks_offset 16000 1024 2 7 (11 / 2) = 125 / 16 :=
    chunks_offset_eq_of 16000 1024 2 7 (11 / 2) 5 (1 / 2) (125 / 8) (125 / 16) binary64_five
      (by
        rw [binary64_of_dyadic _ 1 (-1) (by norm_num) (by norm_num) (by norm_num)]
        norm_num)
      chunks_per_second_example
      (by
        rw [binary64_of_dyadic _ 125 (-4) (by norm_num) (by norm_num) (by norm_num)]
        norm_num)
  rw [censored_region_eq_of 16000 1024 2 3 7 0 5 (11 / 2) 0 7
    (by
      rw [hs]
      exact static_cast_int32_eq_of 0 0
        (static_cast_int_eq_of_nonneg 0 0 (le_refl _) (by norm_num) (by norm_num))
        (by decide))
    (by
      rw [he]
      exact static_cast_int32_eq_of _ 7
        (static_cast_int_eq_of_nonneg _ 7 (by norm_num) (by norm_num) (by norm_num))
        (by decide))]
  rfl

theorem censored_region_expired_example :
    censored_region 16000 1024 2 3 7 0 1 (3 / 2) = ⟨-65, -51, false⟩ := by
  have hs : chunks_offset 16000 1024 2 7 1 = -(125 / 2) :=
    chunks_offset_eq_of 16000 1024 2 7 1 5 (-4) (125 / 8) (-(125 / 2)) binary64_five
      (by
        rw [binary64_of_dyadic _ (-4) 0 (by norm_num) (by norm_num) (by norm_num)]
        norm_num)
      chunks_per_second_example
      (by
        rw [binary64_of_dyadic _ (-125) (-1) (by norm_num) (by norm_num) (by norm_num)]
        norm_num)
  have he : chunks_offset 16000 1024 2 7 (3 / 2) = -(875 / 16) :=
    chunks_offset_eq_of 16000 1024 2 7 (3 / 2) 5 (-(7 / 2)) (125 / 8) (-(875 / 16))
      binary64_five
      (by
        rw [binary64_of_dyadic _ (-7) (-1) (by norm_num) (by norm_num) (by norm_num)]
        norm_num)
      chunks_per_second_example
      (by
        rw [binary64_of_dyadic _ (-875) (-4) (by norm_num) (by norm_num) (by norm_num)]
        norm_num)
  rw [censored_region_eq_of 16000 1024 2 3 7 0 1 (3 / 2) (-62) (-54)
    (by
      rw [hs]
      exact static_cast_int32_eq_of _ (-62)
        (static_cast_int_eq_of_nonpos _ (-62) (by norm_num) (by norm_num) (by norm_num))
        (by decide))
    (by
      rw [he]
      exact static_cast_int32_eq_of _ (-54)
        (static_cast_int_eq_of_nonpos _ (-54) (by norm_num) (by norm_num) (by norm_num))
        (by decide))]
  rfl

theorem expired_region_kept (r : Region) (first : Int) (hexp : r.end_idx < first)
    (chunks : Nat → List Int) (n : Nat) (regs : List Region)
    (hregs : ∀ q ∈ regs, q.processed = false) (hmem : r ∈ regs) :
    r ∈ run_region_ops regs (successive_checks first chunks n) := by
  refine run_region_ops_keeps r _ ?_ regs hregs hmem
  intro c out hc
  simp only [successive_checks, List.mem_map, List.mem_range, RegionOp.check.injEq] at hc
  obtain ⟨i, _, hi, _⟩ := hc
  intro hin
  omega

/-! ### Lemmas on the word detector -/

theorem find_self (t : CppString) : (find t t).isSome = true := by
  unfold find
  rw [List.range_succ_eq_map, List.find?_cons]
  have : t.isPrefixOf (t.drop 0) = true := by
    rw [List.drop_zero, List.isPrefixOf_iff_prefix]
  rw [this]
  rfl

theorem match_targets_long (normalized_word target : CppString) (rest : List CppString)
    (h : normalized_word.length > 5) :
    (match_targets normalized_word (target :: rest)).isSome = true := by
  unfold match_targets
  simp only [find_self, and_true, h, if_true]
  split <;> rfl

theorem _throttle_check_cache (current_time : Int) (d : WordDetector) :
    (_throttle_check current_time d).1.cache = d.cache := by
  unfold _throttle_check
  simp only
  split <;> split <;> rfl

theorem _throttle_check_config (current_time : Int) (d : WordDetector) :
    (_throttle_check current_time d).1.config = d.config := by
  unfold _throttle_check
  simp only
  split <;> split <;> rfl

theorem _throttle_check_detection_count (current_time : Int) (d : WordDetector) :
    (_throttle_check current_time d).1.detection_count = d.detection_count := by
  unfold _throttle_check
  simp only
  split <;> split <;> rfl

theorem is_prohibited_word_short (lib : Lib) (current_time : Int) (d : WordDetector)
    (word_text : CppString) (patterns target_words : List CppString)
    (h : (_normalize_word word_text).length < 3) :
    is_prohibited_word lib current_time d word_text patterns target_words =
      ((false, []), (_throttle_check current_time d).1) := by
  unfold is_prohibited_word
  simp only [h, if_true]

theorem is_prohibited_word_hit (lib : Lib) (current_time : Int) (d : WordDetector)
    (word_text : CppString) (patterns target_words : List CppString) (result : Bool × CppString)
    (h : ¬ (_normalize_word word_text).length < 3)
    (hhit : d.cache.lookup
      (_generate_cache_key lib (_normalize_word word_text) patterns target_words) =
        some result) :
    is_prohibited_word lib current_time d word_text patterns target_words =
      (result, (_throttle_check current_time d).1) := by
  unfold is_prohibited_word
  simp only [h, if_false, _throttle_check_cache, hhit]

theorem is_prohibited_word_miss (lib : Lib) (current_time : Int) (d : WordDetector)
    (word_text : CppString) (patterns target_words : List CppString)
    (h : ¬ (_normalize_word word_text).length < 3)
    (hmiss : d.cache.lookup
      (_generate_cache_key lib (_normalize_word word_text) patterns target_words) = none) :
    (is_prohibited_word lib current_time d word_text patterns target_words).1 =
      evaluate_rules lib d.config (_normalize_word word_text) patterns target_words ∧
    (is_prohibited_word lib current_time d word_text patterns target_words).2.cache =
      (_generate_cache_key lib (_normalize_word word_text) patterns target_words,
        evaluate_rules lib d.config (_normalize_word word_text) patterns target_words) ::
          d.cache ∧
    (is_prohibited_word lib current_time d word_text patterns target_words).2.detection_count =
      d.detection_count +
        (if (evaluate_rules lib d.config (_normalize_word word_text) patterns target_words).1
          then 1 else 0) ∧
    (is_prohibited_word lib current_time d word_text patterns target_words).2.config =
      d.config := by
  unfold is_prohibited_word evaluate_rules
  simp only [h, if_false, _throttle_check_cache, _throttle_check_config, hmiss,
    _throttle_check_detection_count]
  obtain ⟨mp, hmp⟩ : ∃ mp, match_patterns lib (_normalize_word word_text)
      (if patterns = [] then
        match d.config.lookup "target_patterns" with
        | some s => getline_loop s []
        | none => patterns
      else patterns) = mp := ⟨_, rfl⟩
  obtain ⟨mt, hmt⟩ : ∃ mt, match_targets (_normalize_word word_text)
      (if target_words = [] then
        match d.config.lookup "target_words" with
        | some s => getline_loop s []
        | none => target_words
      else target_words) = mt := ⟨_, rfl⟩
  simp only [hmp, hmt]
  cases mp with
  | some p => simp
  | none =>
    cases mt with
    | some reason => simp
    | none => simp

theorem is_prohibited_word_config (lib : Lib) (current_time : Int) (d : WordDetector)
    (word_text : CppString) (patterns target_words : List CppString) :
    (is_prohibited_word lib current_time d word_text patterns target_words).2.config =
      d.config := by
  by_cases h : (_normalize_word word_text).length < 3
  · rw [is_prohibited_word_short _ _ _ _ _ _ h]
    exact _throttle_check_config current_time d
  · cases hl : d.cache.lookup
      (_generate_cache_key lib (_normalize_word word_text) patterns target_words) with
    | none => exact (is_prohibited_word_miss _ _ _ _ _ _ h hl).2.2.2
    | some r =>
      rw [is_prohibited_word_hit _ _ _ _ _ _ r h hl]
      exact _throttle_check_config current_time d

theorem match_patterns_first (lib : Lib) (w : CppString) (pre : List CppString)
    (p : CppString) (post : List CppString) (search : CppString → Bool)
    (hp : lib.regex p = some search) (hw : search w = true)
    (hpre : ∀ q ∈ pre, ∀ g, lib.regex q = some g → g w = false) :
    match_patterns lib w (pre ++ p :: post) = some p := by
  induction pre with
  | nil => simp [match_patterns, hp, hw]
  | cons q pre ih =>
    have ih := ih (fun q' hq' => hpre q' (List.mem_cons_of_mem _ hq'))
    rw [List.cons_append, match_patterns]
    cases hq : lib.regex q with
    | none => simpa using ih
    | some g =>
      have := hpre q (by simp) g hq
      simpa [this] using ih

theorem match_patterns_filter (lib : Lib) (w : CppString) (patterns : List CppString) :
    match_patterns lib w (patterns.filter (fun p => (lib.regex p).isSome)) =
      match_patterns lib w patterns := by
  induction patterns with
  | nil => rfl
  | cons p rest ih =>
    cases hp : lib.regex p with
    | none =>
      rw [List.filter_cons_of_neg (by rw [hp]; simp), match_patterns, hp]
      exact ih
    | some g =>
      rw [List.filter_cons_of_pos (by rw [hp]; rfl), match_patterns, match_patterns, hp, ih]

theorem match_targets_exact (w t : CppString) (targets : List CppString) (ht : t ∈ targets)
    (heq : _normalize_word t = w) : (match_targets w targets).isSome = true := by
  induction targets with
  | nil => simp at ht
  | cons a rest ih =>
    unfold match_targets
    simp only
    split
    · rfl
    · split
      · rfl
      · rcases List.mem_cons.mp ht with rfl | hmem
        · next hne _ => exact absurd heq.symm hne
        · exact ih hmem

theorem is_prohibited_word_cached (lib : Lib) (current_time : Int) (d : WordDetector)
    (word_text : CppString) (patterns target_words : List CppString)
    (h : ¬ (_normalize_word word_text).length < 3) :
    (is_prohibited_word lib current_time d word_text patterns target_words).2.cache.lookup
      (_generate_cache_key lib (_normalize_word word_text) patterns target_words) =
        some (is_prohibited_word lib current_time d word_text patterns target_words).1 := by
  cases hl : d.cache.lookup
      (_generate_cache_key lib (_normalize_word word_text) patterns target_words) with
  | none =>
    obtain ⟨h1, h2, _, _⟩ := is_prohibited_word_miss _ current_time _ _ _ _ h hl
    rw [h2, h1]
    simp [List.lookup]
  | some r =>
    rw [is_prohibited_word_hit _ _ _ _ _ _ r h hl]
    simp only [_throttle_check_cache, hl]

theorem is_prohibited_word_again (lib : Lib) (t1 t2 : Int) (d : WordDetector)
    (word_text : CppString) (p1 t1s p2 t2s : List CppString)
    (hkey : _generate_cache_key lib (_normalize_word word_text) p2 t2s =
      _generate_cache_key lib (_normalize_word word_text) p1 t1s) :
    (is_prohibited_word lib t2 (is_prohibited_word lib t1 d word_text p1 t1s).2
      word_text p2 t2s).1 = (is_prohibited_word lib t1 d word_text p1 t1s).1 ∧
    (is_prohibited_word lib t2 (is_prohibited_word lib t1 d word_text p1 t1s).2
      word_text p2 t2s).2.detection_count =
        (is_prohibited_word lib t1 d word_text p1 t1s).2.detection_count := by
  by_cases h : (_normalize_word word_text).length < 3
  · rw [is_prohibited_word_short _ t2 _ _ _ _ h, is_prohibited_word_short _ t1 _ _ _ _ h]
    simp only [_throttle_check_detection_count, and_self]
  · have hc := is_prohibited_word_cached lib t1 d word_text p1 t1s h
    rw [← hkey] at hc
    rw [is_prohibited_word_hit _ t2 _ _ _ _ _ h hc]
    simp only [_throttle_check_detection_count, and_self]

theorem match_patterns_none (lib : Lib) (w : CppString) (patterns : List CppString)
    (h : ∀ q ∈ patterns, ∀ g, lib.regex q = some g → g w = false) :
    match_patterns lib w patterns = none := by
  induction patterns with
  | nil => rfl
  | cons q rest ih =>
    have ih := ih (fun q' hq' => h q' (List.mem_cons_of_mem _ hq'))
    rw [match_patterns]
    cases hq : lib.regex q with
    | none => simpa using ih
    | some g =>
      have := h q (by simp) g hq
      simpa [this] using ih

theorem evaluate_rules_no_fallback (lib : Lib) (config : List (String × CppString))
    (w : CppString) (patterns target_words : List CppString)
    (hcfg : config.lookup "target_patterns" = none) :
    evaluate_rules lib config w patterns target_words =
      match match_patterns lib w patterns with
      | some pattern_str => (true, pattern_str)
      | none =>
        match match_targets w
          (if target_words = [] then
            match config.lookup "target_words" with
            | some s => getline_loop s []
            | none => target_words
          else target_words) with
        | some reason => (true, reason)
        | none => (false, []) := by
  unfold evaluate_rules
  simp only [hcfg, ite_self]

theorem static_cast_int_le_floor_add_one (x : ℚ) : static_cast_int x ≤ ⌊x⌋ + 1 := by
  rw [static_cast_int_eq]
  split
  · omega
  · exact Int.ceil_le_floor_add_one x

theorem ceil_sub_one_le_static_cast_int (x : ℚ) : ⌈x⌉ - 1 ≤ static_cast_int x := by
  rw [static_cast_int_eq]
  split
  · have := Int.ceil_le_floor_add_one x
    omega
  · omega

theorem _throttle_check_delay (current_time : Int) (d : WordDetector) :
    (_throttle_check current_time d).2 =
      throttle_delay (_throttle_check current_time d).1._throttle_attempts := by
  unfold _throttle_check throttle_delay
  simp only
  split <;> split <;> simp_all

theorem _throttle_check_fields (current_time : Int) (d : WordDetector) :
    (_throttle_check current_time d).1._throttle_attempts =
      (if Int.tdiv (current_time - d._throttle_start_time) 1000000000 > 10 then 1
      else d._throttle_attempts + 1) ∧
    (_throttle_check current_time d).1._throttle_start_time =
      (if Int.tdiv (current_time - d._throttle_start_time) 1000000000 > 10 then current_time
      else d._throttle_start_time) := by
  unfold _throttle_check
  simp only
  by_cases h : Int.tdiv (current_time - d._throttle_start_time) 1000000000 > 10
  · simp only [if_pos h]
    constructor <;> (split <;> simp)
  · simp only [if_neg h]
    constructor <;> (split <;> rfl)

theorem throttle_delay_nonneg (n : Int) : 0 ≤ throttle_delay n := by
  unfold throttle_delay
  split
  · next h =>
    have : (0 : ℚ) ≤ ((n - 100 : Int) : ℚ) / 1000 := by
      apply div_nonneg
      · exact_mod_cast (by omega : (0 : Int) ≤ n - 100)
      · norm_num
    exact le_min (by norm_num) this
  · exact le_refl _

theorem throttle_delay_le_half (n : Int) : throttle_delay n ≤ 1 / 2 := by
  unfold throttle_delay
  split
  · exact min_le_left _ _
  · norm_num

theorem throttle_delay_mono {n m : Int} (h : n ≤ m) : throttle_delay n ≤ throttle_delay m := by
  by_cases hn : n > 100
  · have hm : m > 100 := by omega
    unfold throttle_delay
    rw [if_pos hn, if_pos hm]
    apply min_le_min (le_refl _)
    apply div_le_div_of_nonneg_right _ (by norm_num)
    exact_mod_cast (by omega : n - 100 ≤ m - 100)
  · have h0 : throttle_delay n = 0 := by unfold throttle_delay; rw [if_neg hn]
    rw [h0]
    exact throttle_delay_nonneg m

/-! ### Lemmas on the processing loop -/

theorem AudioProcessor.recognize_frame (lib : Lib) (ps : Parsers) (e : CppString) (tick : Tick)
    (a : AudioProcessor) :
    (AudioProcessor.recognize lib ps e tick a).audio_buffer = a.audio_buffer ∧
    (AudioProcessor.recognize lib ps e tick a).chunks_processed = a.chunks_processed ∧
    (AudioProcessor.recognize lib ps e tick a).sink = a.sink ∧
    (AudioProcessor.recognize lib ps e tick a).config = a.config ∧
    (AudioProcessor.recognize lib ps e tick a).paused = a.paused ∧
    (AudioProcessor.recognize lib ps e tick a).buffer_size_in_chunks =
      a.buffer_size_in_chunks ∧
    (AudioProcessor.recognize lib ps e tick a).source_reads = a.source_reads := by
  unfold AudioProcessor.recognize
  split
  · split <;> simp
  · simp

theorem AudioProcessor.word_loop_unprocessed (lib : Lib) (current_time : Int)
    (config : List (String × CppString)) (target_patterns target_words : List CppString)
    (current_sample_rate chunk_size safety_margin : Int) (buffer_delay : ℚ)
    (chunks_processed : Int) (elapsed_time : ℚ) (words : List Json) :
    ∀ (detector : WordDetector) (regs : List Region), (∀ r ∈ regs, r.processed = false) →
      ∀ r ∈ AudioProcessor.word_loop lib current_time config target_patterns target_words
        current_sample_rate chunk_size safety_margin buffer_delay chunks_processed elapsed_time
        detector words regs, r.processed = false := by
  induction words with
  | nil => intro detector regs h; simpa [AudioProcessor.word_loop] using h
  | cons word rest ih =>
    intro detector regs h
    unfold AudioProcessor.word_loop
    split
    · exact h
    · simp only
      split
      · split
        · next start_time end_time _ _ =>
          have hadded : ∀ r ∈ regs ++ [censored_region current_sample_rate chunk_size
              buffer_delay safety_margin elapsed_time chunks_processed start_time end_time],
              r.processed = false := by
            intro r hr
            rcases List.mem_append.mp hr with hr | hr
            · exact h r hr
            · rw [List.mem_singleton.mp hr]; rfl
          split
          · exact hadded
          · exact ih _ _ hadded
        · exact h
      · exact ih _ _ h

theorem AudioProcessor.process_recognition_result_unprocessed (lib : Lib) (ps : Parsers)
    (current_time : Int) (config : List (String × CppString))
    (current_sample_rate chunks_processed : Int) (elapsed_time : ℚ) (regs : List Region)
    (result_json : CppString) (h : ∀ r ∈ regs, r.processed = false) :
    ∀ r ∈ AudioProcessor.process_recognition_result lib ps current_time config
      current_sample_rate chunks_processed elapsed_time regs result_json,
      r.processed = false := by
  unfold AudioProcessor.process_recognition_result
  split
  · exact h
  · split
    · exact h
    · split
      · exact h
      · split
        · exact h
        · simp only
          split
          · exact AudioProcessor.word_loop_unprocessed _ _ _ _ _ _ _ _ _ _ _ _ _ _ h
          · exact h
    · exact h

theorem AudioProcessor.recognize_unprocessed (lib : Lib) (ps : Parsers) (e : CppString)
    (tick : Tick) (a : AudioProcessor) (h : ∀ r ∈ a.censored_regions, r.processed = false) :
    ∀ r ∈ (AudioProcessor.recognize lib ps e tick a).censored_regions, r.processed = false := by
  unfold AudioProcessor.recognize
  split
  · split
    · exact AudioProcessor.process_recognition_result_unprocessed _ _ _ _ _ _ _ _ _ h
    · exact h
  · exact h

theorem playback_stage_unprocessed (chunk_size : Nat) (enable : Bool) (p : Playback)
    (h : ∀ r ∈ p.censored_regions, r.processed = false) :
    ∀ r ∈ (playback_stage chunk_size enable p).censored_regions, r.processed = false := by
  unfold playback_stage
  split
  · exact h
  · cases enable with
    | true => exact censor_check_unprocessed _ _ _
    | false => simpa [censor_check] using h

theorem AudioProcessor.priming_iteration_unprocessed (lib : Lib) (ps : Parsers)
    (chunk_size : Nat) (tick : Tick) (a : AudioProcessor)
    (h : ∀ r ∈ a.censored_regions, r.processed = false) :
    ∀ r ∈ (AudioProcessor.priming_iteration lib ps chunk_size tick a).censored_regions,
      r.processed = false := by
  unfold AudioProcessor.priming_iteration
  split
  · exact h
  · simp only
    split
    · exact h
    · exact AudioProcessor.recognize_unprocessed _ _ _ _ _ h

theorem AudioProcessor.main_iteration_unprocessed (lib : Lib) (ps : Parsers)
    (chunk_size : Nat) (tick : Tick) (a : AudioProcessor)
    (h : ∀ r ∈ a.censored_regions, r.processed = false) :
    ∀ r ∈ (AudioProcessor.main_iteration lib ps chunk_size tick a).censored_regions,
      r.processed = false := by
  unfold AudioProcessor.main_iteration
  split
  · exact h
  · simp only
    split
    · exact h
    · exact playback_stage_unprocessed _ _ _
        (AudioProcessor.recognize_unprocessed _ _ _ _ _ h)

theorem AudioProcessor.run_loops_unprocessed (lib : Lib) (ps : Parsers) (chunk_size : Nat)
    (priming running : List Tick) (a : AudioProcessor)
    (h : ∀ r ∈ a.censored_regions, r.processed = false) :
    ∀ r ∈ (AudioProcessor.run_loops lib ps chunk_size priming running a).censored_regions,
      r.processed = false := by
  unfold AudioProcessor.run_loops
  have hprime : ∀ (l : List Tick) (s : AudioProcessor),
      (∀ r ∈ s.censored_regions, r.processed = false) →
      ∀ r ∈ (l.foldl (fun s tick => AudioProcessor.priming_iteration lib ps chunk_size tick s)
        s).censored_regions, r.processed = false := by
    intro l
    induction l with
    | nil => intro s hs; exact hs
    | cons t l ih =>
      intro s hs
      exact ih _ (AudioProcessor.priming_iteration_unprocessed lib ps chunk_size t s hs)
  have hmain : ∀ (l : List Tick) (s : AudioProcessor),
      (∀ r ∈ s.censored_regions, r.processed = false) →
      ∀ r ∈ (l.foldl (fun s tick => AudioProcessor.main_iteration lib ps chunk_size tick s)
        s).censored_regions, r.processed = false := by
    intro l
    induction l with
    | nil => intro s hs; exact hs
    | cons t l ih =>
      intro s hs
      exact ih _ (AudioProcessor.main_iteration_unprocessed lib ps chunk_size t s hs)
  exact hmain running _ (hprime priming a h)

theorem AudioProcessor.main_iteration_pop (lib : Lib) (ps : Parsers) (chunk_size : Nat)
    (tick : Tick) (a : AudioProcessor) (e : CppString) (out rest : List Int)
    (hp : a.paused = false) (hc : a.config.lookup "enable_censoring" = some e)
    (hpop : pop_chunk chunk_size (push (buffer_capacity a.buffer_size_in_chunks chunk_size)
      a.audio_buffer tick.input_chunk) = some (out, rest)) :
    (AudioProcessor.main_iteration lib ps chunk_size tick a).chunks_processed =
      a.chunks_processed + 1 ∧
    (∃ chunk, (AudioProcessor.main_iteration lib ps chunk_size tick a).sink =
      a.sink ++ [chunk]) ∧
    (AudioProcessor.main_iteration lib ps chunk_size tick a).audio_buffer = rest := by
  unfold AudioProcessor.main_iteration AudioProcessor.recognize
  simp only [hp, hc, Bool.false_eq_true, if_false]
  by_cases he : e = utf8 "true"
  · cases hj : tick.result_json with
    | none => simp [he, playback_stage, AudioProcessor.playback, hpop]
    | some j => simp [he, playback_stage, AudioProcessor.playback, hpop]
  · simp [he, playback_stage, AudioProcessor.playback, hpop]

theorem AudioProcessor.main_iteration_frame (lib : Lib) (ps : Parsers) (chunk_size : Nat)
    (tick : Tick) (a : AudioProcessor) :
    (AudioProcessor.main_iteration lib ps chunk_size tick a).config = a.config ∧
    (AudioProcessor.main_iteration lib ps chunk_size tick a).paused = a.paused ∧
    (AudioProcessor.main_iteration lib ps chunk_size tick a).buffer_size_in_chunks =
      a.buffer_size_in_chunks := by
  unfold AudioProcessor.main_iteration
  split
  · simp
  · simp only
    split
    · simp
    · next e _ =>
      obtain ⟨_, _, _, h4, h5, h6, _⟩ := AudioProcessor.recognize_frame lib ps e tick
        { a with
          source_reads := a.source_reads + 1
          audio_buffer := push (buffer_capacity a.buffer_size_in_chunks chunk_size)
            a.audio_buffer tick.input_chunk }
      exact ⟨h4, h5, h6⟩

theorem AudioProcessor.priming_iteration_frame (lib : Lib) (ps : Parsers) (chunk_size : Nat)
    (tick : Tick) (a : AudioProcessor) :
    (AudioProcessor.priming_iteration lib ps chunk_size tick a).config = a.config ∧
    (AudioProcessor.priming_iteration lib ps chunk_size tick a).paused = a.paused ∧
    (AudioProcessor.priming_iteration lib ps chunk_size tick a).buffer_size_in_chunks =
      a.buffer_size_in_chunks ∧
    (a.paused = false →
      (AudioProcessor.priming_iteration lib ps chunk_size tick a).audio_buffer =
        push (buffer_capacity a.buffer_size_in_chunks chunk_size) a.audio_buffer
          tick.input_chunk) := by
  unfold AudioProcessor.priming_iteration
  split
  · next h => simp [h]
  · simp only
    split
    · simp
    · next e _ =>
      obtain ⟨h1, _, _, h4, h5, h6, _⟩ := AudioProcessor.recognize_frame lib ps e tick
        { a with
          source_reads := a.source_reads + 1
          audio_buffer := push (buffer_capacity a.buffer_size_in_chunks chunk_size)
            a.audio_buffer tick.input_chunk }
      exact ⟨h4, h5, h6, fun _ => h1⟩

/-! ### Lemmas on the normalization -/

theorem is_vowel_eq_false (c : Fin 256) : is_vowel c = false := by
  have h1 : char_to_int c < 256 := by unfold char_to_int; split <;> omega
  simp only [is_vowel, Bool.or_eq_false_iff, decide_eq_false_iff_not]
  omega

theorem tolower_val_upper (c : Fin 256) (h : 65 ≤ c.val ∧ c.val ≤ 90) :
    (c + 32).val = c.val + 32 := by
  rw [Fin.val_add]
  have h32 : (32 : Fin 256).val = 32 := rfl
  rw [h32]
  omega

theorem tolower_idem (c : Fin 256) : tolower (tolower c) = tolower c := by
  unfold tolower
  by_cases h : 65 ≤ c.val ∧ c.val ≤ 90
  · have hv := tolower_val_upper c h
    rw [if_pos h, if_neg (by rw [hv]; omega)]
  · rw [if_neg h, if_neg h]

theorem tolower_eq_zero (c : Fin 256) (h0 : tolower c = 0) : c = 0 := by
  unfold tolower at h0
  by_cases h : 65 ≤ c.val ∧ c.val ≤ 90
  · rw [if_pos h] at h0
    have hv := tolower_val_upper c h
    rw [h0] at hv
    have hz : (0 : Fin 256).val = 0 := rfl
    omega
  · rw [if_neg h] at h0
    exact h0

theorem collapse_repeats_cons (p c : Fin 256) (rest : CppString) :
    collapse_repeats p (c :: rest) =
      if c ≠ p then c :: collapse_repeats c rest else collapse_repeats p rest := by
  rw [collapse_repeats]
  simp only [is_vowel_eq_false, Bool.false_eq_true, if_false]

theorem collapse_repeats_idem (l : CppString) : ∀ p : Fin 256,
    collapse_repeats p (collapse_repeats p l) = collapse_repeats p l := by
  induction l with
  | nil => intro p; rfl
  | cons c rest ih =>
    intro p
    rw [collapse_repeats_cons]
    by_cases h : c ≠ p
    · rw [if_pos h, collapse_repeats_cons, if_pos h, ih c]
    · rw [if_neg h, ih p]

theorem collapse_repeats_mem (l : CppString) : ∀ (p x : Fin 256),
    x ∈ collapse_repeats p l → x ∈ l := by
  induction l with
  | nil => intro p x h; simp [collapse_repeats] at h
  | cons c rest ih =>
    intro p x h
    rw [collapse_repeats_cons] at h
    by_cases hc : c ≠ p
    · rw [if_pos hc] at h
      rcases List.mem_cons.mp h with rfl | h
      · simp
      · exact List.mem_cons_of_mem _ (ih c x h)
    · rw [if_neg hc] at h
      exact List.mem_cons_of_mem _ (ih p x h)

theorem collapse_repeats_eq_nil (l : CppString) : ∀ p : Fin 256,
    collapse_repeats p l = [] → ∀ y ∈ l, y = p := by
  induction l with
  | nil => intro p _ y hy; simp at hy
  | cons c rest ih =>
    intro p h y hy
    rw [collapse_repeats_cons] at h
    by_cases hc : c ≠ p
    · rw [if_pos hc] at h; simp at h
    · rw [if_neg hc] at h
      rcases List.mem_cons.mp hy with rfl | hy
      · exact not_not.mp hc
      · exact ih p h y hy

theorem collapse_repeats_getLast (l : CppString) : ∀ (p x : Fin 256),
    (collapse_repeats p l).getLast? = some x → l.getLast? = some x := by
  induction l with
  | nil => intro p x h; simp [collapse_repeats] at h
  | cons c rest ih =>
    intro p x h
    rw [collapse_repeats_cons] at h
    by_cases hc : c ≠ p
    · rw [if_pos hc] at h
      cases ht : collapse_repeats c rest with
      | nil =>
        rw [ht] at h
        simp only [List.getLast?_singleton, Option.some.injEq] at h
        subst h
        have hall := collapse_repeats_eq_nil rest c ht
        cases hl : (c :: rest).getLast? with
        | none => simp at hl
        | some z =>
          have hz := List.mem_of_getLast?_eq_some hl
          rcases List.mem_cons.mp hz with rfl | hz
          · rfl
          · rw [hall z hz]
      | cons d t =>
        rw [ht, List.getLast?_cons_cons, ← ht] at h
        have hr := ih c x h
        cases rest with
        | nil => simp at hr
        | cons r rs => rw [List.getLast?_cons_cons]; exact hr
    · rw [if_neg hc] at h
      have hr := ih p x h
      cases rest with
      | nil => simp at hr
      | cons r rs => rw [List.getLast?_cons_cons]; exact hr

theorem _normalize_word_eq (w : CppString) :
    _normalize_word w = collapse_repeats 0
      ((((w.map tolower).dropWhile is_space).reverse.dropWhile is_space).reverse) := by
  unfold _normalize_word
  split
  · next h => subst h; rfl
  · rfl

theorem strip_head_not_space (z : CppString) (x : Fin 256)
    (h : (((z.dropWhile is_space).reverse.dropWhile is_space).reverse).head? = some x) :
    is_space x = false := by
  have hpre : ((z.dropWhile is_space).reverse.dropWhile is_space).reverse <+:
      z.dropWhile is_space := by
    rw [← List.reverse_suffix, List.reverse_reverse]
    exact List.dropWhile_suffix _
  obtain ⟨t, ht⟩ := hpre
  obtain ⟨ys, hys⟩ := List.head?_eq_some_iff.mp h
  have hhead : (z.dropWhile is_space).head? = some x := by
    rw [← ht, hys]; rfl
  have := List.head?_dropWhile_not is_space z
  rw [hhead] at this
  exact this

theorem strip_last_not_space (z : CppString) (x : Fin 256)
    (h : (((z.dropWhile is_space).reverse.dropWhile is_space).reverse).getLast? = some x) :
    is_space x = false := by
  rw [List.getLast?_reverse] at h
  have := List.head?_dropWhile_not is_space (z.dropWhile is_space).reverse
  rw [h] at this
  exact this

theorem strip_eq_self (l : CppString)
    (hhead : ∀ x, l.head? = some x → is_space x = false)
    (hlast : ∀ x, l.getLast? = some x → is_space x = false) :
    ((l.dropWhile is_space).reverse.dropWhile is_space).reverse = l := by
  have h1 : l.dropWhile is_space = l := by
    cases l with
    | nil => rfl
    | cons c rest =>
      exact List.dropWhile_cons_of_neg (by rw [hhead c rfl]; simp)
  have h2 : l.reverse.dropWhile is_space = l.reverse := by
    cases hr : l.reverse with
    | nil => rfl
    | cons c rest =>
      have hc : l.getLast? = some c := by
        rw [← List.head?_reverse, hr]; rfl
      exact List.dropWhile_cons_of_neg (by rw [hlast c hc]; simp)
  rw [h1, h2, List.reverse_reverse]

theorem _normalize_word_idem (w : CppString)
    (hnul : ((w.map tolower).dropWhile is_space).head? ≠ some 0) :
    _normalize_word (_normalize_word w) = _normalize_word w := by
  have hv0 : ∀ x ∈ (((w.map tolower).dropWhile is_space).reverse.dropWhile is_space).reverse,
      x ∈ w.map tolower := by
    intro x hx
    rw [List.mem_reverse] at hx
    have h1 := (List.dropWhile_suffix is_space).subset hx
    rw [List.mem_reverse] at h1
    exact (List.dropWhile_suffix is_space).subset h1
  generalize hv : (((w.map tolower).dropWhile is_space).reverse.dropWhile is_space).reverse = v
    at hv0
  have hhead : ∀ x, v.head? = some x → is_space x = false := by
    intro x hx; rw [← hv] at hx; exact strip_head_not_space _ x hx
  have hlast : ∀ x, v.getLast? = some x → is_space x = false := by
    intro x hx; rw [← hv] at hx; exact strip_last_not_space _ x hx
  have hnz : ∀ c rest, v = c :: rest → c ≠ 0 := by
    intro c rest hvc h0
    apply hnul
    have hpre : v <+: (w.map tolower).dropWhile is_space := by
      rw [← hv, ← List.reverse_suffix, List.reverse_reverse]
      exact List.dropWhile_suffix _
    obtain ⟨t, ht⟩ := hpre
    rw [← ht, hvc, h0]
    rfl
  have hu : _normalize_word w = collapse_repeats 0 v := by rw [_normalize_word_eq, hv]
  rw [hu, _normalize_word_eq]
  have hlow : (collapse_repeats 0 v).map tolower = collapse_repeats 0 v := by
    conv_rhs => rw [← List.map_id (collapse_repeats 0 v)]
    apply List.map_congr_left
    intro x hx
    obtain ⟨y, _, hyx⟩ := List.mem_map.mp (hv0 x (collapse_repeats_mem v 0 x hx))
    rw [← hyx]
    exact tolower_idem y
  have hstrip : (((collapse_repeats 0 v).dropWhile is_space).reverse.dropWhile
      is_space).reverse = collapse_repeats 0 v := by
    apply strip_eq_self
    · intro x hx
      cases v with
      | nil => simp [collapse_repeats] at hx
      | cons c rest =>
        have hc : c ≠ 0 := hnz c rest rfl
        rw [collapse_repeats_cons, if_pos hc] at hx
        simp only [List.head?_cons, Option.some.injEq] at hx
        subst hx
        exact hhead c rfl
    · intro x hx
      exact hlast x (collapse_repeats_getLast v 0 x hx)
  rw [hlow, hstrip, collapse_repeats_idem]

/-! ### Lemmas on the delay of the buffer -/

theorem flatten_length_of_chunks (cs : Nat) (L : List (List Int))
    (h : ∀ x ∈ L, x.length = cs) : L.flatten.length = L.length * cs := by
  induction L with
  | nil => simp
  | cons x rest ih =>
    have hx : x.length = cs := h x (by simp)
    have := ih (fun y hy => h y (List.mem_cons_of_mem _ hy))
    simp only [List.flatten_cons, List.length_append, List.length_cons, hx, this]
    rw [Nat.add_mul, Nat.one_mul, Nat.add_comm]

theorem flatten_drop_take_chunk (cs : Nat) (L : List (List Int))
    (h : ∀ x ∈ L, x.length = cs) : ∀ n, n < L.length →
    (L.flatten.drop (n * cs)).take cs = L.getD n [] := by
  induction L with
  | nil => intro n hn; simp at hn
  | cons x rest ih =>
    intro n hn
    have hx : x.length = cs := h x (by simp)
    cases n with
    | zero =>
      simp only [Nat.zero_mul, List.drop_zero, List.flatten_cons, List.getD_cons_zero]
      rw [List.take_append_of_le_length (by omega), ← hx, List.take_length]
    | succ n =>
      have hrest := ih (fun y hy => h y (List.mem_cons_of_mem _ hy)) n
        (by simpa using hn)
      simp only [List.flatten_cons, List.getD_cons_succ]
      rw [← hrest]
      congr 1
      have : (n + 1) * cs = x.length + n * cs := by rw [hx, Nat.add_mul, Nat.one_mul, Nat.add_comm]
      rw [this, ← List.drop_drop, List.drop_append_of_le_length (Nat.le_refl _),
        List.drop_length, List.nil_append]

theorem buffer_tracks_init (C cs : Nat) :
    buffer_tracks C cs [] (List.replicate (C * cs) 0) := by
  refine ⟨?_, ?_, ?_⟩
  · simp
  · simp only [List.length_replicate]
    exact Nat.mul_le_mul_right _ (Nat.sub_le _ _)
  · simp

theorem buffer_tracks_push (C cs : Nat) (captured : List (List Int)) (b x : List Int)
    (hC : 1 ≤ C) (h : buffer_tracks C cs captured b) (hx : x.length = cs) :
    push (C * cs) b x =
      (List.replicate (C * cs) 0 ++ (captured ++ [x]).flatten).drop
        ((captured ++ [x]).flatten.length) ∧
    (push (C * cs) b x).length = C * cs := by
  obtain ⟨hb, hlo, hhi⟩ := h
  have hmul : (C - 1) * cs + cs = C * cs := by
    have : C - 1 + 1 = C := Nat.sub_add_cancel hC
    calc (C - 1) * cs + cs = (C - 1 + 1) * cs := by rw [Nat.add_mul, Nat.one_mul]
      _ = C * cs := by rw [this]
  have hpush := push_eq_drop (C * cs) x b hhi
  have hflat : (captured ++ [x]).flatten = captured.flatten ++ x := by simp
  have hSlen : (List.replicate (C * cs) (0 : Int) ++ captured.flatten).length =
      C * cs + captured.flatten.length := by simp
  have heq : push (C * cs) b x =
      (List.replicate (C * cs) 0 ++ (captured ++ [x]).flatten).drop
        ((captured ++ [x]).flatten.length) := by
    rw [hpush, hflat, hx]
    have hmin : min (b.length + cs) (C * cs) = C * cs := by
      apply Nat.min_eq_right; omega
    rw [hmin]
    have hbx : b ++ x = (List.replicate (C * cs) 0 ++ captured.flatten ++ x).drop
        (C * cs + captured.flatten.length - b.length) := by
      rw [List.drop_append_of_le_length (by rw [hSlen]; omega), ← hb]
    rw [hbx, List.drop_drop, List.append_assoc, List.length_append, hx]
    congr 1
    omega
  refine ⟨heq, ?_⟩
  rw [heq, List.length_drop, List.length_append, List.length_replicate]
  omega

theorem buffer_tracks_pop (C cs : Nat) (captured : List (List Int)) (b : List Int)
    (hC : 1 ≤ C) (hcap : ∀ x ∈ captured, x.length = cs)
    (hb : b = (List.replicate (C * cs) 0 ++ captured.flatten).drop captured.flatten.length)
    (hlen : b.length = C * cs) :
    pop_chunk cs b =
      some ((List.replicate C (List.replicate cs 0) ++ captured).getD captured.length [],
        b.drop cs) ∧
    buffer_tracks C cs captured (b.drop cs) := by
  have hmul : (C - 1) * cs + cs = C * cs := by
    have : C - 1 + 1 = C := Nat.sub_add_cancel hC
    calc (C - 1) * cs + cs = (C - 1 + 1) * cs := by rw [Nat.add_mul, Nat.one_mul]
      _ = C * cs := by rw [this]
  have hcs : cs ≤ b.length := by rw [hlen]; omega
  have hflen := flatten_length_of_chunks cs captured hcap
  have hall : ∀ x ∈ List.replicate C (List.replicate cs (0 : Int)) ++ captured,
      x.length = cs := by
    intro x hx
    rcases List.mem_append.mp hx with hx | hx
    · rw [(List.mem_replicate.mp hx).2]; simp
    · exact hcap x hx
  have hzeros : List.replicate (C * cs) (0 : Int) =
      (List.replicate C (List.replicate cs (0 : Int))).flatten := by simp
  have htake : b.take cs =
      (List.replicate C (List.replicate cs 0) ++ captured).getD captured.length [] := by
    rw [← flatten_drop_take_chunk cs _ hall captured.length (by simp; omega), hb, hzeros,
      hflen, List.flatten_append]
  refine ⟨?_, ?_, ?_, ?_⟩
  · rw [pop_chunk_eq, if_pos hcs, htake]
  · rw [List.length_drop, hlen]
    conv_lhs => rw [hb]
    rw [List.drop_drop]
    congr 1
    omega
  · rw [List.length_drop, hlen]; omega
  · rw [List.length_drop, hlen]; omega

theorem wrap32_mul_natCast (C cs : Nat) (hfit : C * cs < 2147483648) :
    wrap32 ((C : Int) * (cs : Int)) = ((C * cs : Nat) : Int) := by
  have h1 : ((C : Int) * (cs : Int)) = ((C * cs : Nat) : Int) := by push_cast; rfl
  rw [h1]
  apply wrap32_of_fits
  unfold fits_int
  omega

theorem buffer_capacity_eq (C cs : Nat) (hfit : C * cs < 2147483648) :
    buffer_capacity (C : Int) cs = C * cs := by
  unfold buffer_capacity
  rw [wrap32_mul_natCast C cs hfit, Int.emod_eq_of_lt (by omega) (by omega)]
  exact Int.toNat_ofNat _

theorem delayed_chunk_eq (C cs : Nat) (earlier : List (List Int)) (x : List Int)
    (hC : 1 ≤ C) :
    (List.replicate C (List.replicate cs (0 : Int)) ++ (earlier ++ [x])).getD
        (earlier ++ [x]).length [] =
      if C - 1 ≤ earlier.length then (earlier ++ [x]).getD (earlier.length - (C - 1)) []
      else List.replicate cs 0 := by
  have hlen : (earlier ++ [x]).length = earlier.length + 1 := by simp
  by_cases h : C - 1 ≤ earlier.length
  · rw [if_pos h, List.getD_append_right _ _ _ _ (by rw [List.length_replicate, hlen]; omega),
      List.length_replicate, hlen]
    congr 1
    omega
  · rw [if_neg h, List.getD_append _ _ _ _ (by rw [List.length_replicate, hlen]; omega),
      List.getD_eq_getElem _ _ (by rw [List.length_replicate, hlen]; omega)]
    simp

theorem LoopInv_push (C cs : Nat) (config : List (String × CppString))
    (captured : List (List Int)) (s : AudioProcessor) (x : List Int)
    (hC : 1 ≤ C) (hfit : C * cs < 2147483648)
    (h : LoopInv C cs config captured s) (hx : x.length = cs) :
    push (buffer_capacity s.buffer_size_in_chunks cs) s.audio_buffer x =
      (List.replicate (C * cs) 0 ++ (captured ++ [x]).flatten).drop
        ((captured ++ [x]).flatten.length) ∧
    (push (buffer_capacity s.buffer_size_in_chunks cs) s.audio_buffer x).length = C * cs ∧
    ∀ y ∈ captured ++ [x], y.length = cs := by
  obtain ⟨_, _, hsize, htr, hcap⟩ := h
  rw [hsize, buffer_capacity_eq C cs hfit]
  obtain ⟨h1, h2⟩ := buffer_tracks_push C cs captured s.audio_buffer x hC htr hx
  refine ⟨h1, h2, ?_⟩
  intro y hy
  rcases List.mem_append.mp hy with hy | hy
  · exact hcap y hy
  · rw [List.mem_singleton.mp hy]; exact hx

theorem LoopInv_priming (lib : Lib) (ps : Parsers) (C cs : Nat)
    (config : List (String × CppString)) (captured : List (List Int)) (s : AudioProcessor)
    (tick : Tick) (hC : 1 ≤ C) (hfit : C * cs < 2147483648)
    (h : LoopInv C cs config captured s) (hx : tick.input_chunk.length = cs) :
    LoopInv C cs config (captured ++ [tick.input_chunk])
      (AudioProcessor.priming_iteration lib ps cs tick s) := by
  obtain ⟨hpush, hlen, hall⟩ := LoopInv_push C cs config captured s tick.input_chunk hC hfit h hx
  obtain ⟨hcfg, hp, hsize, _, _⟩ := h
  obtain ⟨f1, f2, f3, f4⟩ := AudioProcessor.priming_iteration_frame lib ps cs tick s
  refine ⟨by rw [f1, hcfg], by rw [f2, hp], by rw [f3, hsize], ?_, hall⟩
  rw [f4 hp]
  refine ⟨?_, by rw [hlen]; exact Nat.mul_le_mul_right _ (Nat.sub_le _ _), by rw [hlen]⟩
  rw [hlen]
  conv_lhs => rw [hpush]
  congr 1
  omega

theorem LoopInv_main (lib : Lib) (ps : Parsers) (C cs : Nat)
    (config : List (String × CppString)) (e : CppString) (captured : List (List Int))
    (s : AudioProcessor) (tick : Tick) (hC : 1 ≤ C) (hfit : C * cs < 2147483648)
    (hcfg : config.lookup "enable_censoring" = some e)
    (h : LoopInv C cs config captured s) (hx : tick.input_chunk.length = cs) :
    (∃ rest, pop_chunk cs (push (buffer_capacity s.buffer_size_in_chunks cs) s.audio_buffer
        tick.input_chunk) =
      some ((List.replicate C (List.replicate cs 0) ++ (captured ++ [tick.input_chunk])).getD
        (captured ++ [tick.input_chunk]).length [], rest)) ∧
    (AudioProcessor.main_iteration lib ps cs tick s).chunks_processed =
      s.chunks_processed + 1 ∧
    LoopInv C cs config (captured ++ [tick.input_chunk])
      (AudioProcessor.main_iteration lib ps cs tick s) := by
  obtain ⟨hpush, hlen, hall⟩ := LoopInv_push C cs config captured s tick.input_chunk hC hfit h hx
  obtain ⟨hc, hp, hsize, _, _⟩ := h
  obtain ⟨hpop, htr⟩ := buffer_tracks_pop C cs (captured ++ [tick.input_chunk]) _ hC hall
    hpush hlen
  obtain ⟨m1, _, m3⟩ := AudioProcessor.main_iteration_pop lib ps cs tick s e _ _ hp
    (by rw [hc]; exact hcfg) hpop
  obtain ⟨f1, f2, f3⟩ := AudioProcessor.main_iteration_frame lib ps cs tick s
  refine ⟨⟨_, hpop⟩, m1, by rw [f1, hc], by rw [f2, hp], by rw [f3, hsize], ?_, hall⟩
  rw [m3]
  exact htr

theorem LoopInv_priming_fold (lib : Lib) (ps : Parsers) (C cs : Nat)
    (config : List (String × CppString)) (hC : 1 ≤ C) (hfit : C * cs < 2147483648)
    (ticks : List Tick) : ∀ (captured : List (List Int)) (s : AudioProcessor),
    LoopInv C cs config captured s → (∀ t ∈ ticks, t.input_chunk.length = cs) →
    LoopInv C cs config (captured ++ ticks.map Tick.input_chunk)
      (ticks.foldl (fun s tick => AudioProcessor.priming_iteration lib ps cs tick s) s) := by
  induction ticks with
  | nil => intro captured s h _; simpa using h
  | cons t rest ih =>
    intro captured s h hlen
    have hstep := LoopInv_priming lib ps C cs config captured s t hC hfit h (hlen t (by simp))
    have := ih _ _ hstep (fun u hu => hlen u (List.mem_cons_of_mem _ hu))
    simpa using this

theorem LoopInv_main_fold (lib : Lib) (ps : Parsers) (C cs : Nat)
    (config : List (String × CppString)) (e : CppString) (hC : 1 ≤ C)
    (hfit : C * cs < 2147483648)
    (hcfg : config.lookup "enable_censoring" = some e)
    (ticks : List Tick) : ∀ (captured : List (List Int)) (s : AudioProcessor),
    LoopInv C cs config captured s → (∀ t ∈ ticks, t.input_chunk.length = cs) →
    LoopInv C cs config (captured ++ ticks.map Tick.input_chunk)
      (ticks.foldl (fun s tick => AudioProcessor.main_iteration lib ps cs tick s) s) := by
  induction ticks with
  | nil => intro captured s h _; simpa using h
  | cons t rest ih =>
    intro captured s h hlen
    have hstep := (LoopInv_main lib ps C cs config e captured s t hC hfit hcfg h
      (hlen t (by simp))).2.2
    have := ih _ _ hstep (fun u hu => hlen u (List.mem_cons_of_mem _ hu))
    simpa using this

theorem LoopInv_run_init (C cs : Nat) (a started : AudioProcessor)
    (hfit : C * cs < 2147483648)
    (hsize : a.buffer_size_in_chunks = (C : Int)) (hpaused : a.paused = false)
    (hstart : AudioProcessor.run_init cs a = some started) :
    LoopInv C cs a.config [] started := by
  unfold AudioProcessor.run_init at hstart
  have hz : (0 : Int) ≤ ((C * cs : Nat) : Int) := Int.ofNat_nonneg _
  rw [hsize, wrap32_mul_natCast C cs hfit, if_pos hz] at hstart
  cases hstart
  refine ⟨rfl, hpaused, rfl, ?_, by simp⟩
  simp only [Int.toNat_ofNat]
  exact buffer_tracks_init C cs

/-! ### Lemmas on the timestamp conversion -/

theorem chunks_per_second_nonneg (current_sample_rate chunk_size : Int)
    (hrate : 0 < current_sample_rate) (hsize : 0 < chunk_size) :
    0 ≤ chunks_per_second current_sample_rate chunk_size := by
  unfold chunks_per_second
  apply binary64_nonneg
  have h1 : (0 : ℚ) < (current_sample_rate : ℚ) := by exact_mod_cast hrate
  have h2 : (0 : ℚ) < (chunk_size : ℚ) := by exact_mod_cast hsize
  exact le_of_lt (div_pos h1 h2)

theorem chunks_offset_mono (current_sample_rate chunk_size : Int)
    (buffer_delay elapsed_time : ℚ) {s t : ℚ}
    (hcps : 0 ≤ chunks_per_second current_sample_rate chunk_size) (h : s ≤ t) :
    chunks_offset current_sample_rate chunk_size buffer_delay elapsed_time s ≤
      chunks_offset current_sample_rate chunk_size buffer_delay elapsed_time t := by
  unfold chunks_offset
  apply binary64_mono
  apply mul_le_mul_of_nonneg_right _ hcps
  apply binary64_mono
  exact sub_le_sub_right h _

theorem censored_region_start_of_fits (current_sample_rate chunk_size : Int) (buffer_delay : ℚ)
    (safety_margin : Int) (elapsed_time : ℚ) (chunks_processed : Int) (start_time end_time : ℚ)
    (h : no_int_overflow
      (chunks_offset current_sample_rate chunk_size buffer_delay elapsed_time start_time)
      (-safety_margin) chunks_processed) :
    (censored_region current_sample_rate chunk_size buffer_delay safety_margin elapsed_time
      chunks_processed start_time end_time).start_idx =
    chunks_processed + (static_cast_int
      (chunks_offset current_sample_rate chunk_size buffer_delay elapsed_time start_time) -
        safety_margin) := by
  obtain ⟨h1, h2, h3⟩ := h
  rw [← sub_eq_add_neg] at h2 h3
  simp only [censored_region, chunks_offset_start]
  rw [static_cast_int32_of_fits _ h1, wrap32_of_fits _ h2, wrap32_of_fits _ h3]

theorem censored_region_end_of_fits (current_sample_rate chunk_size : Int) (buffer_delay : ℚ)
    (safety_margin : Int) (elapsed_time : ℚ) (chunks_processed : Int) (start_time end_time : ℚ)
    (h : no_int_overflow
      (chunks_offset current_sample_rate chunk_size buffer_delay elapsed_time end_time)
      safety_margin chunks_processed) :
    (censored_region current_sample_rate chunk_size buffer_delay safety_margin elapsed_time
      chunks_processed start_time end_time).end_idx =
    chunks_processed + (static_cast_int
      (chunks_offset current_sample_rate chunk_size buffer_delay elapsed_time end_time) +
        safety_margin) := by
  obtain ⟨h1, h2, h3⟩ := h
  simp only [censored_region, chunks_offset_end]
  rw [static_cast_int32_of_fits _ h1, wrap32_of_fits _ h2, wrap32_of_fits _ h3]

theorem no_int_overflow_of (offset : ℚ) (delta chunks_processed z : Int)
    (hz : static_cast_int offset = z) (h1 : fits_int z) (h2 : fits_int (z + delta))
    (h3 : fits_int (chunks_processed + (z + delta))) :
    no_int_overflow offset delta chunks_processed := by
  unfold no_int_overflow
  rw [hz]
  exact ⟨h1, h2, h3⟩

theorem chunks_offset_example_start : chunks_offset 16000 1024 2 7 5 = 0 :=
  chunks_offset_eq_of 16000 1024 2 7 5 5 0 (125 / 8) 0 binary64_five
    (by rw [show (5 : ℚ) - 5 = 0 by norm_num]; exact binary64_zero)
    chunks_per_second_example (by rw [zero_mul]; exact binary64_zero)

theorem chunks_offset_example_end : chunks_offset 16000 1024 2 7 (11 / 2) = 125 / 16 :=
  chunks_offset_eq_of 16000 1024 2 7 (11 / 2) 5 (1 / 2) (125 / 8) (125 / 16) binary64_five
    (by
      rw [binary64_of_dyadic _ 1 (-1) (by norm_num) (by norm_num) (by norm_num)]
      norm_num)
    chunks_per_second_example
    (by
      rw [binary64_of_dyadic _ 125 (-4) (by norm_num) (by norm_num) (by norm_num)]
      norm_num)

theorem no_int_overflow_example_start :
    no_int_overflow (chunks_offset 16000 1024 2 7 5) (-3) 0 :=
  no_int_overflow_of _ (-3) 0 0
    (by
      rw [chunks_offset_example_start]
      exact static_cast_int_eq_of_nonneg 0 0 (le_refl _) (by norm_num) (by norm_num))
    (by decide) (by decide) (by decide)

theorem no_int_overflow_example_end :
    no_int_overflow (chunks_offset 16000 1024 2 7 (11 / 2)) 3 0 :=
  no_int_overflow_of _ 3 0 7
    (by
      rw [chunks_offset_example_end]
      exact static_cast_int_eq_of_nonneg _ 7 (by norm_num) (by norm_num) (by norm_num))
    (by decide) (by decide) (by decide)

/-! ## The delay buffer: claims -/

/-- C5: for a fixed capacity and a delay buffer whose length is at most the capacity, every
sequence of `push` and `pop_chunk` operations leaves the length at most the capacity. -/
theorem delay_buffer_length_never_exceeds_capacity (capacity : Nat) (audio_buffer : List Int)
    (ops : List BufferOp) (h : audio_buffer.length ≤ capacity) :
    (run_buffer_ops capacity audio_buffer ops).length ≤ capacity :=
  run_buffer_ops_length_le capacity ops audio_buffer h

theorem delay_buffer_length_never_exceeds_capacity_witness :
    ([1, 2, 3] : List Int).length ≤ 4 ∧
    (run_buffer_ops 4 [1, 2, 3]
      [BufferOp.push [4, 5, 6], BufferOp.pop_chunk 2, BufferOp.push [7, 8, 9],
        BufferOp.pop_chunk 9]).length ≤ 4 :=
  ⟨by decide, delay_buffer_length_never_exceeds_capacity 4 [1, 2, 3] _ (by decide)⟩

/-- C6: `pop_chunk` with `n = chunk_size` returns the `n` oldest samples in FIFO order and
removes exactly those when at least `n` samples are buffered; otherwise it returns nothing and
the buffer stays as it is, so a chunk that is returned always has `n` samples. -/
theorem pop_chunk_exact_or_nothing (chunk_size capacity : Nat) (audio_buffer : List Int) :
    pop_chunk chunk_size audio_buffer =
      (if chunk_size ≤ audio_buffer.length then
        some (audio_buffer.take chunk_size, audio_buffer.drop chunk_size)
      else none) ∧
    BufferOp.apply capacity audio_buffer (BufferOp.pop_chunk chunk_size) =
      (if chunk_size ≤ audio_buffer.length then audio_buffer.drop chunk_size
      else audio_buffer) ∧
    ∀ output_chunk rest, pop_chunk chunk_size audio_buffer = some (output_chunk, rest) →
      output_chunk.length = chunk_size ∧ output_chunk ++ rest = audio_buffer := by
  refine ⟨pop_chunk_eq chunk_size audio_buffer, ?_, ?_⟩
  · simp only [BufferOp.apply, pop_chunk_eq]
    by_cases h : chunk_size ≤ audio_buffer.length
    · simp [h]
    · simp [h]
  · intro output_chunk rest hpop
    rw [pop_chunk_eq] at hpop
    by_cases h : chunk_size ≤ audio_buffer.length
    · simp only [if_pos h, Option.some.injEq, Prod.mk.injEq] at hpop
      rw [← hpop.1, ← hpop.2]
      exact ⟨by simp [h], List.take_append_drop _ _⟩
    · simp [h] at hpop

/-- C7: for a buffer `b` no longer than the capacity and a chunk `c`, `push` yields exactly
the last `min (|b| + |c|) capacity` samples of `b` followed by `c`, in order. -/
theorem push_keeps_newest_samples (capacity : Nat) (audio_buffer input_chunk : List Int)
    (h : audio_buffer.length ≤ capacity) :
    push capacity audio_buffer input_chunk =
      (audio_buffer ++ input_chunk).drop
        ((audio_buffer ++ input_chunk).length -
          min (audio_buffer.length + input_chunk.length) capacity) := by
  rw [List.length_append]
  exact push_eq_drop capacity input_chunk audio_buffer h

theorem push_keeps_newest_samples_witness :
    ([1, 2, 3] : List Int).length ≤ 4 ∧
    push 4 [1, 2, 3] [4, 5, 6] =
      (([1, 2, 3] : List Int) ++ [4, 5, 6]).drop
        ((([1, 2, 3] : List Int) ++ [4, 5, 6]).length -
          min (([1, 2, 3] : List Int).length + ([4, 5, 6] : List Int).length) 4) :=
  ⟨by decide, push_keeps_newest_samples 4 [1, 2, 3] [4, 5, 6] (by decide)⟩

/-! ## The region check: claims -/

/-- C1: with censoring enabled, the playback check mutes the current chunk (it emits
`censorApplied` and overwrites the chunk) if and only if some stored region has
`start_idx <= chunks_processed <= end_idx`. -/
theorem mute_iff_inside_some_region (chunks_processed : Int) (censored_regions : List Region)
    (output_chunk : List Int) :
    (censor_check true chunks_processed censored_regions output_chunk).censor_applied ≠ [] ↔
      ∃ r ∈ censored_regions, r.start_idx ≤ chunks_processed ∧ chunks_processed ≤ r.end_idx := by
  simp only [censor_check, if_true, region_loop_applied, ne_eq, List.map_eq_nil_iff,
    List.filter_eq_nil_iff, decide_eq_true_eq, not_forall, Classical.not_not, exists_prop]

/-- C2: when a chunk is popped and the current chunk index lies inside some region, the chunk
written to the sink consists of `chunk_size` zeros, whatever samples were popped. -/
theorem muted_chunk_is_silence (chunk_size : Nat) (p : Playback)
    (output_chunk rest : List Int)
    (hpop : pop_chunk chunk_size p.audio_buffer = some (output_chunk, rest))
    (hin : ∃ r ∈ p.censored_regions,
      r.start_idx ≤ p.chunks_processed ∧ p.chunks_processed ≤ r.end_idx) :
    (playback_stage chunk_size true p).sink = p.sink ++ [List.replicate chunk_size 0] ∧
    ∀ sample ∈ (censor_check true p.chunks_processed p.censored_regions
      output_chunk).output_chunk, sample = 0 := by
  have hlen : output_chunk.length = chunk_size := by
    rw [pop_chunk_eq] at hpop
    by_cases h : chunk_size ≤ p.audio_buffer.length
    · simp only [if_pos h, Option.some.injEq, Prod.mk.injEq] at hpop
      rw [← hpop.1]; simp [h]
    · simp [h] at hpop
  have hout : (censor_check true p.chunks_processed p.censored_regions
      output_chunk).output_chunk = List.replicate chunk_size 0 := by
    simp only [censor_check, if_true, region_loop_output, if_pos hin, hlen]
  refine ⟨?_, ?_⟩
  · simp only [playback_stage, hpop, hout]
  · intro sample hs
    rw [hout] at hs
    exact (List.mem_replicate.mp hs).2

theorem muted_chunk_is_silence_witness :
    pop_chunk 2 [7, -8, 9] = some ([7, -8], [9]) ∧
    (∃ r ∈ [(⟨1, 4, false⟩ : Region)], r.start_idx ≤ (3 : Int) ∧ (3 : Int) ≤ r.end_idx) ∧
    (playback_stage 2 true ⟨[7, -8, 9], [⟨1, 4, false⟩], 3, []⟩).sink =
      [] ++ [List.replicate 2 0] ∧
    ∀ sample ∈ (censor_check true 3 [⟨1, 4, false⟩] [7, -8]).output_chunk, sample = 0 :=
  ⟨by decide, ⟨⟨1, 4, false⟩, by simp, by decide⟩,
    muted_chunk_is_silence 2 ⟨[7, -8, 9], [⟨1, 4, false⟩], 3, []⟩ [7, -8] [9] (by decide)
      ⟨⟨1, 4, false⟩, by simp, by decide⟩⟩

/-- C8: for a region with `start_idx <= end_idx` held by the scheduler, the playback check for
`chunks_processed = end_idx` removes it; in every later state the regions with its bounds are
at most those scheduled afterwards, so the region itself never returns; and the regions that
do not end at that chunk are kept unchanged and in the same order. -/
theorem region_pruned_at_its_end (censored_regions : List Region)
    (hreach : ReachableRegions censored_regions) (r : Region) (hr : r ∈ censored_regions)
    (hle : r.start_idx ≤ r.end_idx) (output_chunk : List Int) :
    (∀ q ∈ (censor_check true r.end_idx censored_regions output_chunk).censored_regions,
      ¬ (q.start_idx = r.start_idx ∧ q.end_idx = r.end_idx)) ∧
    (∀ ops : List RegionOp,
      (run_region_ops (censor_check true r.end_idx censored_regions output_chunk).censored_regions
        ops).countP (Region.has_bounds r.start_idx r.end_idx) ≤
      ops.countP (RegionOp.schedules r.start_idx r.end_idx)) ∧
    (censor_check true r.end_idx censored_regions output_chunk).censored_regions.filter
        (fun q => decide (q.end_idx ≠ r.end_idx)) =
      censored_regions.filter (fun q => decide (q.end_idx ≠ r.end_idx)) ∧
    ((censor_check true r.end_idx censored_regions output_chunk).censored_regions).Sublist
      censored_regions ∧
    (censor_check true r.end_idx censored_regions output_chunk).censored_regions.length <
      censored_regions.length := by
  have hun := reachable_unprocessed censored_regions hreach
  have habs : ∀ q ∈ (censor_check true r.end_idx censored_regions output_chunk).censored_regions,
      ¬ (q.start_idx = r.start_idx ∧ q.end_idx = r.end_idx) := by
    intro q hq hb
    rw [censor_check_regions_of_unprocessed _ _ _ hun, List.mem_filter, decide_eq_true_eq] at hq
    exact hq.2 ⟨by rw [hb.1]; exact hle, hb.2.symm⟩
  refine ⟨habs, ?_, ?_, censor_check_sublist _ _ _ hun, ?_⟩
  rotate_left 2
  · rw [censor_check_regions_of_unprocessed _ _ _ hun, List.length_filter_lt_length_iff_exists]
    exact ⟨r, hr, by rw [decide_eq_true_eq]; exact not_not.mpr ⟨hle, rfl⟩⟩
  · intro ops
    have hzero : ((censor_check true r.end_idx censored_regions output_chunk).censored_regions).countP
        (Region.has_bounds r.start_idx r.end_idx) = 0 := by
      rw [List.countP_eq_zero]
      intro q hq
      simpa [Region.has_bounds] using habs q hq
    have := run_region_ops_countP_le r.start_idx r.end_idx ops _
      (censor_check_unprocessed r.end_idx censored_regions output_chunk)
    omega
  · rw [censor_check_regions_of_unprocessed _ _ _ hun, List.filter_filter]
    congr 1
    funext q
    by_cases hq : q.end_idx = r.end_idx
    · simp [hq]
    · have : ¬ r.end_idx = q.end_idx := fun h => hq h.symm
      simp [hq, this]

theorem region_pruned_at_its_end_witness :
    ReachableRegions [⟨2, 5, false⟩, ⟨4, 9, false⟩] ∧
    (⟨2, 5, false⟩ : Region) ∈ [(⟨2, 5, false⟩ : Region), ⟨4, 9, false⟩] ∧
    (2 : Int) ≤ 5 ∧
    ((∀ q ∈ (censor_check true 5 [⟨2, 5, false⟩, ⟨4, 9, false⟩] [1, 2]).censored_regions,
      ¬ (q.start_idx = 2 ∧ q.end_idx = 5)) ∧
    (∀ ops : List RegionOp,
      (run_region_ops (censor_check true 5 [⟨2, 5, false⟩, ⟨4, 9, false⟩] [1, 2]).censored_regions
        ops).countP (Region.has_bounds 2 5) ≤ ops.countP (RegionOp.schedules 2 5)) ∧
    (censor_check true 5 [⟨2, 5, false⟩, ⟨4, 9, false⟩] [1, 2]).censored_regions.filter
        (fun q => decide (q.end_idx ≠ 5)) =
      [(⟨2, 5, false⟩ : Region), ⟨4, 9, false⟩].filter (fun q => decide (q.end_idx ≠ 5)) ∧
    ((censor_check true 5 [⟨2, 5, false⟩, ⟨4, 9, false⟩] [1, 2]).censored_regions).Sublist
      [⟨2, 5, false⟩, ⟨4, 9, false⟩] ∧
    (censor_check true 5 [⟨2, 5, false⟩, ⟨4, 9, false⟩] [1, 2]).censored_regions.length <
      [(⟨2, 5, false⟩ : Region), ⟨4, 9, false⟩].length) :=
  ⟨⟨[RegionOp.schedule 2 5, RegionOp.schedule 4 9], rfl⟩, by simp, by decide,
    region_pruned_at_its_end [⟨2, 5, false⟩, ⟨4, 9, false⟩]
      ⟨[RegionOp.schedule 2 5, RegionOp.schedule 4 9], rfl⟩ ⟨2, 5, false⟩ (by simp) (by decide)
      [1, 2]⟩

/-- C9, on the input where the code departs from it: the region scheduled at
`chunks_processed = 0` for a word heard from 1.0 s to 1.5 s and reported at 7.0 s is
`[-65, -51]`, already expired. No later playback check mutes a chunk because of it, but no
playback check removes it either: it is in the region set after any number of iterations. -/
theorem expired_region_is_never_pruned (chunks : Nat → List Int) (n : Nat) :
    censored_region 16000 1024 2 3 7 0 1 (3 / 2) = ⟨-65, -51, false⟩ ∧
    (⟨-65, -51, false⟩ : Region) ∈
      run_region_ops [⟨-65, -51, false⟩] (successive_checks 0 chunks n) ∧
    (censor_check true (n : Int) [⟨-65, -51, false⟩] (chunks n)).censor_applied = [] := by
  refine ⟨censored_region_expired_example, ?_, ?_⟩
  · exact expired_region_kept ⟨-65, -51, false⟩ 0 (by decide) chunks n _ (by simp) (by simp)
  · simp only [censor_check, if_true, region_loop_applied]
    have : ¬ ((-65 : Int) ≤ (n : Int) ∧ (n : Int) ≤ -51) := by omega
    simp [this]

/-! ## The timestamp conversion: claims -/

/-- C3, as stated, fails: for `sample_rate = 16000`, `chunk_size = 1024`, `buffer_delay = 2.0`,
`safety_margin = 3`, `elapsed = 7.0`, current index 0 and a word from `1000000000.0` s to
`1000000000.5` s, both products (15624999921.875 and 15624999929.6875, computed without
rounding error) are beyond the range of `int`, both conversions give `INT_MIN`, and the region
is `(2147483645, -2147483645)`: its start is above its end. -/
theorem scheduled_region_start_exceeds_end :
    (0 : Int) < 16000 ∧ (0 : Int) < 1024 ∧ (0 : Int) ≤ 3 ∧
    (1000000000 : ℚ) ≤ 1000000000 + 1 / 2 ∧
    censored_region 16000 1024 2 3 7 0 1000000000 (1000000000 + 1 / 2) =
      ⟨2147483645, -2147483645, false⟩ ∧
    ¬ ((censored_region 16000 1024 2 3 7 0 1000000000 (1000000000 + 1 / 2)).start_idx ≤
      (censored_region 16000 1024 2 3 7 0 1000000000 (1000000000 + 1 / 2)).end_idx) := by
  have hs : chunks_offset 16000 1024 2 7 1000000000 = 124999999375 / 8 :=
    chunks_offset_eq_of 16000 1024 2 7 1000000000 5 999999995 (125 / 8) (124999999375 / 8)
      binary64_five
      (by
        rw [binary64_of_dyadic _ 999999995 0 (by norm_num) (by norm_num) (by norm_num)]
        norm_num)
      chunks_per_second_example
      (by
        rw [binary64_of_dyadic _ 124999999375 (-3) (by norm_num) (by norm_num) (by norm_num)]
        norm_num)
  have he : chunks_offset 16000 1024 2 7 (1000000000 + 1 / 2) = 249999998875 / 16 :=
    chunks_offset_eq_of 16000 1024 2 7 (1000000000 + 1 / 2) 5 (1999999991 / 2) (125 / 8)
      (249999998875 / 16) binary64_five
      (by
        rw [binary64_of_dyadic _ 1999999991 (-1) (by norm_num) (by norm_num) (by norm_num)]
        norm_num)
      chunks_per_second_example
      (by
        rw [binary64_of_dyadic _ 249999998875 (-4) (by norm_num) (by norm_num) (by norm_num)]
        norm_num)
  have hzs : static_cast_int32 (chunks_offset 16000 1024 2 7 1000000000) = -2147483648 := by
    rw [hs]
    apply static_cast_int32_of_not_fits
    rw [static_cast_int_eq_of_nonneg _ 15624999921 (by norm_num) (by norm_num) (by norm_num)]
    decide
  have hze : static_cast_int32 (chunks_offset 16000 1024 2 7 (1000000000 + 1 / 2)) =
      -2147483648 := by
    rw [he]
    apply static_cast_int32_of_not_fits
    rw [static_cast_int_eq_of_nonneg _ 15624999929 (by norm_num) (by norm_num) (by norm_num)]
    decide
  have hreg : censored_region 16000 1024 2 3 7 0 1000000000 (1000000000 + 1 / 2) =
      ⟨2147483645, -2147483645, false⟩ := by
    rw [censored_region_eq_of 16000 1024 2 3 7 0 1000000000 (1000000000 + 1 / 2)
      (-2147483648) (-2147483648) hzs hze]
    rfl
  refine ⟨by decide, by decide, by decide, by norm_num, hreg, ?_⟩
  rw [hreg]
  decide

/-- C3, amended: for an event with `start_time <= end_time`, a positive sample rate and chunk
size and a non-negative safety margin, the scheduled region has `start_idx <= end_idx`,
provided that at both ends the conversion of the offset to `int`, the addition of the safety
margin and the addition of the chunk index stay within the range of `int`. -/
theorem scheduled_region_start_le_end (current_sample_rate chunk_size : Int) (buffer_delay : ℚ)
    (safety_margin : Int) (elapsed_time : ℚ) (chunks_processed : Int) (start_time end_time : ℚ)
    (hrate : 0 < current_sample_rate) (hsize : 0 < chunk_size) (hmargin : 0 ≤ safety_margin)
    (htime : start_time ≤ end_time)
    (hstart : no_int_overflow
      (chunks_offset current_sample_rate chunk_size buffer_delay elapsed_time start_time)
      (-safety_margin) chunks_processed)
    (hend : no_int_overflow
      (chunks_offset current_sample_rate chunk_size buffer_delay elapsed_time end_time)
      safety_margin chunks_processed) :
    (censored_region current_sample_rate chunk_size buffer_delay safety_margin elapsed_time
      chunks_processed start_time end_time).start_idx ≤
    (censored_region current_sample_rate chunk_size buffer_delay safety_margin elapsed_time
      chunks_processed start_time end_time).end_idx := by
  have hmono := static_cast_int_mono
    (chunks_offset_mono current_sample_rate chunk_size buffer_delay elapsed_time
      (chunks_per_second_nonneg current_sample_rate chunk_size hrate hsize) htime)
  rw [censored_region_start_of_fits _ _ _ _ _ _ _ _ hstart,
    censored_region_end_of_fits _ _ _ _ _ _ _ _ hend]
  omega

theorem scheduled_region_start_le_end_witness :
    (0 : Int) < 16000 ∧ (0 : Int) < 1024 ∧ (0 : Int) ≤ 3 ∧ (5 : ℚ) ≤ 11 / 2 ∧
    no_int_overflow (chunks_offset 16000 1024 2 7 5) (-3) 0 ∧
    no_int_overflow (chunks_offset 16000 1024 2 7 (11 / 2)) 3 0 ∧
    (censored_region 16000 1024 2 3 7 0 5 (11 / 2)).start_idx ≤
      (censored_region 16000 1024 2 3 7 0 5 (11 / 2)).end_idx :=
  ⟨by decide, by decide, by decide, by norm_num, no_int_overflow_example_start,
    no_int_overflow_example_end,
    scheduled_region_start_le_end 16000 1024 2 3 7 0 5 (11 / 2) (by decide) (by decide)
      (by decide) (by norm_num) no_int_overflow_example_start no_int_overflow_example_end⟩

/-- C4, as stated, fails: for `sample_rate = 16000`, `chunk_size = 1024`, `buffer_delay = 2.0`,
`safety_margin = 3`, `start_time = 5.0`, `end_time = 5.5`, `elapsed = 7.0` and current index 0
the scheduled region is not `[-3, 11]`. -/
theorem example_region_is_not_minus3_to_11 :
    censored_region 16000 1024 2 3 7 0 5 (11 / 2) ≠ ⟨-3, 11, false⟩ := by
  rw [censored_region_example]
  decide

/-- C4, amended: the offsets are computed in double precision (the division `sample_rate /
chunk_size`, the two subtractions and the multiplication each rounded to the nearest double)
and truncated toward zero before the safety margin is applied: where the conversion to `int`
and the two `int` additions stay within the range of `int`, `start_idx = current + trunc(s) -
safety_margin` and `end_idx = current + trunc(e) + safety_margin` for the doubles `s =
(start_time - (elapsed - buffer_delay)) * chunks_per_second` and `e = (end_time - (elapsed -
buffer_delay)) * chunks_per_second`; at the example input the region is `[-3, 10]`. -/
theorem scheduled_region_truncates (current_sample_rate chunk_size : Int) (buffer_delay : ℚ)
    (safety_margin : Int) (elapsed_time : ℚ) (chunks_processed : Int)
    (start_time end_time : ℚ)
    (hstart : no_int_overflow
      (chunks_offset current_sample_rate chunk_size buffer_delay elapsed_time start_time)
      (-safety_margin) chunks_processed)
    (hend : no_int_overflow
      (chunks_offset current_sample_rate chunk_size buffer_delay elapsed_time end_time)
      safety_margin chunks_processed) :
    (censored_region current_sample_rate chunk_size buffer_delay safety_margin elapsed_time
        chunks_processed start_time end_time).start_idx =
      chunks_processed +
        ((if 0 ≤ binary64 (binary64 (start_time - binary64 (elapsed_time - buffer_delay)) *
              binary64 ((current_sample_rate : ℚ) / (chunk_size : ℚ)))
          then ⌊binary64 (binary64 (start_time - binary64 (elapsed_time - buffer_delay)) *
              binary64 ((current_sample_rate : ℚ) / (chunk_size : ℚ)))⌋
          else ⌈binary64 (binary64 (start_time - binary64 (elapsed_time - buffer_delay)) *
              binary64 ((current_sample_rate : ℚ) / (chunk_size : ℚ)))⌉) - safety_margin) ∧
    (censored_region current_sample_rate chunk_size buffer_delay safety_margin elapsed_time
        chunks_processed start_time end_time).end_idx =
      chunks_processed +
        ((if 0 ≤ binary64 (binary64 (end_time - binary64 (elapsed_time - buffer_delay)) *
              binary64 ((current_sample_rate : ℚ) / (chunk_size : ℚ)))
          then ⌊binary64 (binary64 (end_time - binary64 (elapsed_time - buffer_delay)) *
              binary64 ((current_sample_rate : ℚ) / (chunk_size : ℚ)))⌋
          else ⌈binary64 (binary64 (end_time - binary64 (elapsed_time - buffer_delay)) *
              binary64 ((current_sample_rate : ℚ) / (chunk_size : ℚ)))⌉) + safety_margin) ∧
    censored_region 16000 1024 2 3 7 0 5 (11 / 2) = ⟨-3, 10, false⟩ := by
  refine ⟨?_, ?_, censored_region_example⟩
  · rw [censored_region_start_of_fits _ _ _ _ _ _ _ _ hstart, static_cast_int_eq]
    rfl
  · rw [censored_region_end_of_fits _ _ _ _ _ _ _ _ hend, static_cast_int_eq]
    rfl

theorem scheduled_region_truncates_witness :
    no_int_overflow (chunks_offset 16000 1024 2 7 5) (-3) 0 ∧
    no_int_overflow (chunks_offset 16000 1024 2 7 (11 / 2)) 3 0 ∧
    (censored_region 16000 1024 2 3 7 0 5 (11 / 2)).end_idx =
      0 + ((if 0 ≤ binary64 (binary64 (11 / 2 - binary64 (7 - 2)) *
              binary64 (((16000 : Int) : ℚ) / ((1024 : Int) : ℚ)))
          then ⌊binary64 (binary64 (11 / 2 - binary64 (7 - 2)) *
              binary64 (((16000 : Int) : ℚ) / ((1024 : Int) : ℚ)))⌋
          else ⌈binary64 (binary64 (11 / 2 - binary64 (7 - 2)) *
              binary64 (((16000 : Int) : ℚ) / ((1024 : Int) : ℚ)))⌉) + 3) :=
  ⟨no_int_overflow_example_start, no_int_overflow_example_end,
    (scheduled_region_truncates 16000 1024 2 3 7 0 5 (11 / 2) no_int_overflow_example_start
      no_int_overflow_example_end).2.1⟩

/-! ## The word detector: claims -/

/-- C10, on an input where the code departs from it: with an empty cache, no pattern and the
single target word "хлеб", the word "молоко" is reported as prohibited ("частичное
совпадение"), although its normalized form is not the normalized target and does not contain
it. The test of the source searches the normalized target in itself. -/
theorem partial_match_without_substring (lib : Lib) (current_time : Int) :
    (is_prohibited_word lib current_time ⟨[], [], 0, 0, 0⟩ (utf8 "молоко") []
      [utf8 "хлеб"]).1 = (true, utf8 "частичное совпадение") ∧
    _normalize_word (utf8 "молоко") = utf8 "молоко" ∧
    _normalize_word (utf8 "хлеб") = utf8 "хлеб" ∧
    find (utf8 "молоко") (utf8 "хлеб") = none := by
  have hw : _normalize_word (utf8 "молоко") = utf8 "молоко" := by decide
  have ht : match_targets (utf8 "молоко") [utf8 "хлеб"] =
      some (utf8 "частичное совпадение") := by decide
  have hlen : ¬ (utf8 "молоко").length < 3 := by decide
  refine ⟨?_, hw, by decide, by decide⟩
  unfold is_prohibited_word
  simp only [hw, hlen, if_false, _throttle_check_cache, _throttle_check_config, List.lookup,
    match_patterns, ite_self, ht, if_true]

/-- C11: when the cache is empty, the normalized word has at least 3 characters and some
target word has the same normalized form, the word is reported as prohibited, whatever the
patterns are. -/
theorem exact_target_is_prohibited (lib : Lib) (current_time : Int) (d : WordDetector)
    (word_text : CppString) (patterns target_words : List CppString) (t : CppString)
    (hlen : 3 ≤ (_normalize_word word_text).length) (hcache : d.cache = [])
    (ht : t ∈ target_words) (heq : _normalize_word t = _normalize_word word_text) :
    (is_prohibited_word lib current_time d word_text patterns target_words).1.1 = true := by
  have hmiss : d.cache.lookup
      (_generate_cache_key lib (_normalize_word word_text) patterns target_words) = none := by
    rw [hcache]; rfl
  rw [(is_prohibited_word_miss lib current_time d word_text patterns target_words
    (by omega) hmiss).1]
  have hne : target_words ≠ [] := List.ne_nil_of_mem ht
  unfold evaluate_rules
  simp only [hne, if_false]
  split
  · rfl
  · have hsome := match_targets_exact (_normalize_word word_text) t target_words ht heq
    split
    · rfl
    · next hnone => rw [hnone] at hsome; simp at hsome

theorem exact_target_is_prohibited_witness :
    3 ≤ (_normalize_word (utf8 " Hello")).length ∧
    (⟨[], [], 0, 0, 0⟩ : WordDetector).cache = [] ∧
    utf8 "hello" ∈ [utf8 "world", utf8 "hello"] ∧
    _normalize_word (utf8 "hello") = _normalize_word (utf8 " Hello") ∧
    (is_prohibited_word literal_lib 7 ⟨[], [], 0, 0, 0⟩ (utf8 " Hello") [utf8 "x"]
      [utf8 "world", utf8 "hello"]).1.1 = true :=
  ⟨by decide, rfl, by simp, by decide,
    exact_target_is_prohibited literal_lib 7 ⟨[], [], 0, 0, 0⟩ (utf8 " Hello") [utf8 "x"]
      [utf8 "world", utf8 "hello"] (utf8 "hello") (by decide) rfl (by simp) (by decide)⟩

/-- C12: on a cache miss, for a word with at least 3 normalized characters, when the pattern
list holds a valid pattern that is found in the normalized word, the decision is `(true, p)`
for the first such pattern `p` in list order, whatever the target words are. -/
theorem first_matching_pattern_wins (lib : Lib) (current_time : Int) (d : WordDetector)
    (word_text : CppString) (pre : List CppString) (p : CppString) (post : List CppString)
    (target_words : List CppString) (search : CppString → Bool)
    (hlen : 3 ≤ (_normalize_word word_text).length)
    (hmiss : d.cache.lookup (_generate_cache_key lib (_normalize_word word_text)
      (pre ++ p :: post) target_words) = none)
    (hp : lib.regex p = some search) (hfound : search (_normalize_word word_text) = true)
    (hpre : ∀ q ∈ pre, ∀ g, lib.regex q = some g → g (_normalize_word word_text) = false) :
    (is_prohibited_word lib current_time d word_text (pre ++ p :: post) target_words).1 =
      (true, p) := by
  rw [(is_prohibited_word_miss lib current_time d word_text (pre ++ p :: post) target_words
    (by omega) hmiss).1]
  have hne : pre ++ p :: post ≠ [] := by simp
  unfold evaluate_rules
  simp only [hne, if_false,
    match_patterns_first lib (_normalize_word word_text) pre p post search hp hfound hpre]

theorem first_matching_pattern_wins_witness :
    3 ≤ (_normalize_word (utf8 "hamster")).length ∧
    (⟨[], [], 0, 0, 0⟩ : WordDetector).cache.lookup (_generate_cache_key literal_lib
      (_normalize_word (utf8 "hamster")) ([utf8 "[", utf8 "xyz"] ++ utf8 "ham" :: [utf8 "ster"])
      [utf8 "hamster"]) = none ∧
    literal_lib.regex (utf8 "ham") = some (fun w => (find w (utf8 "ham")).isSome) ∧
    (find (_normalize_word (utf8 "hamster")) (utf8 "ham")).isSome = true ∧
    (∀ q ∈ [utf8 "[", utf8 "xyz"], ∀ g, literal_lib.regex q = some g →
      g (_normalize_word (utf8 "hamster")) = false) ∧
    (is_prohibited_word literal_lib 7 ⟨[], [], 0, 0, 0⟩ (utf8 "hamster")
      ([utf8 "[", utf8 "xyz"] ++ utf8 "ham" :: [utf8 "ster"]) [utf8 "hamster"]).1 =
        (true, utf8 "ham") := by
  have hpre : ∀ q ∈ [utf8 "[", utf8 "xyz"], ∀ g, literal_lib.regex q = some g →
      g (_normalize_word (utf8 "hamster")) = false := by
    intro q hq g hg
    simp only [List.mem_cons, List.mem_singleton, List.not_mem_nil, or_false] at hq
    rcases hq with rfl | rfl
    · simp [literal_lib] at hg
    · have h2 : literal_lib.regex (utf8 "xyz") =
          some (fun w => (find w (utf8 "xyz")).isSome) := by
        simp only [literal_lib]; rw [if_neg (by decide)]
      rw [h2] at hg
      cases hg
      decide
  have hp : literal_lib.regex (utf8 "ham") = some (fun w => (find w (utf8 "ham")).isSome) := by
    simp only [literal_lib]; rw [if_neg (by decide)]
  exact ⟨by decide, rfl, hp, by decide, hpre,
    first_matching_pattern_wins literal_lib 7 ⟨[], [], 0, 0, 0⟩ (utf8 "hamster")
      [utf8 "[", utf8 "xyz"] (utf8 "ham") [utf8 "ster"] [utf8 "hamster"] _ (by decide) rfl hp
      (by decide) hpre⟩

/-- C13, on an input where the code departs from it: the word "да" has two characters, but
its normalized form is four bytes long and the test `normalized_word.length() < 3` counts
bytes, so the word is not taken for noise: with an empty cache and the target word "да" the
call reports it as prohibited ("точное совпадение"), stores the decision in the cache and
counts a detection. A word of two Latin letters, two bytes, is answered `(false, "")` and
leaves the cache and the count as they were. -/
theorem two_letter_cyrillic_word_is_prohibited (lib : Lib) (current_time : Int) :
    (utf8 "да").length = 4 ∧ _normalize_word (utf8 "да") = utf8 "да" ∧
    (is_prohibited_word lib current_time ⟨[], [], 0, 0, 0⟩ (utf8 "да") [] [utf8 "да"]).1 =
      (true, utf8 "точное совпадение") ∧
    (is_prohibited_word lib current_time ⟨[], [], 0, 0, 0⟩ (utf8 "да") []
      [utf8 "да"]).2.cache =
      [(_generate_cache_key lib (utf8 "да") [] [utf8 "да"], (true, utf8 "точное совпадение"))] ∧
    (is_prohibited_word lib current_time ⟨[], [], 0, 0, 0⟩ (utf8 "да") []
      [utf8 "да"]).2.detection_count = 1 ∧
    (is_prohibited_word lib current_time ⟨[], [], 0, 0, 0⟩ (utf8 "no") [] [utf8 "no"]).1 =
      (false, []) ∧
    (is_prohibited_word lib current_time ⟨[], [], 0, 0, 0⟩ (utf8 "no") []
      [utf8 "no"]).2.cache = [] ∧
    (is_prohibited_word lib current_time ⟨[], [], 0, 0, 0⟩ (utf8 "no") []
      [utf8 "no"]).2.detection_count = 0 := by
  have hw : _normalize_word (utf8 "да") = utf8 "да" := by decide
  have hlen : ¬ (_normalize_word (utf8 "да")).length < 3 := by decide
  have ht : match_targets (utf8 "да") [utf8 "да"] = some (utf8 "точное совпадение") := by
    decide
  have hev : evaluate_rules lib [] (utf8 "да") [] [utf8 "да"] =
      (true, utf8 "точное совпадение") := by
    rw [evaluate_rules_no_fallback lib [] (utf8 "да") [] [utf8 "да"] rfl]
    have hne : ¬ ([utf8 "да"] = ([] : List CppString)) := by simp
    simp only [match_patterns, hne, if_false, ht]
  have hmiss := is_prohibited_word_miss lib current_time ⟨[], [], 0, 0, 0⟩ (utf8 "да") []
    [utf8 "да"] hlen rfl
  rw [hw, hev] at hmiss
  have hshort : (_normalize_word (utf8 "no")).length < 3 := by decide
  refine ⟨by decide, hw, hmiss.1, hmiss.2.1, ?_, ?_, ?_, ?_⟩
  · rw [hmiss.2.2.1]
    rfl
  · rw [is_prohibited_word_short lib current_time _ (utf8 "no") [] [utf8 "no"] hshort]
  · rw [is_prohibited_word_short lib current_time _ (utf8 "no") [] [utf8 "no"] hshort]
    exact _throttle_check_cache current_time _
  · rw [is_prohibited_word_short lib current_time _ (utf8 "no") [] [utf8 "no"] hshort]
    exact _throttle_check_detection_count current_time _

/-- C14, on an input where the code departs from it: the doubled consonant of "алло" is not
reduced, the word comes back unchanged, because the loop compares bytes and each Cyrillic
letter is two bytes long; and no byte passes the vowel test, so a repeated Latin vowel is
reduced like any other repeated byte ("noooo" becomes "no"). -/
theorem repeated_cyrillic_consonant_is_kept :
    _normalize_word (utf8 "алло") = utf8 "алло" ∧
    _normalize_word (utf8 "алло") ≠ utf8 "ало" ∧
    (∀ c : Fin 256, is_vowel c = false) ∧
    _normalize_word (utf8 "noooo") = utf8 "no" := by
  refine ⟨by decide, by decide, ?_, by decide⟩
  intro c
  have h1 : char_to_int c < 256 := by unfold char_to_int; split <;> omega
  simp only [is_vowel, Bool.or_eq_false_iff, decide_eq_false_iff_not]
  omega

/-- C16: two consecutive calls on the same detector with the same word and the same rule set
return the same decision, and the second call leaves `detection_count` unchanged. -/
theorem repeated_call_same_decision (lib : Lib) (first_time second_time : Int)
    (d : WordDetector) (word_text : CppString) (patterns target_words : List CppString) :
    (is_prohibited_word lib second_time
      (is_prohibited_word lib first_time d word_text patterns target_words).2
      word_text patterns target_words).1 =
        (is_prohibited_word lib first_time d word_text patterns target_words).1 ∧
    (is_prohibited_word lib second_time
      (is_prohibited_word lib first_time d word_text patterns target_words).2
      word_text patterns target_words).2.detection_count =
        (is_prohibited_word lib first_time d word_text patterns target_words).2.detection_count :=
  is_prohibited_word_again lib first_time second_time d word_text patterns target_words
    patterns target_words rfl

/-- C17: the cache key is the same for two rule sets of the same sizes, and for a word with at
least 3 normalized characters a call with the second rule set made after a call with the first
one returns the decision of the first call. -/
theorem same_sizes_reuse_cached_decision (lib : Lib) (first_time second_time : Int)
    (d : WordDetector) (word_text : CppString) (p1 t1 p2 t2 : List CppString)
    (hlen : 3 ≤ (_normalize_word word_text).length)
    (hp : p1.length = p2.length) (ht : t1.length = t2.length) :
    _generate_cache_key lib (_normalize_word word_text) p2 t2 =
      _generate_cache_key lib (_normalize_word word_text) p1 t1 ∧
    (is_prohibited_word lib second_time (is_prohibited_word lib first_time d word_text p1 t1).2
      word_text p2 t2).1 = (is_prohibited_word lib first_time d word_text p1 t1).1 ∧
    (is_prohibited_word lib second_time (is_prohibited_word lib first_time d word_text p1 t1).2
      word_text p2 t2).2.cache.lookup
        (_generate_cache_key lib (_normalize_word word_text) p2 t2) =
      some (is_prohibited_word lib first_time d word_text p1 t1).1 := by
  have hkey : _generate_cache_key lib (_normalize_word word_text) p2 t2 =
      _generate_cache_key lib (_normalize_word word_text) p1 t1 := by
    unfold _generate_cache_key
    rw [hp, ht]
  have hnot : ¬ (_normalize_word word_text).length < 3 := by omega
  have hagain := is_prohibited_word_again lib first_time second_time d word_text p1 t1 p2 t2 hkey
  refine ⟨hkey, hagain.1, ?_⟩
  rw [is_prohibited_word_cached lib second_time _ word_text p2 t2 hnot, hagain.1]

theorem same_sizes_reuse_cached_decision_witness :
    3 ≤ (_normalize_word (utf8 "hamster")).length ∧
    [utf8 "ham"].length = [utf8 "dog"].length ∧
    ([] : List CppString).length = ([] : List CppString).length ∧
    _generate_cache_key literal_lib (_normalize_word (utf8 "hamster")) [utf8 "dog"] [] =
      _generate_cache_key literal_lib (_normalize_word (utf8 "hamster")) [utf8 "ham"] [] ∧
    (is_prohibited_word literal_lib 9
      (is_prohibited_word literal_lib 7 ⟨[], [], 0, 0, 0⟩ (utf8 "hamster") [utf8 "ham"] []).2
      (utf8 "hamster") [utf8 "dog"] []).1 =
        (is_prohibited_word literal_lib 7 ⟨[], [], 0, 0, 0⟩ (utf8 "hamster") [utf8 "ham"]
          []).1 ∧
    (is_prohibited_word literal_lib 9
      (is_prohibited_word literal_lib 7 ⟨[], [], 0, 0, 0⟩ (utf8 "hamster") [utf8 "ham"] []).2
      (utf8 "hamster") [utf8 "dog"] []).2.cache.lookup
        (_generate_cache_key literal_lib (_normalize_word (utf8 "hamster")) [utf8 "dog"] []) =
      some (is_prohibited_word literal_lib 7 ⟨[], [], 0, 0, 0⟩ (utf8 "hamster") [utf8 "ham"]
        []).1 :=
  ⟨by decide, rfl, rfl,
    same_sizes_reuse_cached_decision literal_lib 7 9 ⟨[], [], 0, 0, 0⟩ (utf8 "hamster")
      [utf8 "ham"] [] [utf8 "dog"] [] (by decide) rfl rfl⟩

/-- C18: after `reset_cache` the cache is empty, and the next call returns the decision of a
detector with an empty cache and the same configuration, which for a word of at least 3
normalized characters is the evaluation of the rule set given to that call. -/
theorem reset_cache_forgets_decisions (lib : Lib) (current_time other_time : Int)
    (d fresh : WordDetector) (word_text : CppString) (patterns target_words : List CppString)
    (hfresh : fresh.cache = []) (hconfig : fresh.config = d.config) :
    (reset_cache d).cache = [] ∧
    (is_prohibited_word lib current_time (reset_cache d) word_text patterns target_words).1 =
      (is_prohibited_word lib other_time fresh word_text patterns target_words).1 ∧
    (is_prohibited_word lib current_time (reset_cache d) word_text patterns target_words).1 =
      (if (_normalize_word word_text).length < 3 then (false, [])
      else evaluate_rules lib d.config (_normalize_word word_text) patterns target_words) := by
  have hreset : ∀ t, (is_prohibited_word lib t (reset_cache d) word_text patterns
      target_words).1 =
      (if (_normalize_word word_text).length < 3 then (false, [])
      else evaluate_rules lib d.config (_normalize_word word_text) patterns target_words) := by
    intro t
    by_cases h : (_normalize_word word_text).length < 3
    · rw [is_prohibited_word_short _ _ _ _ _ _ h, if_pos h]
    · rw [(is_prohibited_word_miss lib t (reset_cache d) word_text patterns target_words h
        rfl).1, if_neg h]
      rfl
  have hother : (is_prohibited_word lib other_time fresh word_text patterns target_words).1 =
      (if (_normalize_word word_text).length < 3 then (false, [])
      else evaluate_rules lib d.config (_normalize_word word_text) patterns target_words) := by
    by_cases h : (_normalize_word word_text).length < 3
    · rw [is_prohibited_word_short _ _ _ _ _ _ h, if_pos h]
    · rw [(is_prohibited_word_miss lib other_time fresh word_text patterns target_words h
        (by rw [hfresh]; rfl)).1, if_neg h, hconfig]
  exact ⟨rfl, by rw [hreset, hother], hreset current_time⟩

theorem reset_cache_forgets_decisions_witness :
    (⟨[], [], 0, 0, 0⟩ : WordDetector).cache = [] ∧
    (⟨[], [], 0, 0, 0⟩ : WordDetector).config =
      (is_prohibited_word literal_lib 7 ⟨[], [], 0, 0, 0⟩ (utf8 "hamster") [utf8 "ham"]
        []).2.config ∧
    ((reset_cache (is_prohibited_word literal_lib 7 ⟨[], [], 0, 0, 0⟩ (utf8 "hamster")
        [utf8 "ham"] []).2).cache = [] ∧
    (is_prohibited_word literal_lib 9
      (reset_cache (is_prohibited_word literal_lib 7 ⟨[], [], 0, 0, 0⟩ (utf8 "hamster")
        [utf8 "ham"] []).2) (utf8 "hamster") [utf8 "dog"] []).1 =
      (is_prohibited_word literal_lib 8 ⟨[], [], 0, 0, 0⟩ (utf8 "hamster") [utf8 "dog"] []).1 ∧
    (is_prohibited_word literal_lib 9
      (reset_cache (is_prohibited_word literal_lib 7 ⟨[], [], 0, 0, 0⟩ (utf8 "hamster")
        [utf8 "ham"] []).2) (utf8 "hamster") [utf8 "dog"] []).1 =
      (if (_normalize_word (utf8 "hamster")).length < 3 then (false, [])
      else evaluate_rules literal_lib
        (is_prohibited_word literal_lib 7 ⟨[], [], 0, 0, 0⟩ (utf8 "hamster") [utf8 "ham"]
          []).2.config (_normalize_word (utf8 "hamster")) [utf8 "dog"] [])) :=
  ⟨rfl, (is_prohibited_word_config literal_lib 7 ⟨[], [], 0, 0, 0⟩ (utf8 "hamster")
      [utf8 "ham"] []).symm,
    reset_cache_forgets_decisions literal_lib 9 8
      (is_prohibited_word literal_lib 7 ⟨[], [], 0, 0, 0⟩ (utf8 "hamster") [utf8 "ham"] []).2
      ⟨[], [], 0, 0, 0⟩ (utf8 "hamster") [utf8 "dog"] [] rfl
      (is_prohibited_word_config literal_lib 7 ⟨[], [], 0, 0, 0⟩ (utf8 "hamster")
        [utf8 "ham"] []).symm⟩

/-- C19: for a detector with an empty cache and no `target_patterns` entry in its
configuration, the call always returns a decision, and it is the one obtained with the
patterns that do not compile removed from the list. The other patterns and the target words
are applied: for a word of at least 3 normalized characters, a pattern that compiles and is
found in the word decides `(true, p)` when every pattern before it does not compile or is not
found; and when every pattern does not compile or is not found, the word is prohibited if a
target word has its normalized form, and is not prohibited if there is no target word. -/
theorem invalid_patterns_are_skipped (lib : Lib) (current_time : Int) (d : WordDetector)
    (word_text : CppString) (patterns target_words : List CppString)
    (hcache : d.cache = []) (hconfig : d.config.lookup "target_patterns" = none) :
    (is_prohibited_word lib current_time d word_text patterns target_words).1 =
      (is_prohibited_word lib current_time d word_text
        (patterns.filter (fun p => (lib.regex p).isSome)) target_words).1 ∧
    (3 ≤ (_normalize_word word_text).length →
      (∀ (pre : List CppString) (p : CppString) (post : List CppString)
          (search : CppString → Bool),
        patterns = pre ++ p :: post →
        (∀ q ∈ pre, ∀ g, lib.regex q = some g → g (_normalize_word word_text) = false) →
        lib.regex p = some search → search (_normalize_word word_text) = true →
        (is_prohibited_word lib current_time d word_text patterns target_words).1 =
          (true, p)) ∧
      ((∀ q ∈ patterns, ∀ g, lib.regex q = some g → g (_normalize_word word_text) = false) →
        (∀ t ∈ target_words, _normalize_word t = _normalize_word word_text →
          (is_prohibited_word lib current_time d word_text patterns target_words).1.1 =
            true) ∧
        (target_words = [] → d.config.lookup "target_words" = none →
          (is_prohibited_word lib current_time d word_text patterns target_words).1 =
            (false, [])))) := by
  constructor
  · by_cases h : (_normalize_word word_text).length < 3
    · rw [is_prohibited_word_short _ _ _ _ _ _ h, is_prohibited_word_short _ _ _ _ _ _ h]
    · rw [(is_prohibited_word_miss lib current_time d word_text patterns target_words h
          (by rw [hcache]; rfl)).1,
        (is_prohibited_word_miss lib current_time d word_text _ target_words h
          (by rw [hcache]; rfl)).1,
        evaluate_rules_no_fallback _ _ _ _ _ hconfig,
        evaluate_rules_no_fallback _ _ _ _ _ hconfig, match_patterns_filter]
  · intro hlen
    have hdec := (is_prohibited_word_miss lib current_time d word_text patterns target_words
      (by omega) (by rw [hcache]; rfl)).1
    rw [evaluate_rules_no_fallback _ _ _ _ _ hconfig] at hdec
    refine ⟨?_, ?_⟩
    · intro pre p post search hpat hpre hp hfound
      rw [hdec, hpat,
        match_patterns_first lib (_normalize_word word_text) pre p post search hp hfound hpre]
    · intro hnone
      rw [match_patterns_none lib (_normalize_word word_text) patterns hnone] at hdec
      refine ⟨?_, ?_⟩
      · intro t ht heq
        have hne : target_words ≠ [] := List.ne_nil_of_mem ht
        rw [hdec]
        simp only [hne, if_false]
        have hsome := match_targets_exact (_normalize_word word_text) t target_words ht heq
        split
        · rfl
        · next hn => rw [hn] at hsome; simp at hsome
      · intro hnil hcfg
        rw [hdec, hnil]
        simp only [if_true, hcfg, match_targets]

theorem invalid_patterns_are_skipped_witness :
    (⟨[], [], 0, 0, 0⟩ : WordDetector).cache = [] ∧
    (⟨[], [], 0, 0, 0⟩ : WordDetector).config.lookup "target_patterns" = none ∧
    literal_lib.regex (utf8 "[") = none ∧
    (is_prohibited_word literal_lib 7 ⟨[], [], 0, 0, 0⟩ (utf8 "hamster")
      [utf8 "[", utf8 "ster"] [utf8 "dog"]).1 =
    (is_prohibited_word literal_lib 7 ⟨[], [], 0, 0, 0⟩ (utf8 "hamster")
      ([utf8 "[", utf8 "ster"].filter (fun p => (literal_lib.regex p).isSome))
      [utf8 "dog"]).1 ∧
    (is_prohibited_word literal_lib 7 ⟨[], [], 0, 0, 0⟩ (utf8 "hamster")
      [utf8 "[", utf8 "ster"] [utf8 "dog"]).1 = (true, utf8 "ster") := by
  have hinvalid : literal_lib.regex (utf8 "[") = none := by
    simp [literal_lib]
  have hp : literal_lib.regex (utf8 "ster") =
      some (fun w => (find w (utf8 "ster")).isSome) := by
    simp only [literal_lib]; rw [if_neg (by decide)]
  have hpre : ∀ q ∈ [utf8 "["], ∀ g, literal_lib.regex q = some g →
      g (_normalize_word (utf8 "hamster")) = false := by
    intro q hq g hg
    rw [List.mem_singleton] at hq
    rw [hq, hinvalid] at hg
    cases hg
  exact ⟨rfl, rfl, hinvalid,
    (invalid_patterns_are_skipped literal_lib 7 ⟨[], [], 0, 0, 0⟩ (utf8 "hamster")
      [utf8 "[", utf8 "ster"] [utf8 "dog"] rfl rfl).1,
    ((invalid_patterns_are_skipped literal_lib 7 ⟨[], [], 0, 0, 0⟩ (utf8 "hamster")
      [utf8 "[", utf8 "ster"] [utf8 "dog"] rfl rfl).2 (by decide)).1 [utf8 "["] (utf8 "ster")
      [] _ rfl hpre hp (by decide)⟩

/-! ## Recognizer results: claims -/

/-- C20: a recognizer result that is empty, is no JSON text, or has no array member `result`
makes `WordDetector::process_recognition_result` return no region and leave the detector as
it is, and makes `AudioProcessor::process_recognition_result` leave `censored_regions`
unchanged; both calls return. -/
theorem malformed_result_adds_no_region (lib : Lib) (ps : Parsers) (current_time : Int)
    (d : WordDetector) (config : List (String × CppString))
    (current_sample_rate chunks_processed : Int) (elapsed_time : ℚ)
    (censored_regions : List Region) (result_json : CppString)
    (hbad : result_json = [] ∨ ps.parse result_json = none ∨
      ∃ result, ps.parse result_json = some result ∧
        ∀ words, result.index "result" ≠ some (Json.array words)) :
    WordDetector.process_recognition_result lib ps current_time d result_json chunks_processed
      elapsed_time = ([], d) ∧
    AudioProcessor.process_recognition_result lib ps current_time config current_sample_rate
      chunks_processed elapsed_time censored_regions result_json = censored_regions := by
  by_cases hempty : result_json = []
  · subst hempty
    simp [WordDetector.process_recognition_result, AudioProcessor.process_recognition_result,
      json_parse]
  · have hparse : json_parse ps result_json = ps.parse result_json := by
      simp [json_parse, hempty]
    rcases hbad with h | h | ⟨result, hres, hno⟩
    · exact absurd h hempty
    · simp [WordDetector.process_recognition_result, AudioProcessor.process_recognition_result,
        hparse, h, hempty]
    · unfold WordDetector.process_recognition_result AudioProcessor.process_recognition_result
      simp only [hempty, if_false, hparse, hres]
      constructor
      · split
        · rfl
        · next word rest heq => exact absurd heq (hno _)
        · rfl
      · split
        · rfl
        · next word rest heq => exact absurd heq (hno _)
        · rfl

theorem malformed_result_adds_no_region_witness :
    (utf8 "\x7b\"text\" : \"\"\x7d" = [] ∨
      silence_parsers.parse (utf8 "\x7b\"text\" : \"\"\x7d") = none ∨
      ∃ result, silence_parsers.parse (utf8 "\x7b\"text\" : \"\"\x7d") = some result ∧
        ∀ words, result.index "result" ≠ some (Json.array words)) ∧
    WordDetector.process_recognition_result literal_lib silence_parsers 7 ⟨[], [], 0, 0, 0⟩
      (utf8 "\x7b\"text\" : \"\"\x7d") 5 7 = ([], ⟨[], [], 0, 0, 0⟩) ∧
    AudioProcessor.process_recognition_result literal_lib silence_parsers 7 [] 16000 5 7
      [⟨2, 9, false⟩] (utf8 "\x7b\"text\" : \"\"\x7d") = [⟨2, 9, false⟩] := by
  have hbad : utf8 "\x7b\"text\" : \"\"\x7d" = [] ∨
      silence_parsers.parse (utf8 "\x7b\"text\" : \"\"\x7d") = none ∨
      ∃ result, silence_parsers.parse (utf8 "\x7b\"text\" : \"\"\x7d") = some result ∧
        ∀ words, result.index "result" ≠ some (Json.array words) := by
    refine Or.inr (Or.inr ⟨Json.object [(utf8 "text", Json.string [])], ?_, ?_⟩)
    · simp [silence_parsers]
    · intro words hw
      have hlookup : List.lookup (utf8 "result") [(utf8 "text", Json.string [])] = none := by
        have hne : (utf8 "result" == utf8 "text") = false := by decide
        simp [List.lookup, hne]
      simp [Json.index, hlookup] at hw
  exact ⟨hbad,
    malformed_result_adds_no_region literal_lib silence_parsers 7 ⟨[], [], 0, 0, 0⟩ [] 16000 5 7
      [⟨2, 9, false⟩] (utf8 "\x7b\"text\" : \"\"\x7d") hbad⟩

/-! ## The processing loop and the rate limiter: claims -/

/-- C23, as stated, fails: for `sample_rate = 16000`, `chunk_size = 1024`, `safety_margin = 1`,
current index 0 and the doubles nearest to `buffer_delay = 0.3`, `elapsed = 10.884`,
`start_time = 9.24` (and `end_time = 9.5`), the exact product `s` of these doubles is just
below -21, so `floor(s) = -22`, while the program, rounding the difference `elapsed -
buffer_delay` and the product, gets a double just above -21, truncates it to -20 and
schedules the start at -21, which is above `current + floor(s)`. -/
theorem region_start_above_floor_of_offset :
    (1 : Int) ≤ 1 ∧ (5201657569612923 / 562949953421312 : ℚ) ≤ 19 / 2 ∧
    (censored_region 16000 1024 (5404319552844595 / 18014398509481984) 1
      (765893411629695 / 70368744177664) 0 (5201657569612923 / 562949953421312)
      (19 / 2)).start_idx = -21 ∧
    ⌊((5201657569612923 / 562949953421312 : ℚ) - (765893411629695 / 70368744177664 -
      5404319552844595 / 18014398509481984)) * (16000 / 1024)⌋ = -22 ∧
    ¬ ((censored_region 16000 1024 (5404319552844595 / 18014398509481984) 1
      (765893411629695 / 70368744177664) 0 (5201657569612923 / 562949953421312)
      (19 / 2)).start_idx ≤
      0 + ⌊((5201657569612923 / 562949953421312 : ℚ) - (765893411629695 / 70368744177664 -
        5404319552844595 / 18014398509481984)) * (16000 / 1024)⌋) := by
  have ha : binary64 ((765893411629695 / 70368744177664 : ℚ) -
      5404319552844595 / 18014398509481984) = 2979131153505583 / 281474976710656 := by
    rw [binary64_near _ 5958262307011166 (-49) 3 (by norm_num) (by norm_num)
      (by rw [abs_of_pos (by norm_num)]; norm_num)
      (by rw [abs_of_pos (by norm_num)]; norm_num)
      (by rw [abs_lt]; constructor <;> norm_num)]
    norm_num
  have hb : binary64 ((5201657569612923 / 562949953421312 : ℚ) -
      2979131153505583 / 281474976710656) = -(756604737398243 / 562949953421312) := by
    rw [binary64_of_dyadic _ (-756604737398243) (-49) (by norm_num) (by norm_num)
      (by norm_num)]
    norm_num
  have hp : binary64 (-(756604737398243 / 562949953421312 : ℚ) * (125 / 8)) =
      -(5910974510923773 / 281474976710656) := by
    rw [binary64_near _ (-5910974510923773) (-48) 4 (by norm_num) (by norm_num)
      (by rw [abs_of_neg (by norm_num)]; norm_num)
      (by rw [abs_of_neg (by norm_num)]; norm_num)
      (by rw [abs_lt]; constructor <;> norm_num)]
    norm_num
  have hs : chunks_offset 16000 1024 (5404319552844595 / 18014398509481984)
      (765893411629695 / 70368744177664) (5201657569612923 / 562949953421312) =
      -(5910974510923773 / 281474976710656) :=
    chunks_offset_eq_of 16000 1024 _ _ _ _ _ (125 / 8) _ ha hb chunks_per_second_example hp
  have hz : static_cast_int32 (chunks_offset 16000 1024 (5404319552844595 / 18014398509481984)
      (765893411629695 / 70368744177664) (5201657569612923 / 562949953421312)) = -20 := by
    rw [hs]
    exact static_cast_int32_eq_of _ (-20)
      (static_cast_int_eq_of_nonpos _ (-20) (by norm_num) (by norm_num) (by norm_num))
      (by decide)
  have hstart : (censored_region 16000 1024 (5404319552844595 / 18014398509481984) 1
      (765893411629695 / 70368744177664) 0 (5201657569612923 / 562949953421312)
      (19 / 2)).start_idx = -21 := by
    simp only [censored_region, chunks_offset_start]
    rw [hz]
    rfl
  have hfloor : ⌊((5201657569612923 / 562949953421312 : ℚ) -
      (765893411629695 / 70368744177664 - 5404319552844595 / 18014398509481984)) *
      (16000 / 1024)⌋ = -22 := by
    rw [Int.floor_eq_iff]
    constructor <;> norm_num
  refine ⟨le_refl _, by norm_num, hstart, hfloor, ?_⟩
  rw [hstart, hfloor]
  decide

/-- C23, amended: with a safety margin of at least 1 the scheduled region starts at or before
`current + floor(s)` and ends at or after `current + ceil(e)`, where `s` and `e` are the
chunk offsets of the start and of the end of the word as the program computes them in double
precision, provided that at both ends the conversion to `int` and the two `int` additions stay
within the range of `int`; so every chunk index from `floor(s)` to `ceil(e)` lies inside the
region. -/
theorem region_covers_word_interval (current_sample_rate chunk_size : Int) (buffer_delay : ℚ)
    (safety_margin : Int) (elapsed_time : ℚ) (chunks_processed : Int) (start_time end_time : ℚ)
    (hmargin : 1 ≤ safety_margin)
    (hstart : no_int_overflow
      (chunks_offset current_sample_rate chunk_size buffer_delay elapsed_time start_time)
      (-safety_margin) chunks_processed)
    (hend : no_int_overflow
      (chunks_offset current_sample_rate chunk_size buffer_delay elapsed_time end_time)
      safety_margin chunks_processed) :
    (censored_region current_sample_rate chunk_size buffer_delay safety_margin elapsed_time
      chunks_processed start_time end_time).start_idx ≤
      chunks_processed +
        ⌊chunks_offset current_sample_rate chunk_size buffer_delay elapsed_time start_time⌋ ∧
    chunks_processed +
        ⌈chunks_offset current_sample_rate chunk_size buffer_delay elapsed_time end_time⌉ ≤
      (censored_region current_sample_rate chunk_size buffer_delay safety_margin elapsed_time
        chunks_processed start_time end_time).end_idx ∧
    ∀ k : Int,
      ⌊chunks_offset current_sample_rate chunk_size buffer_delay elapsed_time start_time⌋ ≤ k →
      k ≤ ⌈chunks_offset current_sample_rate chunk_size buffer_delay elapsed_time end_time⌉ →
      (censored_region current_sample_rate chunk_size buffer_delay safety_margin elapsed_time
        chunks_processed start_time end_time).start_idx ≤ chunks_processed + k ∧
      chunks_processed + k ≤
        (censored_region current_sample_rate chunk_size buffer_delay safety_margin elapsed_time
          chunks_processed start_time end_time).end_idx := by
  have h1 := static_cast_int_le_floor_add_one
    (chunks_offset current_sample_rate chunk_size buffer_delay elapsed_time start_time)
  have h2 := ceil_sub_one_le_static_cast_int
    (chunks_offset current_sample_rate chunk_size buffer_delay elapsed_time end_time)
  rw [censored_region_start_of_fits _ _ _ _ _ _ _ _ hstart,
    censored_region_end_of_fits _ _ _ _ _ _ _ _ hend]
  refine ⟨by omega, by omega, ?_⟩
  intro k hk1 hk2
  constructor <;> omega

theorem region_covers_word_interval_witness :
    (1 : Int) ≤ 3 ∧
    no_int_overflow (chunks_offset 16000 1024 2 7 5) (-3) 0 ∧
    no_int_overflow (chunks_offset 16000 1024 2 7 (11 / 2)) 3 0 ∧
    (censored_region 16000 1024 2 3 7 0 5 (11 / 2)).start_idx ≤
      0 + ⌊chunks_offset 16000 1024 2 7 5⌋ ∧
    0 + ⌈chunks_offset 16000 1024 2 7 (11 / 2)⌉ ≤
      (censored_region 16000 1024 2 3 7 0 5 (11 / 2)).end_idx ∧
    ∀ k : Int,
      ⌊chunks_offset 16000 1024 2 7 5⌋ ≤ k →
      k ≤ ⌈chunks_offset 16000 1024 2 7 (11 / 2)⌉ →
      (censored_region 16000 1024 2 3 7 0 5 (11 / 2)).start_idx ≤ 0 + k ∧
      0 + k ≤ (censored_region 16000 1024 2 3 7 0 5 (11 / 2)).end_idx :=
  ⟨by decide, no_int_overflow_example_start, no_int_overflow_example_end,
    region_covers_word_interval 16000 1024 2 3 7 0 5 (11 / 2) (by decide)
      no_int_overflow_example_start no_int_overflow_example_end⟩

/-- C26, as stated, fails: a call made 10.5 seconds after the window began (with 5 attempts
counted so far) does not restart the counter at 1, it counts on to 6. -/
theorem throttle_window_survives_ten_and_a_half_seconds :
    (_throttle_check 10500000000 ⟨[], [], 0, 5, 0⟩).1._throttle_attempts ≠ 1 ∧
    (_throttle_check 10500000000 ⟨[], [], 0, 5, 0⟩).1._throttle_attempts = 6 := by
  have h : ¬ Int.tdiv ((10500000000 : Int) - 0) 1000000000 > 10 := by decide
  have hattempts := (_throttle_check_fields 10500000000 ⟨[], [], 0, 5, 0⟩).1
  simp only [if_neg h] at hattempts
  rw [hattempts]
  exact ⟨by decide, rfl⟩

/-- C26, amended: the delay of a call is 0 while the counter after the increment is at most
100 and `min(0.5, (n - 100) / 1000)` seconds above; it is non-negative, non-decreasing in the
counter and at most 0.5 s; the counter restarts at 1 (and the window at the time of the call)
exactly when the time since the window began, truncated to whole seconds, exceeds 10, that
is from 11 seconds on; otherwise the counter grows by one. -/
theorem throttle_delay_and_window (current_time : Int) (d : WordDetector) :
    (_throttle_check current_time d).2 =
      (if (_throttle_check current_time d).1._throttle_attempts ≤ 100 then 0
      else min (1 / 2)
        ((((_throttle_check current_time d).1._throttle_attempts - 100 : Int) : ℚ) / 1000)) ∧
    0 ≤ (_throttle_check current_time d).2 ∧ (_throttle_check current_time d).2 ≤ 1 / 2 ∧
    (∀ n m : Int, n ≤ m → throttle_delay n ≤ throttle_delay m) ∧
    (11 * 1000000000 ≤ current_time - d._throttle_start_time →
      (_throttle_check current_time d).1._throttle_attempts = 1 ∧
      (_throttle_check current_time d).1._throttle_start_time = current_time ∧
      (_throttle_check current_time d).2 = 0) ∧
    (current_time - d._throttle_start_time < 11 * 1000000000 →
      (_throttle_check current_time d).1._throttle_attempts = d._throttle_attempts + 1 ∧
      (_throttle_check current_time d).1._throttle_start_time = d._throttle_start_time) := by
  have hdelay := _throttle_check_delay current_time d
  refine ⟨?_, ?_, ?_, fun n m h => throttle_delay_mono h, ?_, ?_⟩
  · rw [hdelay]
    unfold throttle_delay
    by_cases h : (_throttle_check current_time d).1._throttle_attempts ≤ 100
    · rw [if_pos h, if_neg (by omega)]
    · rw [if_neg h, if_pos (by omega)]
  · rw [hdelay]; exact throttle_delay_nonneg _
  · rw [hdelay]; exact throttle_delay_le_half _
  · intro h
    have hgt : Int.tdiv (current_time - d._throttle_start_time) 1000000000 > 10 := by
      rw [Int.tdiv_eq_ediv (by omega) (by omega)]
      omega
    obtain ⟨h1, h2⟩ := _throttle_check_fields current_time d
    rw [if_pos hgt] at h1 h2
    refine ⟨h1, h2, ?_⟩
    rw [hdelay, h1]
    simp [throttle_delay]
  · intro h
    have hle : ¬ Int.tdiv (current_time - d._throttle_start_time) 1000000000 > 10 := by
      by_cases hneg : 0 ≤ current_time - d._throttle_start_time
      · rw [Int.tdiv_eq_ediv hneg (by omega)]
        omega
      · have hnn : 0 ≤ -(current_time - d._throttle_start_time) := by omega
        have := Int.tdiv_nonneg hnn (by omega : (0 : Int) ≤ 1000000000)
        rw [Int.neg_tdiv] at this
        omega
    obtain ⟨h1, h2⟩ := _throttle_check_fields current_time d
    rw [if_neg hle] at h1 h2
    exact ⟨h1, h2⟩

/-- C27: a call that evaluates the rules (cache miss, at least 3 normalized characters)
increases `detection_count` by exactly one when the decision is a match and leaves it unchanged
when it is not. -/
theorem detection_count_on_cache_miss (lib : Lib) (current_time : Int) (d : WordDetector)
    (word_text : CppString) (patterns target_words : List CppString)
    (hlen : 3 ≤ (_normalize_word word_text).length)
    (hmiss : d.cache.lookup
      (_generate_cache_key lib (_normalize_word word_text) patterns target_words) = none) :
    (is_prohibited_word lib current_time d word_text patterns target_words).2.detection_count =
      d.detection_count +
        (if (is_prohibited_word lib current_time d word_text patterns target_words).1.1 = true
          then 1 else 0) := by
  obtain ⟨h1, _, h3, _⟩ := is_prohibited_word_miss lib current_time d word_text patterns
    target_words (by omega) hmiss
  rw [h3, h1]

theorem detection_count_on_cache_miss_witness :
    3 ≤ (_normalize_word (utf8 "hamster")).length ∧
    (⟨[], [], 4, 0, 0⟩ : WordDetector).cache.lookup (_generate_cache_key literal_lib
      (_normalize_word (utf8 "hamster")) [utf8 "ham"] []) = none ∧
    (is_prohibited_word literal_lib 7 ⟨[], [], 4, 0, 0⟩ (utf8 "hamster") [utf8 "ham"]
      []).2.detection_count =
      4 + (if (is_prohibited_word literal_lib 7 ⟨[], [], 4, 0, 0⟩ (utf8 "hamster") [utf8 "ham"]
        []).1.1 = true then 1 else 0) :=
  ⟨by decide, rfl,
    detection_count_on_cache_miss literal_lib 7 ⟨[], [], 4, 0, 0⟩ (utf8 "hamster") [utf8 "ham"]
      [] (by decide) rfl⟩

/-- C22: an iteration of either loop executed while the processor is paused leaves the
processor as it is (no read from the source, no write to the sink, buffer, regions and chunk
index unchanged); `pause` and `resume` set the flag `paused` and change no other field. -/
theorem paused_iteration_changes_nothing (lib : Lib) (ps : Parsers) (chunk_size : Nat)
    (tick : Tick) (a : AudioProcessor) (hpaused : a.paused = true) :
    AudioProcessor.main_iteration lib ps chunk_size tick a = a ∧
    AudioProcessor.priming_iteration lib ps chunk_size tick a = a ∧
    (AudioProcessor.main_iteration lib ps chunk_size tick a).source_reads = a.source_reads ∧
    (AudioProcessor.main_iteration lib ps chunk_size tick a).sink = a.sink ∧
    ∀ b : AudioProcessor,
      b.pause.paused = true ∧ b.resume.paused = false ∧
      b.pause.audio_buffer = b.audio_buffer ∧ b.resume.audio_buffer = b.audio_buffer ∧
      b.pause.censored_regions = b.censored_regions ∧
      b.resume.censored_regions = b.censored_regions ∧
      b.pause.chunks_processed = b.chunks_processed ∧
      b.resume.chunks_processed = b.chunks_processed ∧
      b.pause.sink = b.sink ∧ b.resume.sink = b.sink ∧
      b.pause.source_reads = b.source_reads ∧ b.resume.source_reads = b.source_reads ∧
      b.pause.running = b.running ∧ b.resume.running = b.running ∧
      b.pause.config = b.config ∧ b.resume.config = b.config ∧
      b.pause.buffer_size_in_chunks = b.buffer_size_in_chunks ∧
      b.resume.buffer_size_in_chunks = b.buffer_size_in_chunks ∧
      b.pause.current_sample_rate = b.current_sample_rate ∧
      b.resume.current_sample_rate = b.current_sample_rate := by
  have hmain : AudioProcessor.main_iteration lib ps chunk_size tick a = a := by
    simp [AudioProcessor.main_iteration, hpaused]
  have hprime : AudioProcessor.priming_iteration lib ps chunk_size tick a = a := by
    simp [AudioProcessor.priming_iteration, hpaused]
  refine ⟨hmain, hprime, by rw [hmain], by rw [hmain], ?_⟩
  intro b
  simp [AudioProcessor.pause, AudioProcessor.resume]

theorem paused_iteration_changes_nothing_witness :
    (⟨[], 16000, 2, [1, 2], [⟨0, 3, false⟩], 0, true, true, 5, []⟩ : AudioProcessor).paused =
      true ∧
    AudioProcessor.main_iteration literal_lib silence_parsers 2 ⟨[7, 8], none, 0, 0⟩
      ⟨[], 16000, 2, [1, 2], [⟨0, 3, false⟩], 0, true, true, 5, []⟩ =
      ⟨[], 16000, 2, [1, 2], [⟨0, 3, false⟩], 0, true, true, 5, []⟩ :=
  ⟨rfl, (paused_iteration_changes_nothing literal_lib silence_parsers 2 ⟨[7, 8], none, 0, 0⟩
    ⟨[], 16000, 2, [1, 2], [⟨0, 3, false⟩], 0, true, true, 5, []⟩ rfl).1⟩

/-- C28: no region stored in the region set has its flag set: this holds after every sequence
of `schedule` and playback-check events from the cleared set, and in every state the two loops
of `run` reach from the state `run` starts in. -/
theorem stored_regions_are_never_flagged (lib : Lib) (ps : Parsers) (chunk_size : Nat)
    (ops : List RegionOp) (priming running : List Tick) (a : AudioProcessor) :
    (∀ r ∈ run_region_ops [] ops, r.processed = false) ∧
    ∀ started, AudioProcessor.run_init chunk_size a = some started →
      ∀ r ∈ (AudioProcessor.run_loops lib ps chunk_size priming running
        started).censored_regions, r.processed = false := by
  refine ⟨run_region_ops_unprocessed ops [] (by simp), ?_⟩
  intro started hstart
  apply AudioProcessor.run_loops_unprocessed
  unfold AudioProcessor.run_init at hstart
  split at hstart
  · cases hstart
    simp
  · cases hstart

/-! ## The normalization: claims -/

/-- C30, as stated, fails: for the string made of a NUL character, a space and `a`, normalizing
twice differs from normalizing once (the NUL is dropped first, the space only then). -/
theorem normalization_is_not_idempotent_after_nul :
    _normalize_word (_normalize_word [0, 32, 97]) ≠ _normalize_word [0, 32, 97] := by decide

/-- C30, amended: for every string whose first character after lower-casing and stripping
the leading white space is not NUL, normalizing twice gives the same as normalizing once. -/
theorem normalization_is_idempotent (w : CppString)
    (hnul : ((w.map tolower).dropWhile is_space).head? ≠ some 0) :
    _normalize_word (_normalize_word w) = _normalize_word w :=
  _normalize_word_idem w hnul

theorem normalization_is_idempotent_witness :
    (((utf8 " He\x00llo ").map tolower).dropWhile is_space).head? ≠ some 0 ∧
    _normalize_word (_normalize_word (utf8 " He\x00llo ")) =
      _normalize_word (utf8 " He\x00llo ") :=
  ⟨by decide, normalization_is_idempotent (utf8 " He\x00llo ") (by decide)⟩

/-- C29, as stated, fails: with an empty cache and the single target word "abc", the word made
of a NUL character, a space and "abc" is not prohibited, while its normalized form " abc"
is. -/
theorem decision_differs_for_normalized_word_after_nul :
    (is_prohibited_word literal_lib 7 ⟨[], [], 0, 0, 0⟩ [0, 32, 97, 98, 99] []
      [utf8 "abc"]).1 ≠
    (is_prohibited_word literal_lib 7 ⟨[], [], 0, 0, 0⟩ (_normalize_word [0, 32, 97, 98, 99]) []
      [utf8 "abc"]).1 := by decide

/-- C29, amended: on a detector with an empty cache two words with the same normalized form
get the same decision, and a word whose first character after lower-casing and stripping the
leading white space is not NUL gets the decision of its normalized form. -/
theorem decision_depends_on_normalized_form (lib : Lib) (first_time second_time : Int)
    (d : WordDetector) (patterns target_words : List CppString) (hcache : d.cache = []) :
    (∀ w1 w2 : CppString, _normalize_word w1 = _normalize_word w2 →
      (is_prohibited_word lib first_time d w1 patterns target_words).1 =
        (is_prohibited_word lib second_time d w2 patterns target_words).1) ∧
    (∀ w : CppString, ((w.map tolower).dropWhile is_space).head? ≠ some 0 →
      (is_prohibited_word lib first_time d w patterns target_words).1 =
        (is_prohibited_word lib second_time d (_normalize_word w) patterns target_words).1) := by
  have hsame : ∀ w1 w2 : CppString, _normalize_word w1 = _normalize_word w2 →
      (is_prohibited_word lib first_time d w1 patterns target_words).1 =
        (is_prohibited_word lib second_time d w2 patterns target_words).1 := by
    intro w1 w2 h
    by_cases hshort : (_normalize_word w1).length < 3
    · rw [is_prohibited_word_short _ _ _ _ _ _ hshort,
        is_prohibited_word_short _ _ _ _ _ _ (by rw [← h]; exact hshort)]
    · rw [(is_prohibited_word_miss lib first_time d w1 patterns target_words hshort
          (by rw [hcache]; rfl)).1,
        (is_prohibited_word_miss lib second_time d w2 patterns target_words
          (by rw [← h]; exact hshort) (by rw [hcache]; rfl)).1, h]
  exact ⟨hsame, fun w hw => hsame w (_normalize_word w) (_normalize_word_idem w hw).symm⟩

theorem decision_depends_on_normalized_form_witness :
    (⟨[], [], 0, 0, 0⟩ : WordDetector).cache = [] ∧
    ((∀ w1 w2 : CppString, _normalize_word w1 = _normalize_word w2 →
      (is_prohibited_word literal_lib 7 ⟨[], [], 0, 0, 0⟩ w1 [utf8 "ham"] [utf8 "dog"]).1 =
        (is_prohibited_word literal_lib 9 ⟨[], [], 0, 0, 0⟩ w2 [utf8 "ham"] [utf8 "dog"]).1) ∧
    (∀ w : CppString, ((w.map tolower).dropWhile is_space).head? ≠ some 0 →
      (is_prohibited_word literal_lib 7 ⟨[], [], 0, 0, 0⟩ w [utf8 "ham"] [utf8 "dog"]).1 =
        (is_prohibited_word literal_lib 9 ⟨[], [], 0, 0, 0⟩ (_normalize_word w) [utf8 "ham"]
          [utf8 "dog"]).1)) :=
  ⟨rfl, decision_depends_on_normalized_form literal_lib 7 9 ⟨[], [], 0, 0, 0⟩ [utf8 "ham"]
    [utf8 "dog"] rfl⟩

/-! ## The delay of the buffer: claims -/

/-- C24, as stated, fails in three configurations. With `buffer_size_in_chunks = 0` the
buffer is empty after every capture, the extraction finds too few samples and the iteration
takes the underflow branch: nothing is written. With no entry `enable_censoring` in the
configuration the iteration ends after the capture, before the extraction. With 1431655767
chunks of 3 samples the `int` product is 5: `run` starts with 5 zeros and the first iteration,
which captures `[1, 2, 3]`, plays `[0, 0, 1]`, neither a captured chunk nor a chunk of zeros. -/
theorem delay_buffer_underflow_or_blend :
    (AudioProcessor.run_init 2 sample_processor_no_delay =
        some { sample_processor_no_delay with running := true } ∧
      pop_chunk 2 (push (buffer_capacity 0 2) [] (sample_tick 1 2).input_chunk) = none ∧
      (AudioProcessor.main_iteration literal_lib silence_parsers 2 (sample_tick 1 2)
        { sample_processor_no_delay with running := true }).sink = [] ∧
      (AudioProcessor.main_iteration literal_lib silence_parsers 2 (sample_tick 1 2)
        { sample_processor_no_delay with running := true }).chunks_processed = 0) ∧
    (AudioProcessor.run_init 2 sample_processor_no_key =
        some { sample_processor_no_key with running := true, audio_buffer := [0, 0, 0, 0] } ∧
      AudioProcessor.main_iteration literal_lib silence_parsers 2 (sample_tick 1 2)
        { sample_processor_no_key with running := true, audio_buffer := [0, 0, 0, 0] } =
        { sample_processor_no_key with
          running := true, audio_buffer := [0, 0, 1, 2], source_reads := 1 }) ∧
    (AudioProcessor.run_init 3 sample_processor_overflow =
        some { sample_processor_overflow with
          running := true, audio_buffer := [0, 0, 0, 0, 0] } ∧
      (AudioProcessor.main_iteration literal_lib silence_parsers 3 ⟨[1, 2, 3], none, 0, 0⟩
        { sample_processor_overflow with
          running := true, audio_buffer := [0, 0, 0, 0, 0] }).sink = [[0, 0, 1]]) := by
  refine ⟨⟨rfl, rfl, rfl, rfl⟩, ⟨rfl, rfl⟩, ⟨rfl, rfl⟩⟩

/-- C24, amended: with a fixed configuration that holds the entry `enable_censoring`, with
`buffer_size_in_chunks = C >= 1` and `C * chunk_size` within the range of `int` (the buffer is
then initialised by `run` to `C` chunks of zeros) and chunks of `chunk_size` samples, after
any non-paused iterations of the first loop (`priming`) and of the main loop (`running`) the
next iteration of the main loop extracts a chunk, and this chunk is the one captured `C - 1`
iterations earlier, or a chunk of zeros when fewer than `C - 1` chunks were captured before
it; the iteration advances `chunks_processed`. -/
theorem popped_chunk_is_delayed_capture (lib : Lib) (ps : Parsers) (C chunk_size : Nat)
    (a started : AudioProcessor) (e : CppString) (priming running : List Tick) (tick : Tick)
    (hC : 1 ≤ C) (hfit : C * chunk_size < 2147483648)
    (hsize : a.buffer_size_in_chunks = (C : Int)) (hpaused : a.paused = false)
    (hcfg : a.config.lookup "enable_censoring" = some e)
    (hstart : AudioProcessor.run_init chunk_size a = some started)
    (hlen : ∀ t ∈ priming ++ running ++ [tick], t.input_chunk.length = chunk_size) :
    started.audio_buffer = List.replicate (C * chunk_size) 0 ∧
    (∃ rest,
      pop_chunk chunk_size
        (push
          (buffer_capacity
            (AudioProcessor.run_loops lib ps chunk_size priming running
              started).buffer_size_in_chunks chunk_size)
          (AudioProcessor.run_loops lib ps chunk_size priming running started).audio_buffer
          tick.input_chunk) =
      some
        (if C - 1 ≤ ((priming ++ running).map Tick.input_chunk).length then
          ((priming ++ running).map Tick.input_chunk ++ [tick.input_chunk]).getD
            (((priming ++ running).map Tick.input_chunk).length - (C - 1)) []
        else List.replicate chunk_size 0, rest)) ∧
    (AudioProcessor.main_iteration lib ps chunk_size tick
      (AudioProcessor.run_loops lib ps chunk_size priming running started)).chunks_processed =
      (AudioProcessor.run_loops lib ps chunk_size priming running started).chunks_processed +
        1 := by
  have hinit := LoopInv_run_init C chunk_size a started hfit hsize hpaused hstart
  have hp := LoopInv_priming_fold lib ps C chunk_size a.config hC hfit priming [] started hinit
    (fun t ht => hlen t (by simp [ht]))
  have hr := LoopInv_main_fold lib ps C chunk_size a.config e hC hfit hcfg running _ _ hp
    (fun t ht => hlen t (by simp [ht]))
  have hlast := LoopInv_main lib ps C chunk_size a.config e _ _ tick hC hfit hcfg hr
    (hlen tick (by simp))
  have hcap : [] ++ priming.map Tick.input_chunk ++ running.map Tick.input_chunk =
      (priming ++ running).map Tick.input_chunk := by simp
  rw [hcap, delayed_chunk_eq C chunk_size _ _ hC] at hlast
  have hbuf : started.audio_buffer = List.replicate (C * chunk_size) 0 := by
    unfold AudioProcessor.run_init at hstart
    have hz : (0 : Int) ≤ ((C * chunk_size : Nat) : Int) := Int.ofNat_nonneg _
    rw [hsize, wrap32_mul_natCast C chunk_size hfit, if_pos hz] at hstart
    cases hstart
    simp only [Int.toNat_ofNat]
  exact ⟨hbuf, hlast.1, hlast.2.1⟩

theorem popped_chunk_is_delayed_capture_witness :
    1 ≤ 2 ∧ 2 * 2 < 2147483648 ∧
    sample_processor.buffer_size_in_chunks = ((2 : Nat) : Int) ∧
    sample_processor.paused = false ∧
    sample_processor.config.lookup "enable_censoring" = some (utf8 "false") ∧
    AudioProcessor.run_init 2 sample_processor = some sample_started ∧
    (∀ t ∈ [sample_tick 1 2] ++ [sample_tick 3 4] ++ [sample_tick 5 6],
      t.input_chunk.length = 2) ∧
    ∃ rest,
      pop_chunk 2
        (push
          (buffer_capacity
            (AudioProcessor.run_loops literal_lib silence_parsers 2 [sample_tick 1 2]
              [sample_tick 3 4] sample_started).buffer_size_in_chunks 2)
          (AudioProcessor.run_loops literal_lib silence_parsers 2 [sample_tick 1 2]
            [sample_tick 3 4] sample_started).audio_buffer
          (sample_tick 5 6).input_chunk) =
      some
        (if 2 - 1 ≤ (([sample_tick 1 2] ++ [sample_tick 3 4]).map Tick.input_chunk).length then
          (([sample_tick 1 2] ++ [sample_tick 3 4]).map Tick.input_chunk ++
            [(sample_tick 5 6).input_chunk]).getD
            ((([sample_tick 1 2] ++ [sample_tick 3 4]).map Tick.input_chunk).length - (2 - 1)) []
        else List.replicate 2 0, rest) := by
  have hlen : ∀ t ∈ [sample_tick 1 2] ++ [sample_tick 3 4] ++ [sample_tick 5 6],
      t.input_chunk.length = 2 := by
    intro t ht
    simp only [List.cons_append, List.nil_append, List.mem_cons, List.mem_singleton,
      List.not_mem_nil, or_false] at ht
    rcases ht with rfl | rfl | rfl <;> rfl
  exact ⟨by decide, by decide, rfl, rfl, rfl, rfl, hlen,
    (popped_chunk_is_delayed_capture literal_lib silence_parsers 2 2 sample_processor
      sample_started (utf8 "false") [sample_tick 1 2] [sample_tick 3 4] (sample_tick 5 6)
      (by decide) (by decide) rfl rfl rfl rfl hlen).2.1⟩
